import Mathlib

/-!
# Buffered I/O and HTTP/1.1 framing of the vendored `std@0.84.0` layer

A shallow embedding of `io/bufio.ts` (`BufReader`, `BufWriter`), `bytes/mod.ts`
(`copy`), `http/_io.ts` (`chunkedBodyReader`, `writeChunkedBody`, `writeResponse`,
`readTrailers`, `parseHTTPVersion`, `readRequest`, `fixLength`) and
`modules/replit_db.ts`, with the properties proved about them.

Conventions of the embedding.
* A `Uint8Array` is a `List Byte` with `Byte := Nat`; `a.subarray(i, j)` is `slice a i j`,
  and writing `bs` into `a` at offset `off` (`a.set(bs, off)`) is `writeAt a off bs`.
* An `async` method of a stateful object is a function from the state to a result and
  the next state.  A thrown error is `Except.error`; the state reached when the error
  is thrown is kept, because callers catch errors and go on (`readLine`).
* A string that the source inspects character by character (the request line, a version)
  is the list of its code units; header names and values are `String`s, with
  `toLowerCase`, `trim` and `split` defined on their characters.
* Loops that the source writes as `while` are recursions on a counter; the counter is
  chosen from the arguments so that it is never exhausted when the underlying stream
  makes progress, and `Err.fuel` marks exhaustion.
-/

namespace Deno

/-- One element of a `Uint8Array`. -/
abbrev Byte := Nat

/-- The errors thrown by the embedded code.  `part` is the `partial` property that
`bufio.ts` attaches to an error. -/
inductive Err where
  /-- The source's `BufferFullError(partial)` -/
  | bufferFull (part : List Byte)
  /-- The source's `PartialReadError` (a `Deno.errors.UnexpectedEof`) with its `partial` -/
  | partialRead (part : List Byte)
  /-- The source's `Deno.errors.UnexpectedEof` -/
  | unexpectedEof
  /-- The source's `Deno.errors.InvalidData(msg)` -/
  | invalidData (msg : String)
  /-- The source's `Error("bufio: tried to fill full buffer")` -/
  | fillFull
  /-- The source's `Error("No progress after 100 read() calls")` -/
  | noProgress
  /-- The source's `Error("negative count")` -/
  | negativeCount
  /-- a failed `assert` -/
  | assertion
  /-- an error thrown by the underlying `Deno.Writer` -/
  | io (code : Nat)
  /-- the loop counter of the embedding ran out -/
  | fuel
  /-- a plain `Error(msg)` -/
  | error (msg : String)
  /-- a `TypeError` of the runtime -/
  | typeError
  deriving DecidableEq

/-- The source's `a.subarray(i, j)` for `i ≤ j`. -/
def slice (a : List Byte) (i j : Nat) : List Byte := (a.drop i).take (j - i)

/-- The source's `a.set(bs, off)`: overwrite `a` from offset `off` with `bs` (which
fits). -/
def writeAt (a : List Byte) (off : Nat) (bs : List Byte) : List Byte :=
  a.take off ++ bs ++ a.drop (off + bs.length)

/-- The source's `copy(src, dst, off)` of `bytes/mod.ts`: the number of bytes copied and
the new `dst`. -/
def copy (src dst : List Byte) (off : Nat) : Nat × List Byte :=
  let off := max 0 (min off dst.length)
  let dstBytesAvailable := dst.length - off
  let src := if src.length > dstBytesAvailable then slice src 0 dstBytesAvailable else src
  (src.length, writeAt dst off src)

/-! ## The underlying `Deno.Writer` -/

/-- What one `write` call of the underlying writer does: accept at most `n` bytes, or throw. -/
inductive WAct where
  | accept (n : Nat)
  | fail (code : Nat)
  deriving DecidableEq

/-- An underlying `Deno.Writer`: the bytes it has received and what its next calls do.
When `plan` is exhausted every call accepts all it is given. -/
structure Writer where
  out : List Byte
  plan : List WAct
  deriving DecidableEq

/-- The source's `writer.write(data)`: the number of bytes accepted (between 0 and
`data.length`). -/
def Writer.write (w : Writer) (data : List Byte) : Except Err Nat × Writer :=
  match w.plan with
  | [] => (.ok data.length, { w with out := w.out ++ data })
  | .accept n :: rest => (.ok (min n data.length), { out := w.out ++ data.take n, plan := rest })
  | .fail c :: rest => (.error (.io c), { w with plan := rest })

/-- The writer never throws and accepts at least one byte per call. -/
def Writer.Good (w : Writer) : Prop := ∀ a ∈ w.plan, ∃ n, a = WAct.accept n ∧ 0 < n

/-- The loop of `Deno.writeAll`:
`while (nwritten < arr.length) nwritten += await w.write(arr.subarray(nwritten))`. -/
def writeAllLoop : Nat → Writer → List Byte → Nat → Except Err Unit × Writer
  | 0, w, _, _ => (.error .fuel, w)
  | fuel + 1, w, arr, nwritten =>
    if nwritten < arr.length then
      match w.write (arr.drop nwritten) with
      | (.error e, w1) => (.error e, w1)
      | (.ok n, w1) => writeAllLoop fuel w1 arr (nwritten + n)
    else (.ok (), w)

/-- The source's `Deno.writeAll(w, arr)` (runtime built-in). -/
def writeAll (w : Writer) (arr : List Byte) : Except Err Unit × Writer :=
  writeAllLoop (arr.length + w.plan.length + 1) w arr 0

/-! ## `BufWriter` -/

/-- The source's `DEFAULT_BUF_SIZE` -/
def DEFAULT_BUF_SIZE : Nat := 4096

/-- The source's `MIN_BUF_SIZE` -/
def MIN_BUF_SIZE : Nat := 16

/-- The source's `MAX_CONSECUTIVE_EMPTY_READS` -/
def MAX_CONSECUTIVE_EMPTY_READS : Nat := 100

/-- The source's `CR` -/
def CR : Byte := 13

/-- The source's `LF` -/
def LF : Byte := 10

/-- The state of a `BufWriter` (fields of `AbstractBufBase` and `BufWriter`). -/
structure BufWriter where
  buf : List Byte
  usedBufferBytes : Nat
  err : Option Err
  writer : Writer
  deriving DecidableEq

/-- The source's `new BufWriter(writer, size)` -/
def BufWriter.new (writer : Writer) (size : Int) : BufWriter :=
  let size := if size ≤ 0 then (DEFAULT_BUF_SIZE : Int) else size
  { buf := List.replicate size.toNat 0, usedBufferBytes := 0, err := none, writer := writer }

/-- The source's `available()` -/
def BufWriter.available (b : BufWriter) : Nat := b.buf.length - b.usedBufferBytes

/-- The source's `buffered()` -/
def BufWriter.buffered (b : BufWriter) : Nat := b.usedBufferBytes

/-- The source's `reset(w)` -/
def BufWriter.reset (b : BufWriter) (w : Writer) : BufWriter :=
  { b with err := none, usedBufferBytes := 0, writer := w }

/-- The source's `flush()` -/
def BufWriter.flush (b : BufWriter) : Except Err Unit × BufWriter :=
  match b.err with
  | some e => (.error e, b)
  | none =>
    if b.usedBufferBytes = 0 then (.ok (), b)
    else
      match writeAll b.writer (slice b.buf 0 b.usedBufferBytes) with
      | (.error e, w1) => (.error e, { b with writer := w1, err := some e })
      | (.ok (), w1) =>
        (.ok (), { b with writer := w1, buf := List.replicate b.buf.length 0,
                          usedBufferBytes := 0 })

/-- The `while (data.byteLength > this.available())` loop of `write` and the copy
after it; `total` is `totalBytesWritten`. -/
def BufWriter.writeLoop : Nat → BufWriter → List Byte → Nat → Except Err Nat × BufWriter
  | 0, b, _, _ => (.error .fuel, b)
  | fuel + 1, b, data, total =>
    if data.length > b.available then
      if b.buffered = 0 then
        match b.writer.write data with
        | (.error e, w1) => (.error e, { b with writer := w1, err := some e })
        | (.ok n, w1) => writeLoop fuel { b with writer := w1 } (data.drop n) (total + n)
      else
        let c := copy data b.buf b.usedBufferBytes
        let b1 := { b with buf := c.2, usedBufferBytes := b.usedBufferBytes + c.1 }
        match b1.flush with
        | (.error e, b2) => (.error e, b2)
        | (.ok (), b2) => writeLoop fuel b2 (data.drop c.1) (total + c.1)
    else
      let c := copy data b.buf b.usedBufferBytes
      (.ok (total + c.1), { b with buf := c.2, usedBufferBytes := b.usedBufferBytes + c.1 })

/-- The source's `write(data)` -/
def BufWriter.write (b : BufWriter) (data : List Byte) : Except Err Nat × BufWriter :=
  match b.err with
  | some e => (.error e, b)
  | none =>
    if data.length = 0 then (.ok 0, b)
    else BufWriter.writeLoop (data.length + b.writer.plan.length + 2) b data 0

/-- A call made on a `BufWriter` by its client. -/
inductive WOp where
  | write (data : List Byte)
  | flush
  deriving DecidableEq

/-- Run one client call, forgetting the returned count. -/
def BufWriter.step (b : BufWriter) : WOp → Except Err Unit × BufWriter
  | .write d => match b.write d with
    | (.ok _, b1) => (.ok (), b1)
    | (.error e, b1) => (.error e, b1)
  | .flush => b.flush

/-- The calls `write(d1); ...; write(dk)`, stopping at the first error. -/
def BufWriter.writeMany (b : BufWriter) : List (List Byte) → Except Err Unit × BufWriter
  | [] => (.ok (), b)
  | d :: ds => match b.write d with
    | (.ok _, b1) => b1.writeMany ds
    | (.error e, b1) => (.error e, b1)

/-- The bytes held in the buffer of a `BufWriter`. -/
def BufWriter.pending (b : BufWriter) : List Byte := b.buf.take b.usedBufferBytes

/-- The state of a `BufWriter` that has not failed: the fill level is within the buffer. -/
structure BufWriter.WF (b : BufWriter) : Prop where
  used_le : b.usedBufferBytes ≤ b.buf.length
  size_pos : 0 < b.buf.length
  no_err : b.err = none
  good : b.writer.Good

/-- Run the client calls `ops` one after the other, going on after an error as a client
that catches it would: the result of every call, and the final state. -/
def BufWriter.run (b : BufWriter) : List WOp → List (Except Err Unit) × BufWriter
  | [] => ([], b)
  | op :: ops => ((b.step op).1 :: ((b.step op).2.run ops).1, ((b.step op).2.run ops).2)

/-- The source's `writeResponse(w, r)` of `http/_io.ts` from the point where the header
block `out` has been built and encoded (`header`), for a response whose body is a `Uint8Array` (an absent
body has been replaced by an empty array and a string body by its encoding) and that
has no `trailers`:
`n = await writer.write(header); assert(n === header.byteLength);`
`n = await writer.write(r.body); assert(n === r.body.byteLength); await writer.flush()`. -/
def writeResponse (writer : BufWriter) (header body : List Byte) : Except Err Unit × BufWriter :=
  match writer.write header with
  | (.error e, w1) => (.error e, w1)
  | (.ok n, w1) =>
    if n ≠ header.length then (.error .assertion, w1)
    else
      match w1.write body with
      | (.error e, w2) => (.error e, w2)
      | (.ok n, w2) =>
        if n ≠ body.length then (.error .assertion, w2)
        else w2.flush

/-- The error is one that the embedding lets the writer side raise by itself: the
underlying writer's, or the exhausted counter. -/
def Err.fromWriter (e : Err) : Prop := e = .fuel ∨ ∃ c, e = .io c

/-! ## The underlying `Deno.Reader` -/

/-- An underlying `Deno.Reader`: the bytes still to come and, for its next `read` calls,
the most bytes each is willing to return.  When `sizes` is exhausted every call returns
as much as fits.  At the end of the data `read` returns `null`. -/
structure Reader where
  data : List Byte
  sizes : List Nat
  deriving DecidableEq

/-- The source's `rd.read(p)` for a `p` of length `n`: `none` is `null` (end of stream), `some bs`
are the bytes stored at the start of `p` (the returned count is `bs.length`). -/
def Reader.read (rd : Reader) (n : Nat) : Option (List Byte) × Reader :=
  match rd.data with
  | [] => (none, rd)
  | _ :: _ =>
    match rd.sizes with
    | [] => (some (rd.data.take n), { rd with data := rd.data.drop n })
    | k :: rest => (some (rd.data.take (min k n)), { data := rd.data.drop (min k n), sizes := rest })

/-- The reader returns at least one byte per `read` until the end of the stream. -/
def Reader.Good (rd : Reader) : Prop := ∀ k ∈ rd.sizes, 0 < k

/-! ## `BufReader` -/

/-- The source's `a.copyWithin(target, start, stop)` when the copied range fits. -/
def copyWithin (a : List Byte) (target start stop : Nat) : List Byte :=
  writeAt a target (slice a start stop)

/-- The source's `a.indexOf(d)`, `none` standing for `-1`. -/
def indexOf : List Byte → Byte → Option Nat
  | [], _ => none
  | x :: xs, d => if x = d then some 0 else (indexOf xs d).map (· + 1)

/-- The state of a `BufReader`. -/
structure BufReader where
  buf : List Byte
  rd : Reader
  r : Nat
  w : Nat
  eof : Bool
  deriving DecidableEq

/-- The source's `new BufReader(rd, size)` -/
def BufReader.new (rd : Reader) (size : Int) : BufReader :=
  let size := if size < (MIN_BUF_SIZE : Int) then (MIN_BUF_SIZE : Int) else size
  { buf := List.replicate size.toNat 0, rd := rd, r := 0, w := 0, eof := false }

/-- The source's `buffered()` -/
def BufReader.buffered (b : BufReader) : Nat := b.w - b.r

/-- The `for` loop of `_fill`: up to `MAX_CONSECUTIVE_EMPTY_READS` reads into
`buf.subarray(w)`. -/
def BufReader.fillLoop : Nat → BufReader → Except Err Unit × BufReader
  | 0, b => (.error .noProgress, b)
  | i + 1, b =>
    match b.rd.read (b.buf.length - b.w) with
    | (none, rd1) => (.ok (), { b with rd := rd1, eof := true })
    | (some bs, rd1) =>
      let b1 := { b with rd := rd1, buf := writeAt b.buf b.w bs, w := b.w + bs.length }
      if bs.length > 0 then (.ok (), b1) else fillLoop i b1

/-- The source's `_fill()`: slide the buffered data to the start and read a new chunk. -/
def BufReader._fill (b : BufReader) : Except Err Unit × BufReader :=
  let b := if b.r > 0 then
      { b with buf := copyWithin b.buf 0 b.r b.w, w := b.w - b.r, r := 0 }
    else b
  if b.w ≥ b.buf.length then (.error .fillFull, b)
  else BufReader.fillLoop MAX_CONSECUTIVE_EMPTY_READS b

/-- The tail of `read`: `copied = copy(buf.subarray(r, w), p, 0); r += copied`. -/
def BufReader.readCopy (b : BufReader) (p : List Byte) : (Option Nat × List Byte) × BufReader :=
  let c := copy (slice b.buf b.r b.w) p 0
  ((some c.1, c.2), { b with r := b.r + c.1 })

/-- The source's `read(p)`: the returned count (`none` for `null`) and the new contents
of `p`. -/
def BufReader.read (b : BufReader) (p : List Byte) : (Option Nat × List Byte) × BufReader :=
  if p.length = 0 then ((some p.length, p), b)
  else if b.r = b.w then
    if p.length ≥ b.buf.length then
      match b.rd.read p.length with
      | (none, rd1) => ((none, p), { b with rd := rd1 })
      | (some bs, rd1) => ((some bs.length, writeAt p 0 bs), { b with rd := rd1 })
    else
      match b.rd.read b.buf.length with
      | (none, rd1) => ((none, p), { b with r := 0, w := 0, rd := rd1 })
      | (some bs, rd1) =>
        if bs.length = 0 then
          ((some 0, p), { b with r := 0, w := 0, rd := rd1, buf := writeAt b.buf 0 bs })
        else
          BufReader.readCopy
            { b with r := 0, w := 0 + bs.length, rd := rd1, buf := writeAt b.buf 0 bs } p
  else BufReader.readCopy b p

/-- The `while (bytesRead < p.length)` loop of `readFull`. -/
def BufReader.readFullLoop :
    Nat → BufReader → List Byte → Nat → Except Err (Option (List Byte)) × BufReader
  | 0, b, _, _ => (.error .fuel, b)
  | fuel + 1, b, p, bytesRead =>
    if bytesRead < p.length then
      match b.read (p.drop bytesRead) with
      | ((none, _), b1) =>
        if bytesRead = 0 then (.ok none, b1)
        else (.error (.partialRead (slice p 0 bytesRead)), b1)
      | ((some rr, sub), b1) => readFullLoop fuel b1 (p.take bytesRead ++ sub) (bytesRead + rr)
    else (.ok (some p), b)

/-- The source's `readFull(p)`: `p` filled, `none` for `null`, or `PartialReadError` with
its `partial`. -/
def BufReader.readFull (b : BufReader) (p : List Byte) :
    Except Err (Option (List Byte)) × BufReader :=
  BufReader.readFullLoop (p.length + b.rd.sizes.length + 1) b p 0

/-- The `while (true)` loop of `readSlice`; `s` is the search start index. -/
def BufReader.readSliceLoop (delim : Byte) :
    Nat → Nat → BufReader → Except Err (Option (List Byte)) × BufReader
  | 0, _, b => (.error .fuel, b)
  | fuel + 1, s, b =>
    match indexOf (slice b.buf (b.r + s) b.w) delim with
    | some i =>
      (.ok (some (slice b.buf b.r (b.r + (i + s + 1)))), { b with r := b.r + (i + s + 1) })
    | none =>
      if b.eof then
        if b.r = b.w then (.ok none, b)
        else (.ok (some (slice b.buf b.r b.w)), { b with r := b.w })
      else if b.buffered ≥ b.buf.length then
        (.error (.bufferFull b.buf), { b with r := b.w })
      else
        match b._fill with
        | (.error e, b1) => (.error e, b1)
        | (.ok (), b1) => readSliceLoop delim fuel (b.w - b.r) b1

/-- The source's `readSlice(delim)` -/
def BufReader.readSlice (b : BufReader) (delim : Byte) :
    Except Err (Option (List Byte)) × BufReader :=
  BufReader.readSliceLoop delim (b.buf.length + 2) 0 b

/-- The value returned by `readLine()`. -/
structure ReadLineResult where
  line : List Byte
  more : Bool
  deriving DecidableEq

/-- The source's `readLine()`.  An error of `readSlice` other than `BufferFullError` comes from
`_fill` and has no `partial`, so the first `assert` fails on it. -/
def BufReader.readLine (b : BufReader) : Except Err (Option ReadLineResult) × BufReader :=
  match b.readSlice LF with
  | (.error (.bufferFull part), b1) =>
    if b1.eof = false ∧ part.length > 0 ∧ part[part.length - 1]? = some CR then
      if b1.r > 0 then
        (.ok (some ⟨slice part 0 (part.length - 1), !b1.eof⟩), { b1 with r := b1.r - 1 })
      else (.error .assertion, b1)
    else (.ok (some ⟨part, !b1.eof⟩), b1)
  | (.error _, b1) => (.error .assertion, b1)
  | (.ok none, b1) => (.ok none, b1)
  | (.ok (some l), b1) =>
    if l.length = 0 then (.ok (some ⟨l, false⟩), b1)
    else if l[l.length - 1]? = some LF then
      let drop := if l.length > 1 ∧ l[l.length - 2]? = some CR then 2 else 1
      (.ok (some ⟨slice l 0 (l.length - drop), false⟩), b1)
    else (.ok (some ⟨l, false⟩), b1)

/-- The `while (avail < n && avail < buf.byteLength && !eof)` loop of `peek`. -/
def BufReader.peekLoop (n : Nat) : Nat → BufReader → Except Err Unit × BufReader
  | 0, b => (.error .fuel, b)
  | fuel + 1, b =>
    if b.w - b.r < n ∧ b.w - b.r < b.buf.length ∧ b.eof = false then
      match b._fill with
      | (.error e, b1) => (.error e, b1)
      | (.ok (), b1) => peekLoop n fuel b1
    else (.ok (), b)

/-- The source's `peek(n)` -/
def BufReader.peek (b : BufReader) (n : Int) : Except Err (Option (List Byte)) × BufReader :=
  if n < 0 then (.error .negativeCount, b)
  else
    match BufReader.peekLoop n.toNat (b.buf.length + 2) b with
    | (.error e, b1) => (.error e, b1)
    | (.ok (), b1) =>
      let avail := b1.w - b1.r
      if avail = 0 ∧ b1.eof = true then (.ok none, b1)
      else if avail < n.toNat ∧ b1.eof = true then
        (.ok (some (slice b1.buf b1.r (b1.r + avail))), b1)
      else if avail < n.toNat then (.error (.bufferFull (slice b1.buf b1.r b1.w)), b1)
      else (.ok (some (slice b1.buf b1.r (b1.r + n.toNat))), b1)

/-- The bytes held in the buffer of a `BufReader`: `buf.subarray(r, w)`. -/
def BufReader.avail (b : BufReader) : List Byte := slice b.buf b.r b.w

/-- The bytes that a `BufReader` has still to deliver: the buffered ones, then those
of the underlying reader. -/
def BufReader.stream (b : BufReader) : List Byte := b.avail ++ b.rd.data

/-- The states a `BufReader` can be in, over a reader that makes progress. -/
structure BufReader.WF (b : BufReader) : Prop where
  r_le : b.r ≤ b.w
  w_le : b.w ≤ b.buf.length
  size_pos : 0 < b.buf.length
  eof_data : b.eof = true → b.rd.data = []
  good : b.rd.Good
  eof_room : b.eof = true → b.w - b.r < b.buf.length

/-- What `readSlice(delim)` is to do on a reader with a buffer of `size` bytes when the
bytes `st` remain: the result, and the bytes that remain afterwards. -/
def sliceExpect (size : Nat) (delim : Byte) (st : List Byte) :
    Except Err (Option (List Byte)) × List Byte :=
  match indexOf (st.take size) delim with
  | some j => (.ok (some (st.take (j + 1))), st.drop (j + 1))
  | none =>
    if st.length < size then (if st = [] then .ok none else .ok (some st), [])
    else (.error (.bufferFull (st.take size)), st.drop size)

/-- A line without the `\r` that precedes its `\n`. -/
def stripCR (l : List Byte) : List Byte := if l.getLast? = some CR then l.dropLast else l

/-- What `readLine()` is to do on a reader with a buffer of `size` bytes when the bytes
`st` remain: the result, and the bytes that remain afterwards. -/
def lineExpect (size : Nat) (st : List Byte) : Except Err (Option ReadLineResult) × List Byte :=
  match indexOf (st.take size) LF with
  | some j => (.ok (some ⟨stripCR (st.take j), false⟩), st.drop (j + 1))
  | none =>
    if st.length < size then (if st = [] then .ok none else .ok (some ⟨st, false⟩), [])
    else if (st.take size).getLast? = some CR then
      (.ok (some ⟨st.take (size - 1), true⟩), st.drop (size - 1))
    else (.ok (some ⟨st.take size, true⟩), st.drop size)

/-! ## `http/_io.ts`: chunked bodies -/

/-- The value of a hexadecimal digit character, `none` for any other byte. -/
def hexVal (c : Nat) : Option Nat :=
  if 48 ≤ c ∧ c ≤ 57 then some (c - 48)
  else if 97 ≤ c ∧ c ≤ 102 then some (c - 87)
  else if 65 ≤ c ∧ c ≤ 70 then some (c - 55)
  else none

/-- The character of a hexadecimal digit as `Number.prototype.toString(16)` writes it. -/
def hexChar (d : Nat) : Nat := if d < 10 then 48 + d else 87 + d

/-- The hexadecimal digits of `n`, least significant first (none for 0). -/
def hexDigitsRev : Nat → Nat → List Nat
  | 0, _ => []
  | fuel + 1, n => if n = 0 then [] else (n % 16) :: hexDigitsRev fuel (n / 16)

/-- The source's `encoder.encode(n.toString(16))` for a natural number `n`. -/
def toString16 (n : Nat) : List Nat :=
  if n = 0 then [48] else ((hexDigitsRev n n).reverse).map hexChar

/-- The longest run of hexadecimal digits at the start of `s`, read as a number;
`acc` is `none` as long as no digit has been read. -/
def parseDigits16 : List Nat → Option Nat → Option Nat
  | [], acc => acc
  | c :: cs, acc =>
    match hexVal c with
    | some d => parseDigits16 cs (some (acc.getD 0 * 16 + d))
    | none => acc

/-- White space that `parseInt` skips, as far as it is ASCII. -/
def isWhite (c : Nat) : Bool := c = 32 || (9 ≤ c && c ≤ 13)

/-- The source's `parseInt(s, 16)` on an ASCII string given by its bytes: leading white space, an
optional sign, an optional `0x`, then the longest run of hexadecimal digits; `none` is
`NaN`.  (Runtime built-in; values are exact below `2^53`.) -/
def parseInt16 (s : List Nat) : Option Int :=
  let s := s.dropWhile isWhite
  let neg := s.head? = some 45
  let s := if s.head? = some 45 ∨ s.head? = some 43 then s.tail else s
  let s := match s with
    | 48 :: 120 :: t => t
    | 48 :: 88 :: t => t
    | _ => s
  match parseDigits16 s none with
  | none => none
  | some v => some (if neg then -(v : Int) else (v : Int))

/-- The source's `line.split(";")[0]`: the bytes before the first `;`. -/
def splitSemicolon (l : List Nat) : List Nat := l.takeWhile (fun c => c ≠ 59)

/-- The source's `skipSpace(l)` of `TextProtoReader`: the number of bytes that are neither a space
nor a tab. -/
def skipSpace (l : List Byte) : Nat := (l.filter (fun c => c ≠ 32 ∧ c ≠ 9)).length

/-- The `while (true)` loop of `TextProtoReader.readLineSlice`; `acc` is `line`
(`none` while undefined). -/
def tpReadLineSliceLoop :
    Nat → BufReader → Option (List Byte) → Except Err (Option (List Byte)) × BufReader
  | 0, b, _ => (.error .fuel, b)
  | fuel + 1, b, acc =>
    match b.readLine with
    | (.error e, b1) => (.error e, b1)
    | (.ok none, b1) => (.ok none, b1)
    | (.ok (some res), b1) =>
      if acc = none ∧ res.more = false then
        if skipSpace res.line = 0 then (.ok (some []), b1) else (.ok (some res.line), b1)
      else
        let l := match acc with
          | some a => a ++ res.line
          | none => res.line
        if res.more = false then (.ok (some l), b1)
        else tpReadLineSliceLoop fuel b1 (some l)

/-- Modelled from the spec: `TextProtoReader.readLine` of `textproto/mod.ts` is not among
the sources, and the spec describes only the framing logic that calls it.  It is
modelled as the line reader that the callers assume (`// Consume \r\n`): it reads one
line through `BufReader.readLine`, joining the fragments of a line longer than the
buffer, and returns it without its line end (`null` at the end of the stream); a line
made only of spaces and tabs is returned empty.  The returned string is given by its
bytes. -/
def tpReadLine (b : BufReader) : Except Err (Option (List Byte)) × BufReader :=
  tpReadLineSliceLoop (b.stream.length + 2) b none

/-- The lower case of one character where it is an ASCII character: the letters `A` to
`Z` and the Kelvin sign U+212A, which is the one other character whose lower case (`k`) is
ASCII.  Every other character is left as it is. -/
def lowerChar (c : Char) : Char := if c.toNat = 8490 then 'k' else c.toLower

/-- The source's `s.toLowerCase()`.  It is exact on every string whose lower case is
ASCII; on other strings the characters outside ASCII are kept, which neither a comparison
with an ASCII name nor the check of a header name can tell from their lower case. -/
def toLowerCase (s : String) : String := String.mk (s.data.map lowerChar)

/-- The characters that `String.prototype.trim` removes: the white space and the line
terminators of ECMAScript (TAB, LF, VT, FF, CR, SP, U+00A0, U+1680, U+2000 to U+200A,
U+2028, U+2029, U+202F, U+205F, U+3000, U+FEFF). -/
def isSpace (c : Char) : Bool :=
  (9 ≤ c.toNat && c.toNat ≤ 13) || c.toNat = 32 || c.toNat = 160 || c.toNat = 5760
    || (8192 ≤ c.toNat && c.toNat ≤ 8202) || c.toNat = 8232 || c.toNat = 8233
    || c.toNat = 8239 || c.toNat = 8287 || c.toNat = 12288 || c.toNat = 65279

/-- The source's `s.trim()` -/
def trim (s : String) : String :=
  String.mk (((s.data.dropWhile isSpace).reverse.dropWhile isSpace).reverse)

/-- Split a list of characters at every `sep`; `cur` holds, reversed, the piece being
read. -/
def splitAux (sep : Char) : List Char → List Char → List (List Char)
  | [], cur => [cur.reverse]
  | c :: cs, cur =>
    if c = sep then cur.reverse :: splitAux sep cs [] else splitAux sep cs (c :: cur)

/-- The source's `s.split(sep)` for a separator of one character. -/
def split (s : String) (sep : Char) : List String := (splitAux sep s.data []).map String.mk

/-- The `Headers` of a request as far as the framing code uses them: the fields in
the order they were appended, names in lower case. -/
abbrev Headers := List (String × String)

/-- The source's `headers.get(name)`: the values of the field joined by `", "`, `none`
for `null`. -/
def Headers.get (h : Headers) (name : String) : Option String :=
  match (h.filter (fun kv => kv.1 = toLowerCase name)).map (fun kv => kv.2) with
  | [] => none
  | vs => some (String.intercalate ", " vs)

/-- The source's `headers.has(name)` -/
def Headers.has (h : Headers) (name : String) : Bool := h.any (fun kv => kv.1 = toLowerCase name)

/-- The source's `headers.append(name, value)` -/
def Headers.append (h : Headers) (name value : String) : Headers := h ++ [(toLowerCase name, value)]

/-- The source's `headers.delete(name)` -/
def Headers.delete (h : Headers) (name : String) : Headers :=
  h.filter (fun kv => kv.1 ≠ toLowerCase name)

/-- The source's `[...headers.keys()]`: each field name once, here in the order of first
occurrence (the runtime sorts the names; the order shows only in error messages). -/
def Headers.keys (h : Headers) : List String := (h.map (fun kv => kv.1)).eraseDups

/-- The source's `[...headers]`: each field name once with its joined values. -/
def Headers.entries (h : Headers) : List (String × String) :=
  (Headers.keys h).map (fun k => (k, (Headers.get h k).getD ""))

/-- The source's `isProhibidedForTrailer(key)` -/
def isProhibidedForTrailer (key : String) : Bool :=
  ["transfer-encoding", "content-length", "trailer"].contains (toLowerCase key)

/-- The characters of a header name (the `token` of RFC 7230): letters, digits and
``!#$%&'*+-.^_`|~``. -/
def isTokenChar (c : Char) : Bool :=
  c.toNat = 33 || (35 ≤ c.toNat && c.toNat ≤ 39) || c.toNat = 42 || c.toNat = 43
    || c.toNat = 45 || c.toNat = 46 || (48 ≤ c.toNat && c.toNat ≤ 57)
    || (65 ≤ c.toNat && c.toNat ≤ 90) || (94 ≤ c.toNat && c.toNat ≤ 122)
    || c.toNat = 124 || c.toNat = 126

/-- The check of a name that the runtime's `Headers` makes before it takes a field: the
name is a non-empty string of token characters. -/
def isHeaderName (name : String) : Bool := name ≠ "" && name.data.all isTokenChar

/-- The runtime's `new Headers(init)` for a list of pairs whose names are in lower case
and whose values need no trimming: a `TypeError` when a name is not a header name. -/
def newHeaders (init : List (String × String)) : Except Err Headers :=
  if init.all (fun kv => isHeaderName kv.1) then .ok init else .error .typeError

/-- The source's `parseTrailer(field)`: `none` is `undefined`. -/
def parseTrailer (field : Option String) : Except Err (Option Headers) :=
  match field with
  | none => .ok none
  | some field =>
    let trailerNames := (split field ',').map (fun v => toLowerCase (trim v))
    if trailerNames.length = 0 then .error (.invalidData "Empty trailer header.")
    else
      let prohibited := trailerNames.filter isProhibidedForTrailer
      if prohibited.length > 0 then .error (.invalidData "Prohibited trailer names")
      else
        match newHeaders (trailerNames.map (fun key => (key, ""))) with
        | .error e => .error e
        | .ok h => .ok (some h)

/-- The source's `readTrailers(headers, r)`: the new `headers`.  `mime` is
`TextProtoReader.readMIMEHeader`, which is not among the sources.  The messages of the
errors stop before the list of names that the source appends to them. -/
def readTrailers (mime : BufReader → Except Err (Option Headers) × BufReader)
    (headers : Headers) (r : BufReader) : Except Err Headers × BufReader :=
  match parseTrailer (Headers.get headers "trailer") with
  | .error e => (.error e, r)
  | .ok none => (.ok headers, r)
  | .ok (some trailers) =>
    let trailerNames := Headers.keys trailers
    match mime r with
    | (.error e, r1) => (.error e, r1)
    | (.ok none, r1) => (.error (.invalidData "Missing trailer header."), r1)
    | (.ok (some result), r1) =>
      let undeclared := (Headers.keys result).filter (fun k => !trailerNames.contains k)
      if undeclared.length > 0 then (.error (.invalidData "Undeclared trailers"), r1)
      else
        let headers1 := (Headers.entries result).foldl (fun hs kv => Headers.append hs kv.1 kv.2)
          headers
        let missingTrailers := trailerNames.filter (fun k => !Headers.has result k)
        if missingTrailers.length > 0 then (.error (.invalidData "Missing trailers"), r1)
        else (.ok (Headers.delete headers1 "trailer"), r1)

/-- One entry of the `chunks` queue of `chunkedBodyReader`. -/
structure Chunk where
  offset : Nat
  data : List Byte
  deriving DecidableEq

/-- The state of the reader returned by `chunkedBodyReader(h, r)`. -/
structure ChunkedBodyReader where
  h : Headers
  r : BufReader
  finished : Bool
  chunks : List Chunk

/-- The source's `chunkedBodyReader(h, r)` -/
def chunkedBodyReader (h : Headers) (r : BufReader) : ChunkedBodyReader :=
  { h := h, r := r, finished := false, chunks := [] }

/-- The step `// Consume \r\n` done with `tp.readLine()`, then the return of `n` and of
the filled `buf`. -/
def ChunkedBodyReader.consumeLine (c : ChunkedBodyReader) (n : Nat) (buf : List Byte) :
    Except Err (Option Nat × List Byte) × ChunkedBodyReader :=
  match tpReadLine c.r with
  | (.error e, r1) => (.error e, { c with r := r1 })
  | (.ok none, r1) => (.error .unexpectedEof, { c with r := r1 })
  | (.ok (some _), r1) => (.ok (some n, buf), { c with r := r1 })

/-- The `read(buf)` of `chunkedBodyReader`: the returned count (`none` for `null`) and
the new contents of `buf`. -/
def ChunkedBodyReader.read (mime : BufReader → Except Err (Option Headers) × BufReader)
    (c : ChunkedBodyReader) (buf : List Byte) :
    Except Err (Option Nat × List Byte) × ChunkedBodyReader :=
  if c.finished then (.ok (none, buf), c)
  else
    match c.chunks with
    | chunk :: rest =>
      let chunkRemaining := chunk.data.length - chunk.offset
      let readLength := min chunkRemaining buf.length
      let buf1 := writeAt buf 0 (slice chunk.data chunk.offset (chunk.offset + readLength))
      let offset1 := chunk.offset + readLength
      if offset1 = chunk.data.length then
        ChunkedBodyReader.consumeLine { c with chunks := rest } readLength buf1
      else (.ok (some readLength, buf1), { c with chunks := { chunk with offset := offset1 } :: rest })
    | [] =>
      match tpReadLine c.r with
      | (.error e, r1) => (.error e, { c with r := r1 })
      | (.ok none, r1) => (.error .unexpectedEof, { c with r := r1 })
      | (.ok (some l), r1) =>
        match parseInt16 (splitSemicolon l) with
        | none => (.error (.invalidData "Invalid chunk size"), { c with r := r1 })
        | some chunkSize =>
          if chunkSize < 0 then (.error (.invalidData "Invalid chunk size"), { c with r := r1 })
          else if chunkSize > 0 then
            if chunkSize.toNat > buf.length then
              match r1.readFull buf with
              | (.error e, r2) => (.error e, { c with r := r2 })
              | (.ok none, r2) => (.error .unexpectedEof, { c with r := r2 })
              | (.ok (some buf1), r2) =>
                match r2.readFull (List.replicate (chunkSize.toNat - buf.length) 0) with
                | (.error e, r3) => (.error e, { c with r := r3 })
                | (.ok none, r3) => (.error .unexpectedEof, { c with r := r3 })
                | (.ok (some restChunk), r3) =>
                  (.ok (some buf.length, buf1),
                    { c with r := r3, chunks := c.chunks ++ [{ offset := 0, data := restChunk }] })
            else
              match r1.readFull (slice buf 0 chunkSize.toNat) with
              | (.error e, r2) => (.error e, { c with r := r2 })
              | (.ok none, r2) => (.error .unexpectedEof, { c with r := r2 })
              | (.ok (some bufToFill), r2) =>
                ChunkedBodyReader.consumeLine { c with r := r2 } chunkSize.toNat
                  (writeAt buf 0 bufToFill)
          else
            match r1.readLine with
            | (.error e, r2) => (.error e, { c with r := r2 })
            | (.ok none, r2) => (.error .unexpectedEof, { c with r := r2 })
            | (.ok (some _), r2) =>
              match readTrailers mime c.h r2 with
              | (.error e, r3) => (.error e, { c with r := r3 })
              | (.ok h1, r3) => (.ok (none, buf), { c with h := h1, r := r3, finished := true })

/-- Read the body through `read` with the buffers `bufs 0`, `bufs 1`, ... until `read`
returns `null`: the bytes delivered, in order. -/
def ChunkedBodyReader.drain (mime : BufReader → Except Err (Option Headers) × BufReader)
    (bufs : Nat → List Byte) : Nat → Nat → ChunkedBodyReader → Except Err (List Byte)
  | 0, _, _ => .error .fuel
  | fuel + 1, i, c =>
    match c.read mime (bufs i) with
    | (.error e, _) => .error e
    | (.ok (none, _), _) => .ok []
    | (.ok (some n, buf1), c1) =>
      match ChunkedBodyReader.drain mime bufs fuel (i + 1) c1 with
      | .error e => .error e
      | .ok rest => .ok (buf1.take n ++ rest)

/-- The source's `writeChunkedBody(w, r)`, `chunks` being what `Deno.iter(r)` yields. -/
def writeChunkedBody (w : BufWriter) : List (List Byte) → Except Err Unit × BufWriter
  | [] =>
    match w.write [48, 13, 10, 13, 10] with
    | (.error e, w1) => (.error e, w1)
    | (.ok _, w1) => (.ok (), w1)
  | chunk :: rest =>
    if chunk.length ≤ 0 then writeChunkedBody w rest
    else
      match w.write (toString16 chunk.length ++ [13, 10]) with
      | (.error e, w1) => (.error e, w1)
      | (.ok _, w1) =>
        match w1.write chunk with
        | (.error e, w2) => (.error e, w2)
        | (.ok _, w2) =>
          match w2.write [13, 10] with
          | (.error e, w3) => (.error e, w3)
          | (.ok _, w3) =>
            match w3.flush with
            | (.error e, w4) => (.error e, w4)
            | (.ok (), w4) => writeChunkedBody w4 rest

/-- The chunked encoding of a list of chunks: each non-empty chunk as its length in
hexadecimal, `\r\n`, its bytes, `\r\n`; then `0\r\n\r\n`. -/
def wire : List (List Byte) → List Byte
  | [] => [48, 13, 10, 13, 10]
  | chunk :: rest =>
    if chunk.length ≤ 0 then wire rest
    else toString16 chunk.length ++ [13, 10] ++ chunk ++ [13, 10] ++ wire rest

/-- The states of a `chunkedBodyReader` while it decodes `wire chunks`: `pc` is what is
left of the chunk being delivered, `cs` are the chunks still encoded in the stream. -/
structure CInv (c : ChunkedBodyReader) (pc : List Byte) (cs : List (List Byte)) : Prop where
  not_finished : c.finished = false
  wf : c.r.WF
  size : 16 ≤ c.r.buf.length
  no_trailer : Headers.get c.h "trailer" = none
  nonempty : ∀ x ∈ cs, 0 < x.length
  small : ∀ x ∈ cs, x.length < 2 ^ 53
  queue : (c.chunks = [] ∧ pc = [] ∧ c.r.stream = wire cs) ∨
    (∃ ch, c.chunks = [ch] ∧ ch.offset < ch.data.length ∧ pc = ch.data.drop ch.offset ∧
      c.r.stream = [CR, LF] ++ wire cs)

/-- The byte stream that `writeChunkedBody` produces for `chunks`: what the underlying
writer has received when a fresh `BufWriter` of the given size over it has run
`writeChunkedBody` and been flushed (as `writeResponse` does). -/
def chunkedOutput (writer : Writer) (size : Int) (chunks : List (List Byte)) : List Byte :=
  ((writeChunkedBody (BufWriter.new writer size) chunks).2.flush).2.writer.out

/-! ## `http/_io.ts`: request line and headers -/

/-- The UTF-16 code units of a string of the source that is plain ASCII. -/
def codeUnits (s : String) : List Nat := s.data.map Char.toNat

/-- The string with the given code units, for error messages. -/
def fromCodeUnits (l : List Nat) : String := String.mk (l.map Char.ofNat)

/-- What `Number.isInteger` and the comparisons of the source can see of a number. -/
inductive JSNumber where
  /-- the value `NaN` -/
  | nan
  /-- an integral value -/
  | int (z : Int)
  /-- a finite value with a fractional part, or an infinity -/
  | nonInt
  deriving DecidableEq

/-- Whether `c` is one of the characters `0` to `9`. -/
def isDecDigit (c : Nat) : Bool := 48 ≤ c && c ≤ 57

/-- The number written by a string of decimal digits. -/
def digitsValue (s : List Nat) : Nat := s.foldl (fun acc c => acc * 10 + (c - 48)) 0

/-- The runtime's `Number(s)`: the empty string is `0`, a string of decimal digits is the
number it writes (exact below `2^53`); `other` stands for the conversion of every other
string (white space, signs, fractions, exponents, radix marks, garbage). -/
def jsNumber (other : List Nat → JSNumber) (s : List Nat) : JSNumber :=
  if s = [] then .int 0
  else if s.all isDecDigit ∧ digitsValue s < 2 ^ 53 then .int (digitsValue s)
  else other s

/-- The source's `s.substring(start, stop)`: the arguments are swapped when out of
order and clamped to the length. -/
def substring (s : List Nat) (start stop : Nat) : List Nat :=
  slice s (min start stop) (max start stop)

/-- The `default:` arm of the switch in `parseHTTPVersion`; `none` stands for `break`. -/
def parseHTTPVersionDefault (other : List Nat → JSNumber) (vers : List Nat) :
    Option (Int × Int) :=
  let Big : Int := 1000000
  if vers.take 5 ≠ codeUnits "HTTP/" then none
  else
    match indexOf vers 46 with
    | none => none
    | some dot =>
      let majorStr := substring vers ((indexOf vers 47).elim 0 (fun i => i + 1)) dot
      match jsNumber other majorStr with
      | .int major =>
        if major < 0 ∨ major > Big then none
        else
          let minorStr := vers.drop (dot + 1)
          match jsNumber other minorStr with
          | .int minor => if minor < 0 ∨ minor > Big then none else some (major, minor)
          | _ => none
      | _ => none

/-- The source's `parseHTTPVersion(vers)`, on the code units of `vers`. -/
def parseHTTPVersion (other : List Nat → JSNumber) (vers : List Nat) : Except Err (Int × Int) :=
  if vers = codeUnits "HTTP/1.1" then .ok (1, 1)
  else if vers = codeUnits "HTTP/1.0" then .ok (1, 0)
  else
    match parseHTTPVersionDefault other vers with
    | some v => .ok v
    | none => .error (.error ("malformed HTTP version " ++ fromCodeUnits vers))

/-- The decimal digits of `n`, least significant first (none for 0). -/
def decDigitsRev : Nat → Nat → List Nat
  | 0, _ => []
  | fuel + 1, n => if n = 0 then [] else (n % 10) :: decDigitsRev fuel (n / 10)

/-- The decimal numeral of a natural number, as `String(n)` writes it. -/
def decimal (n : Nat) : List Nat :=
  if n = 0 then [48] else ((decDigitsRev n n).reverse).map (fun d => 48 + d)

/-- The names a `trailer` field declares: its pieces between commas, trimmed and in lower
case (the `trailerNames` of `parseTrailer`). -/
def declaredTrailers (field : String) : List String :=
  (split field ',').map (fun v => toLowerCase (trim v))

/-- The source's `headers.set(name, value)`: the first field of that name takes the value
and the other fields of that name go; without such a field one is appended. -/
def Headers.set (h : Headers) (name value : String) : Headers :=
  match h with
  | [] => [(toLowerCase name, value)]
  | kv :: rest =>
    if kv.1 = toLowerCase name then
      (kv.1, value) :: rest.filter (fun x => x.1 ≠ toLowerCase name)
    else kv :: Headers.set rest name value

/-- Whether a string or `null` counts as true in a condition: it is neither `null` nor
empty. -/
def truthy (s : Option String) : Bool :=
  match s with
  | none => false
  | some v => v ≠ ""

/-- Split code units at every `sep`; `cur` holds, reversed, the piece being read. -/
def splitUnitsAux (sep : Nat) : List Nat → List Nat → List (List Nat)
  | [], cur => [cur.reverse]
  | c :: cs, cur =>
    if c = sep then cur.reverse :: splitUnitsAux sep cs []
    else splitUnitsAux sep cs (c :: cur)

/-- The source's `s.split(sep, limit)` for a separator of one code unit: the first
`limit` pieces. -/
def splitUnits (s : List Nat) (sep limit : Nat) : List (List Nat) :=
  (splitUnitsAux sep s []).take limit

/-- The fields of a `ServerRequest` that `readRequest` fills in; a piece the request
line does not have is `none` (`undefined`). -/
structure ServerRequest where
  /-- the first piece of the request line -/
  method : Option (List Nat)
  /-- the second piece of the request line -/
  url : Option (List Nat)
  /-- the third piece of the request line -/
  proto : Option (List Nat)
  /-- the major version -/
  protoMajor : Int
  /-- the minor version -/
  protoMinor : Int
  /-- the header fields -/
  headers : Headers

/-- The source's `fixLength(req)`; the request is returned as the call leaves it, also
when it throws. -/
def fixLength (req : ServerRequest) : Except Err Unit × ServerRequest :=
  let contentLength := Headers.get req.headers "Content-Length"
  if truthy contentLength then
    let arrClen := split (contentLength.getD "") ','
    let reconciled : Except Err Unit × ServerRequest :=
      if arrClen.length > 1 then
        let distinct := (arrClen.map trim).eraseDups
        if distinct.length > 1 then
          (.error (.error "cannot contain multiple Content-Length headers"), req)
        else
          (.ok (), { req with
            headers := Headers.set req.headers "Content-Length" (distinct.headD "") })
      else (.ok (), req)
    match reconciled with
    | (.error e, req1) => (.error e, req1)
    | (.ok _, req1) =>
      let c := Headers.get req1.headers "Content-Length"
      if req1.method = some (codeUnits "HEAD") ∧ truthy c = true ∧ c ≠ some "0" then
        (.error (.error "http: method cannot contain a Content-Length"), req1)
      else if truthy c = true ∧ Headers.has req1.headers "transfer-encoding" = true then
        (.error (.error "http: Transfer-Encoding and Content-Length cannot be send together"),
          req1)
      else (.ok (), req1)
  else (.ok (), req)

/-- The source's `readRequest(conn, bufr)`: `mime` stands for `tp.readMIMEHeader()`, whose
source is not part of the repository, and `other` for the runtime's `Number` on strings
that are not digit strings; `.ok none` is the `null` of an ended connection. -/
def readRequest (mime : BufReader → Except Err (Option Headers) × BufReader)
    (other : List Nat → JSNumber) (bufr : BufReader) :
    Except Err (Option ServerRequest) × BufReader :=
  match tpReadLine bufr with
  | (.error e, b1) => (.error e, b1)
  | (.ok none, b1) => (.ok none, b1)
  | (.ok (some firstLine), b1) =>
    match mime b1 with
    | (.error e, b2) => (.error e, b2)
    | (.ok none, b2) => (.error .unexpectedEof, b2)
    | (.ok (some headers), b2) =>
      let parts := splitUnits firstLine 32 3
      match parts[2]? with
      | none => (.error .typeError, b2)
      | some proto =>
        match parseHTTPVersion other proto with
        | .error e => (.error e, b2)
        | .ok (major, minor) =>
          match fixLength { method := parts[0]?, url := parts[1]?, proto := some proto,
                            protoMajor := major, protoMinor := minor, headers := headers } with
          | (.error e, _) => (.error e, b2)
          | (.ok _, req) => (.ok (some req), b2)

/-! ## `modules/replit_db.ts` -/

/-- A request as `fetch` sends it: the URL, the method and, for a body of
`URLSearchParams`, its pairs. -/
structure FetchRequest where
  /-- the URL -/
  url : String
  /-- the method -/
  method : String
  /-- the pairs of the form body, if there is a body -/
  body : Option (List (String × String))
  deriving DecidableEq

/-- What the source reads of a response: the status and the text of the body. -/
structure FetchResponse where
  /-- the status code -/
  status : Nat
  /-- the text of the body -/
  text : String
  deriving DecidableEq

/-- The network: the requests sent so far, oldest first, and the answer of the remote end
to a request given the requests before it (an error when the request fails). -/
structure Net where
  /-- the requests sent so far -/
  log : List FetchRequest
  /-- the answer to a request after the given earlier requests -/
  answer : List FetchRequest → FetchRequest → Except Err FetchResponse

/-- The runtime's `fetch(url, { method, body })`: the request is sent and answered. -/
def fetch (net : Net) (url method : String) (body : Option (List (String × String))) :
    Except Err FetchResponse × Net :=
  (net.answer net.log ⟨url, method, body⟩, { net with log := net.log ++ [⟨url, method, body⟩] })

/-- The object `replitDB`: `_DB_URL` is `Deno.env.get("REPLIT_DB_URL")`, `none` when the
variable is not set. -/
structure ReplitDB where
  /-- the value of the environment variable -/
  _DB_URL : Option String

/-- The getter `DB_URL` -/
def ReplitDB.DB_URL (db : ReplitDB) : Except Err String :=
  if truthy db._DB_URL then .ok (db._DB_URL.getD "")
  else .error (.error "REPLIT_DB_URL is not available as an enviroment variable")

/-- The source's `replitDB.set(key, value)` -/
def ReplitDB.set (db : ReplitDB) (net : Net) (key value : String) : Except Err Bool × Net :=
  let params : List (String × String) := [(key, value)]
  match db.DB_URL with
  | .error e => (.error e, net)
  | .ok url =>
    match fetch net url "POST" (some params) with
    | (.error e, net1) => (.error e, net1)
    | (.ok response, net1) => (.ok (if response.status = 200 then true else false), net1)

/-- The source's `replitDB.get(key)`; `none` is `undefined`. -/
def ReplitDB.get (db : ReplitDB) (net : Net) (key : String) :
    Except Err (Option String) × Net :=
  match db.DB_URL with
  | .error e => (.error e, net)
  | .ok url =>
    match fetch net (url ++ "/" ++ key) "GET" none with
    | (.error e, net1) => (.error e, net1)
    | (.ok response, net1) =>
      if response.status = 200 then (.ok (some response.text), net1) else (.ok none, net1)

/-- The source's `replitDB.delete(key)` -/
def ReplitDB.delete (db : ReplitDB) (net : Net) (key : String) : Except Err Bool × Net :=
  match db.DB_URL with
  | .error e => (.error e, net)
  | .ok url =>
    match fetch net (url ++ "/" ++ key) "DELETE" none with
    | (.error e, net1) => (.error e, net1)
    | (.ok response, net1) => (.ok (if response.status = 204 then true else false), net1)

/-! ## The format of a chunked body -/

/-- One chunk of `n` bytes on the wire, in the words of the format: the lower-case
hexadecimal numeral of `n`, CR LF, the `n` bytes, CR LF. -/
def chunkFormat (chunk : List Byte) : List Byte :=
  toString16 chunk.length ++ [CR, LF] ++ chunk ++ [CR, LF]

/-- A chunked body in the words of the format: the chunks of positive length in order, each
as `chunkFormat` gives it, then the terminator `0` CR LF CR LF once. -/
def chunkedFormat (chunks : List (List Byte)) : List Byte :=
  ((chunks.filter (fun c => 0 < c.length)).map chunkFormat).flatten ++ [48, CR, LF, CR, LF]

/-! ## Properties of the writer side -/

theorem slice_zero (a : List Byte) (n : Nat) : slice a 0 n = a.take n := by
  simp [slice]

theorem length_slice (a : List Byte) (i j : Nat) :
    (slice a i j).length = min (j - i) (a.length - i) := by
  simp [slice]

theorem length_writeAt (a bs : List Byte) (off : Nat) (h : off + bs.length ≤ a.length) :
    (writeAt a off bs).length = a.length := by
  simp [writeAt]; omega

theorem take_writeAt (a bs : List Byte) (off : Nat) (h : off ≤ a.length) :
    (writeAt a off bs).take (off + bs.length) = a.take off ++ bs := by
  have h1 : (a.take off ++ bs).length = off + bs.length := by simp [h]
  unfold writeAt
  rw [← h1, List.take_left]

theorem copy_fst (src dst : List Byte) (off : Nat) :
    (copy src dst off).1 = min src.length (dst.length - off) := by
  unfold copy
  simp only [Nat.zero_max]
  by_cases h : off ≤ dst.length
  · rw [Nat.min_eq_left h]
    split
    · rw [length_slice]; omega
    · omega
  · have h1 : min off dst.length = dst.length := by omega
    rw [h1]
    split
    · rw [length_slice]; omega
    · omega

theorem copy_snd (src dst : List Byte) (off : Nat) (h : off ≤ dst.length) :
    (copy src dst off).2 = writeAt dst off (src.take (min src.length (dst.length - off))) := by
  unfold copy
  simp only [Nat.zero_max]
  rw [Nat.min_eq_left h]
  split
  · rw [slice_zero]
    congr 2
    omega
  · congr 1
    rw [List.take_of_length_le]
    omega

theorem Writer.write_accepts (w : Writer) (data : List Byte) (hw : w.Good) (hd : data ≠ []) :
    ∃ n w1, w.write data = (.ok n, w1) ∧ 0 < n ∧ n ≤ data.length ∧
      w1.out = w.out ++ data.take n ∧ w1.Good ∧ w1.plan.length ≤ w.plan.length := by
  have hl : 0 < data.length := List.length_pos.mpr hd
  rcases w with ⟨out, plan⟩
  cases plan with
  | nil =>
    exact ⟨data.length, _, rfl, hl, le_refl _, by simp, by intro a ha; simp at ha, by simp⟩
  | cons a rest =>
    obtain ⟨n, rfl, hn⟩ := hw a (by simp)
    refine ⟨min n data.length, _, rfl, by omega, by omega, ?_, ?_, by simp⟩
    · simp only [List.append_cancel_left_eq]
      rw [List.take_eq_take]
      simp
    · intro b hb
      exact hw b (by simp [hb])

theorem writeAllLoop_good (fuel : Nat) (w : Writer) (arr : List Byte) (k : Nat)
    (hw : w.Good) (hk : k ≤ arr.length) (hf : arr.length - k < fuel) :
    ∃ w1, writeAllLoop fuel w arr k = (.ok (), w1) ∧ w1.out = w.out ++ arr.drop k ∧
      w1.Good ∧ w1.plan.length ≤ w.plan.length := by
  induction fuel generalizing w k with
  | zero => omega
  | succ fuel ih =>
    unfold writeAllLoop
    by_cases hlt : k < arr.length
    · rw [if_pos hlt]
      have hne : arr.drop k ≠ [] := by
        intro h
        have := congrArg List.length h
        simp at this
        omega
      obtain ⟨n, w1, h1, hn0, hn1, hout, hg, hp⟩ := w.write_accepts (arr.drop k) hw hne
      rw [h1]
      simp only
      have hn2 : n ≤ arr.length - k := by simpa using hn1
      obtain ⟨w2, h2, hout2, hg2, hp2⟩ := ih w1 (k + n) hg (by omega) (by omega)
      refine ⟨w2, h2, ?_, hg2, by omega⟩
      rw [hout2, hout, List.append_assoc]
      congr 1
      rw [← List.drop_drop, List.take_append_drop]
    · rw [if_neg hlt]
      refine ⟨w, rfl, ?_, hw, le_refl _⟩
      rw [List.drop_of_length_le (by omega)]
      simp

theorem writeAll_good (w : Writer) (arr : List Byte) (hw : w.Good) :
    ∃ w1, writeAll w arr = (.ok (), w1) ∧ w1.out = w.out ++ arr ∧
      w1.Good ∧ w1.plan.length ≤ w.plan.length := by
  have := writeAllLoop_good (arr.length + w.plan.length + 1) w arr 0 hw (by omega) (by omega)
  simpa [writeAll] using this

theorem BufWriter.newWriter_wf (w : Writer) (size : Int) (hw : w.Good) : (BufWriter.new w size).WF := by
  refine ⟨by simp [BufWriter.new], ?_, rfl, hw⟩
  simp only [BufWriter.new, List.length_replicate, DEFAULT_BUF_SIZE]
  split <;> omega

theorem BufWriter.flush_good (b : BufWriter) (hb : b.WF) :
    ∃ b1, b.flush = (.ok (), b1) ∧ b1.WF ∧ b1.usedBufferBytes = 0 ∧
      b1.buf.length = b.buf.length ∧ b1.writer.out = b.writer.out ++ b.pending ∧
      b1.writer.plan.length ≤ b.writer.plan.length := by
  unfold BufWriter.flush
  rw [hb.no_err]
  simp only
  by_cases h0 : b.usedBufferBytes = 0
  · rw [if_pos h0]
    exact ⟨b, rfl, hb, h0, rfl, by simp [BufWriter.pending, h0], le_refl _⟩
  · rw [if_neg h0]
    obtain ⟨w1, h1, hout, hg, hp⟩ := writeAll_good b.writer (slice b.buf 0 b.usedBufferBytes) hb.good
    rw [h1]
    refine ⟨_, rfl, ⟨by simp, by simpa using hb.size_pos, rfl, hg⟩, rfl, by simp, ?_, hp⟩
    simp [hout, BufWriter.pending, slice_zero]

theorem BufWriter.writeLoop_good (fuel : Nat) (b : BufWriter) (data : List Byte) (total : Nat)
    (hb : b.WF) (hf : data.length + 1 < fuel + (if b.usedBufferBytes = 0 then 1 else 0)) :
    ∃ b1, BufWriter.writeLoop fuel b data total = (.ok (total + data.length), b1) ∧ b1.WF ∧
      b1.buf.length = b.buf.length ∧
      b1.writer.out ++ b1.pending = b.writer.out ++ b.pending ++ data := by
  induction fuel generalizing b data total with
  | zero => split at hf <;> omega
  | succ fuel ih =>
    unfold BufWriter.writeLoop
    have hu := hb.used_le
    by_cases hgt : data.length > b.available
    · rw [if_pos hgt]
      by_cases hz : b.buffered = 0
      · rw [if_pos hz]
        have hz2 : b.usedBufferBytes = 0 := hz
        have hne : data ≠ [] := by
          intro h; subst h; simp at hgt
        obtain ⟨n, w1, h1, hn0, hn1, hout, hg, hp⟩ := b.writer.write_accepts data hb.good hne
        rw [h1]
        simp only
        have hb1 : ({ b with writer := w1 } : BufWriter).WF :=
          ⟨hb.used_le, hb.size_pos, hb.no_err, hg⟩
        rw [if_pos hz2] at hf
        obtain ⟨b2, h2, hwf2, hlen2, hout2⟩ := ih { b with writer := w1 } (data.drop n) (total + n)
          hb1 (by simp only [hz2, if_true, List.length_drop]; omega)
        refine ⟨b2, ?_, hwf2, hlen2, ?_⟩
        · rw [h2]; simp; omega
        · rw [hout2]
          simp only [BufWriter.pending, hz2, List.take_zero, List.append_nil, hout]
          rw [List.append_assoc, List.take_append_drop]
      · rw [if_neg hz]
        have hz2 : b.usedBufferBytes ≠ 0 := hz
        simp only [copy_fst, copy_snd _ _ _ hu]
        have hav : b.available = b.buf.length - b.usedBufferBytes := rfl
        have hmin : min data.length (b.buf.length - b.usedBufferBytes)
            = b.buf.length - b.usedBufferBytes := by omega
        rw [hmin]
        have hlenw : (writeAt b.buf b.usedBufferBytes
            (List.take (b.buf.length - b.usedBufferBytes) data)).length = b.buf.length := by
          apply length_writeAt
          simp; omega
        have hb1 : ({ b with
            buf := writeAt b.buf b.usedBufferBytes
              (List.take (b.buf.length - b.usedBufferBytes) data),
            usedBufferBytes := b.usedBufferBytes + (b.buf.length - b.usedBufferBytes) } :
              BufWriter).WF :=
          ⟨by simp only [hlenw]; omega, by simp only [hlenw]; exact hb.size_pos, hb.no_err, hb.good⟩
        obtain ⟨b2, h2, hwf2, hu2, hlen2, hout2, hp2⟩ := BufWriter.flush_good _ hb1
        rw [h2]
        simp only
        rw [if_neg hz2] at hf
        obtain ⟨b3, h3, hwf3, hlen3, hout3⟩ := ih b2 (data.drop (b.buf.length - b.usedBufferBytes))
          (total + (b.buf.length - b.usedBufferBytes)) hwf2
          (by simp only [hu2, if_true, List.length_drop]; omega)
        refine ⟨b3, ?_, hwf3, ?_, ?_⟩
        · rw [h3]; simp; omega
        · rw [hlen3, hlen2, hlenw]
        · rw [hout3, hout2]
          simp only [BufWriter.pending, hu2, List.take_zero, List.append_nil]
          have ht : (List.take (b.buf.length - b.usedBufferBytes) data).length
              = b.buf.length - b.usedBufferBytes := by simp; omega
          have := take_writeAt b.buf (List.take (b.buf.length - b.usedBufferBytes) data)
            b.usedBufferBytes hu
          rw [ht] at this
          rw [this]
          simp only [List.append_assoc, List.take_append_drop]
    · rw [if_neg hgt]
      have hav : b.available = b.buf.length - b.usedBufferBytes := rfl
      simp only [copy_fst, copy_snd _ _ _ hu]
      have hmin : min data.length (b.buf.length - b.usedBufferBytes) = data.length := by omega
      rw [hmin, List.take_length]
      have hlenw : (writeAt b.buf b.usedBufferBytes data).length = b.buf.length := by
        apply length_writeAt
        omega
      refine ⟨_, rfl, ⟨?_, ?_, hb.no_err, hb.good⟩, hlenw, ?_⟩
      · simp only [hlenw]; omega
      · simp only [hlenw]; exact hb.size_pos
      · simp only [BufWriter.pending]
        rw [take_writeAt _ _ _ hu, List.append_assoc]

theorem BufWriter.write_good (b : BufWriter) (data : List Byte) (hb : b.WF) :
    ∃ b1, b.write data = (.ok data.length, b1) ∧ b1.WF ∧ b1.buf.length = b.buf.length ∧
      b1.writer.out ++ b1.pending = b.writer.out ++ b.pending ++ data := by
  unfold BufWriter.write
  rw [hb.no_err]
  simp only
  by_cases h0 : data.length = 0
  · rw [if_pos h0]
    have : data = [] := List.length_eq_zero.mp h0
    subst this
    exact ⟨b, rfl, hb, rfl, by simp⟩
  · rw [if_neg h0]
    obtain ⟨b1, h1, h2⟩ := BufWriter.writeLoop_good (data.length + b.writer.plan.length + 2)
      b data 0 hb (by split <;> omega)
    exact ⟨b1, by simpa using h1, h2⟩

theorem BufWriter.writeMany_good (b : BufWriter) (ds : List (List Byte)) (hb : b.WF) :
    ∃ b1, b.writeMany ds = (.ok (), b1) ∧ b1.WF ∧ b1.buf.length = b.buf.length ∧
      b1.writer.out ++ b1.pending = b.writer.out ++ b.pending ++ ds.flatten := by
  induction ds generalizing b with
  | nil => exact ⟨b, rfl, hb, rfl, by simp⟩
  | cons d ds ih =>
    obtain ⟨b1, h1, hwf1, hlen1, hout1⟩ := b.write_good d hb
    obtain ⟨b2, h2, hwf2, hlen2, hout2⟩ := ih b1 hwf1
    refine ⟨b2, ?_, hwf2, by rw [hlen2, hlen1], ?_⟩
    · simp only [BufWriter.writeMany, h1, h2]
    · rw [hout2, hout1]; simp

/-- C2. `BufWriter` preserves data and order: on a `BufWriter` of any size over an
underlying writer that never fails and accepts at least one byte per call, the calls
`write(d1); ...; write(dk); flush()` all return normally, the underlying writer has then
received exactly `d1 ++ ... ++ dk` after what it held before, and `buffered()` is 0. -/
theorem BufWriter.write_flush_preserves_data (w : Writer) (size : Int) (ds : List (List Byte))
    (hw : w.Good) :
    ((BufWriter.new w size).writeMany ds).1 = .ok () ∧
    ((BufWriter.new w size).writeMany ds).2.flush.1 = .ok () ∧
    ((BufWriter.new w size).writeMany ds).2.flush.2.writer.out = w.out ++ ds.flatten ∧
    ((BufWriter.new w size).writeMany ds).2.flush.2.buffered = 0 := by
  obtain ⟨b1, h1, hwf1, _, hout1⟩ := (BufWriter.new w size).writeMany_good ds
    (BufWriter.newWriter_wf w size hw)
  obtain ⟨b2, h2, _, hu2, _, hout2, _⟩ := b1.flush_good hwf1
  rw [h1]
  simp only [h2, true_and]
  refine ⟨?_, hu2⟩
  rw [hout2, hout1]
  simp [BufWriter.new, BufWriter.pending]

theorem BufWriter.write_flush_preserves_data_witness :
    ((BufWriter.new ⟨[], [.accept 1, .accept 2]⟩ 2).writeMany [[1, 2, 3], [4]]).1 = .ok () ∧
    ((BufWriter.new ⟨[], [.accept 1, .accept 2]⟩ 2).writeMany [[1, 2, 3], [4]]).2.flush.1
      = .ok () ∧
    ((BufWriter.new ⟨[], [.accept 1, .accept 2]⟩ 2).writeMany
      [[1, 2, 3], [4]]).2.flush.2.writer.out = [] ++ [[1, 2, 3], [4]].flatten ∧
    ((BufWriter.new ⟨[], [.accept 1, .accept 2]⟩ 2).writeMany
      [[1, 2, 3], [4]]).2.flush.2.buffered = 0 :=
  BufWriter.write_flush_preserves_data ⟨[], [.accept 1, .accept 2]⟩ 2 [[1, 2, 3], [4]]
    (by intro a ha; simp at ha; rcases ha with rfl | rfl <;> simp)

theorem Writer.write_le (w : Writer) (data : List Byte) (n : Nat) (w1 : Writer)
    (h : w.write data = (.ok n, w1)) : n ≤ data.length := by
  rcases w with ⟨out, plan⟩
  unfold Writer.write at h
  rcases plan with _ | ⟨a, rest⟩
  · simp only [Prod.mk.injEq, Except.ok.injEq] at h
    omega
  · cases a with
    | accept k =>
      simp only [Prod.mk.injEq, Except.ok.injEq] at h
      omega
    | fail c => simp at h

theorem BufWriter.writeLoop_ok (fuel : Nat) (b : BufWriter) (data : List Byte) (total n : Nat)
    (b1 : BufWriter) (h : BufWriter.writeLoop fuel b data total = (.ok n, b1)) :
    n = total + data.length := by
  induction fuel generalizing b data total with
  | zero => simp [BufWriter.writeLoop] at h
  | succ fuel ih =>
    unfold BufWriter.writeLoop at h
    have hav : b.available = b.buf.length - b.usedBufferBytes := rfl
    split at h
    · rename_i hgt
      split at h
      · split at h
        · simp at h
        · rename_i k w1 hw
          have hk := Writer.write_le _ _ _ _ hw
          have := ih _ _ _ h
          simp only [List.length_drop] at this
          omega
      · simp only [copy_fst] at h
        split at h
        · simp at h
        · have := ih _ _ _ h
          simp only [List.length_drop] at this
          omega
    · rename_i hgt
      simp only [copy_fst, Prod.mk.injEq, Except.ok.injEq] at h
      omega

theorem BufWriter.flush_error (b : BufWriter) (e : Err) (b1 : BufWriter) (hb : b.err = none)
    (h : b.flush = (.error e, b1)) : b1.err = some e := by
  unfold BufWriter.flush at h
  rw [hb] at h
  simp only at h
  split at h
  · simp at h
  · split at h
    · simp only [Prod.mk.injEq, Except.error.injEq] at h
      rw [← h.2, ← h.1]
    · simp at h

theorem BufWriter.flush_ok (b : BufWriter) (b1 : BufWriter) (hb : b.err = none)
    (h : b.flush = (.ok (), b1)) : b1.err = none := by
  unfold BufWriter.flush at h
  rw [hb] at h
  simp only at h
  split at h
  · simp only [Prod.mk.injEq, true_and] at h
    rw [← h]; exact hb
  · split at h
    · simp at h
    · simp only [Prod.mk.injEq, true_and] at h
      rw [← h]

theorem BufWriter.writeLoop_error (fuel : Nat) (b : BufWriter) (data : List Byte) (total c : Nat)
    (b1 : BufWriter) (hb : b.err = none)
    (h : BufWriter.writeLoop fuel b data total = (.error (.io c), b1)) :
    b1.err = some (.io c) := by
  induction fuel generalizing b data total with
  | zero => simp [BufWriter.writeLoop] at h
  | succ fuel ih =>
    unfold BufWriter.writeLoop at h
    split at h
    · split at h
      · split at h
        · simp only [Prod.mk.injEq, Except.error.injEq] at h
          rw [← h.2, ← h.1]
        · refine ih _ _ _ ?_ h
          exact hb
      · dsimp only at h
        split at h
        · rename_i e b2 hfl
          simp only [Prod.mk.injEq, Except.error.injEq] at h
          have := BufWriter.flush_error _ _ _ (by exact hb) hfl
          rw [← h.2, ← h.1]; exact this
        · rename_i b2 hfl
          exact ih _ _ _ (BufWriter.flush_ok _ _ (by exact hb) hfl) h
    · simp at h

theorem BufWriter.step_of_err (b : BufWriter) (e : Err) (hb : b.err = some e) (op : WOp) :
    b.step op = (.error e, b) := by
  cases op with
  | write d => simp [BufWriter.step, BufWriter.write, hb]
  | flush => simp [BufWriter.step, BufWriter.flush, hb]

theorem BufWriter.step_error (b : BufWriter) (op : WOp) (c : Nat) (b1 : BufWriter)
    (h : b.step op = (.error (.io c), b1)) : b1.err = some (.io c) := by
  cases hb : b.err with
  | some e =>
    rw [BufWriter.step_of_err b e hb op] at h
    simp only [Prod.mk.injEq, Except.error.injEq] at h
    rw [← h.2, hb, h.1]
  | none =>
    cases op with
    | flush => exact BufWriter.flush_error b _ b1 hb h
    | write d =>
      simp only [BufWriter.step, BufWriter.write, hb] at h
      split at h
      · simp at h
      · rename_i e b2 hw
        simp only [Prod.mk.injEq, Except.error.injEq] at h
        split at hw
        · simp at hw
        · rw [← h.2]
          rw [h.1] at hw
          exact BufWriter.writeLoop_error _ _ _ _ _ _ hb hw

theorem BufWriter.run_of_err (b : BufWriter) (e : Err) (hb : b.err = some e) (ops : List WOp) :
    b.run ops = (ops.map (fun _ => .error e), b) := by
  induction ops with
  | nil => rfl
  | cons op ops ih =>
    simp only [BufWriter.run, BufWriter.step_of_err b e hb op, ih, List.map_cons]

/-- C9. `BufWriter` errors are sticky: when a `write()` or `flush()` call fails with the
error `io c` of the underlying writer, the error is recorded; every later `write()` (for
any data) and `flush()`, in any number and order, throws the same error and leaves the
whole state, so also the bytes received by the underlying writer, as it was; `reset()`
clears the error. -/
theorem BufWriter.error_sticky (b : BufWriter) (op : WOp) (c : Nat) (b1 : BufWriter)
    (h : b.step op = (.error (.io c), b1)) :
    b1.err = some (.io c) ∧
    (∀ op1, b1.step op1 = (.error (.io c), b1)) ∧
    (∀ ops, b1.run ops = (ops.map (fun _ => .error (.io c)), b1)) ∧
    (∀ ops, (b1.run ops).2.writer.out = b1.writer.out) ∧
    (∀ w, (b1.reset w).err = none) := by
  have he := BufWriter.step_error b op c b1 h
  refine ⟨he, BufWriter.step_of_err b1 _ he, BufWriter.run_of_err b1 _ he, ?_, fun _ => rfl⟩
  intro ops
  rw [BufWriter.run_of_err b1 _ he]

theorem BufWriter.error_sticky_witness :
    (⟨[1, 2, 0, 0], 2, none, ⟨[9], [.accept 1, .fail 7]⟩⟩ : BufWriter).step .flush
      = (.error (.io 7), ⟨[1, 2, 0, 0], 2, some (.io 7), ⟨[9, 1], []⟩⟩) ∧
    (⟨[1, 2, 0, 0], 2, some (.io 7), ⟨[9, 1], []⟩⟩ : BufWriter).err = some (.io 7) ∧
    (∀ op1, (⟨[1, 2, 0, 0], 2, some (.io 7), ⟨[9, 1], []⟩⟩ : BufWriter).step op1
      = (.error (.io 7), ⟨[1, 2, 0, 0], 2, some (.io 7), ⟨[9, 1], []⟩⟩)) :=
  have h : (⟨[1, 2, 0, 0], 2, none, ⟨[9], [.accept 1, .fail 7]⟩⟩ : BufWriter).step .flush
      = (.error (.io 7), ⟨[1, 2, 0, 0], 2, some (.io 7), ⟨[9, 1], []⟩⟩) := by rfl
  ⟨h, (BufWriter.error_sticky _ _ _ _ h).1, (BufWriter.error_sticky _ _ _ _ h).2.1⟩

theorem BufWriter.write_ok (b : BufWriter) (data : List Byte) (n : Nat) (b1 : BufWriter)
    (h : b.write data = (.ok n, b1)) : n = data.length := by
  unfold BufWriter.write at h
  split at h
  · simp at h
  · split at h
    · rename_i h0
      simp only [Prod.mk.injEq, Except.ok.injEq] at h
      omega
    · have := BufWriter.writeLoop_ok _ _ _ _ _ _ h
      omega

theorem Writer.write_error (w : Writer) (data : List Byte) (e : Err) (w1 : Writer)
    (h : w.write data = (.error e, w1)) : e.fromWriter := by
  rcases w with ⟨out, plan⟩
  unfold Writer.write at h
  rcases plan with _ | ⟨a, rest⟩
  · simp at h
  · cases a with
    | accept k => simp at h
    | fail c =>
      simp only [Prod.mk.injEq, Except.error.injEq] at h
      exact Or.inr ⟨c, h.1.symm⟩

theorem writeAllLoop_error (fuel : Nat) (w : Writer) (arr : List Byte) (k : Nat) (e : Err)
    (w1 : Writer) (h : writeAllLoop fuel w arr k = (.error e, w1)) : e.fromWriter := by
  induction fuel generalizing w k with
  | zero =>
    simp only [writeAllLoop, Prod.mk.injEq, Except.error.injEq] at h
    exact Or.inl h.1.symm
  | succ fuel ih =>
    unfold writeAllLoop at h
    split at h
    · split at h
      · rename_i e1 w2 hw
        simp only [Prod.mk.injEq, Except.error.injEq] at h
        rw [← h.1]
        exact Writer.write_error _ _ _ _ hw
      · exact ih _ _ h
    · simp at h

theorem BufWriter.flush_error_kind (b : BufWriter) (e : Err) (b1 : BufWriter)
    (hb : b.err = none) (h : b.flush = (.error e, b1)) : e.fromWriter := by
  unfold BufWriter.flush at h
  rw [hb] at h
  simp only at h
  split at h
  · simp at h
  · split at h
    · rename_i e1 w1 hw
      simp only [Prod.mk.injEq, Except.error.injEq] at h
      rw [← h.1]
      exact writeAllLoop_error _ _ _ _ _ _ hw
    · simp at h

theorem BufWriter.writeLoop_error_kind (fuel : Nat) (b : BufWriter) (data : List Byte)
    (total : Nat) (e : Err) (b1 : BufWriter) (hb : b.err = none)
    (h : BufWriter.writeLoop fuel b data total = (.error e, b1)) : e.fromWriter := by
  induction fuel generalizing b data total with
  | zero =>
    simp only [BufWriter.writeLoop, Prod.mk.injEq, Except.error.injEq] at h
    exact Or.inl h.1.symm
  | succ fuel ih =>
    unfold BufWriter.writeLoop at h
    split at h
    · split at h
      · split at h
        · rename_i e1 w1 hw
          simp only [Prod.mk.injEq, Except.error.injEq] at h
          rw [← h.1]
          exact Writer.write_error _ _ _ _ hw
        · refine ih _ _ _ ?_ h
          exact hb
      · dsimp only at h
        split at h
        · rename_i e1 b2 hfl
          simp only [Prod.mk.injEq, Except.error.injEq] at h
          rw [← h.1]
          exact BufWriter.flush_error_kind _ _ _ (by exact hb) hfl
        · rename_i b2 hfl
          exact ih _ _ _ (BufWriter.flush_ok _ _ (by exact hb) hfl) h
    · simp at h

theorem BufWriter.writeLoop_ok_err (fuel : Nat) (b : BufWriter) (data : List Byte)
    (total n : Nat) (b1 : BufWriter) (hb : b.err = none)
    (h : BufWriter.writeLoop fuel b data total = (.ok n, b1)) : b1.err = none := by
  induction fuel generalizing b data total with
  | zero => simp [BufWriter.writeLoop] at h
  | succ fuel ih =>
    unfold BufWriter.writeLoop at h
    split at h
    · split at h
      · split at h
        · simp at h
        · refine ih _ _ _ ?_ h
          exact hb
      · dsimp only at h
        split at h
        · simp at h
        · rename_i b2 hfl
          exact ih _ _ _ (BufWriter.flush_ok _ _ (by exact hb) hfl) h
    · simp only [Prod.mk.injEq, Except.ok.injEq] at h
      rw [← h.2]
      exact hb

theorem BufWriter.write_ok_err (b : BufWriter) (data : List Byte) (n : Nat) (b1 : BufWriter)
    (h : b.write data = (.ok n, b1)) : b1.err = none := by
  unfold BufWriter.write at h
  split at h
  · simp at h
  · rename_i hb
    split at h
    · simp only [Prod.mk.injEq, Except.ok.injEq] at h
      rw [← h.2]; exact hb
    · exact BufWriter.writeLoop_ok_err _ _ _ _ _ _ hb h

theorem BufWriter.write_error_kind (b : BufWriter) (data : List Byte) (e : Err)
    (b1 : BufWriter) (h : b.write data = (.error e, b1)) : b.err = some e ∨ e.fromWriter := by
  unfold BufWriter.write at h
  split at h
  · rename_i e1 hb
    simp only [Prod.mk.injEq, Except.error.injEq] at h
    rw [← h.1]
    exact Or.inl hb
  · rename_i hb
    split at h
    · simp at h
    · exact Or.inr (BufWriter.writeLoop_error_kind _ _ _ _ _ _ hb h)

theorem Err.assertion_not_fromWriter : ¬ Err.fromWriter .assertion := by
  rintro (h | ⟨c, h⟩) <;> simp at h

theorem writeResponse_no_assertion (b : BufWriter) (header body : List Byte)
    (hb : b.err ≠ some .assertion) : (writeResponse b header body).1 ≠ .error .assertion := by
  unfold writeResponse
  split
  · rename_i e w1 h1
    intro h
    simp only [Except.error.injEq] at h
    subst h
    rcases BufWriter.write_error_kind _ _ _ _ h1 with h | h
    · exact hb h
    · exact Err.assertion_not_fromWriter h
  · rename_i n w1 h1
    have hn := BufWriter.write_ok _ _ _ _ h1
    have he1 := BufWriter.write_ok_err _ _ _ _ h1
    rw [if_neg (by simpa using hn)]
    split
    · rename_i e w2 h2
      intro h
      simp only [Except.error.injEq] at h
      subst h
      rcases BufWriter.write_error_kind _ _ _ _ h2 with h | h
      · rw [he1] at h; simp at h
      · exact Err.assertion_not_fromWriter h
    · rename_i n2 w2 h2
      have hn2 := BufWriter.write_ok _ _ _ _ h2
      have he2 := BufWriter.write_ok_err _ _ _ _ h2
      rw [if_neg (by simpa using hn2)]
      intro h
      cases hfl : w2.flush with
      | mk r b3 =>
        rw [hfl] at h
        simp only at h
        subst h
        exact Err.assertion_not_fromWriter (BufWriter.flush_error_kind _ _ _ he2 hfl)

/-- C10. `BufWriter.write(data)` returns `data.byteLength` whenever it returns normally,
for every state of the `BufWriter` and every behaviour of the underlying writer (which
accepts at most the bytes it is given); it does return normally, with that count, when
the `BufWriter` has not failed and the underlying writer accepts at least one byte per
call; the assertions `n === header.byteLength` and `n === r.body.byteLength` of
`writeResponse` never fail, whatever the underlying writer does, and `writeResponse`
returns normally over a writer that makes progress. -/
theorem BufWriter.write_returns_byteLength (b : BufWriter) (data : List Byte) :
    (∀ n b1, b.write data = (.ok n, b1) → n = data.length) ∧
    (b.WF → (b.write data).1 = .ok data.length) ∧
    (∀ header body, b.err ≠ some .assertion →
      (writeResponse b header body).1 ≠ .error .assertion) ∧
    (∀ header body, b.WF → (writeResponse b header body).1 = .ok ()) := by
  refine ⟨fun n b1 h => BufWriter.write_ok b data n b1 h, ?_,
    fun header body hb => writeResponse_no_assertion b header body hb, ?_⟩
  · intro hb
    obtain ⟨b1, h1, _⟩ := b.write_good data hb
    rw [h1]
  · intro header body hb
    obtain ⟨b1, h1, hwf1, _⟩ := b.write_good header hb
    obtain ⟨b2, h2, hwf2, _⟩ := b1.write_good body hwf1
    obtain ⟨b3, h3, _⟩ := b2.flush_good hwf2
    simp [writeResponse, h1, h2, h3]

theorem BufWriter.write_returns_byteLength_witness :
    (BufWriter.new ⟨[], [.accept 1]⟩ 2).WF ∧
    ((BufWriter.new ⟨[], [.accept 1]⟩ 2).write [5, 6, 7]).1 = .ok [5, 6, 7].length ∧
    (writeResponse (BufWriter.new ⟨[], [.accept 1]⟩ 2) [72, 13, 10] [5, 6, 7]).1 = .ok () :=
  have hwf : (BufWriter.new ⟨[], [.accept 1]⟩ 2).WF :=
    BufWriter.newWriter_wf _ _ (by intro a ha; simp at ha; subst ha; simp)
  ⟨hwf, (BufWriter.write_returns_byteLength _ [5, 6, 7]).2.1 hwf,
    (BufWriter.write_returns_byteLength _ [5, 6, 7]).2.2.2 [72, 13, 10] [5, 6, 7] hwf⟩

/-! ## Properties of the reader side -/

theorem length_slice_of_le (a : List Byte) (i j : Nat) (hj : j ≤ a.length) :
    (slice a i j).length = j - i := by
  rw [length_slice]; omega

theorem slice_self (a : List Byte) (i : Nat) : slice a i i = [] := by
  simp [slice]

theorem slice_take (a : List Byte) (i j k : Nat) (h : i + k ≤ j) :
    slice a i (i + k) = (slice a i j).take k := by
  unfold slice
  rw [List.take_take]
  congr 1
  omega

theorem slice_drop (a : List Byte) (i j k : Nat) :
    slice a (i + k) j = (slice a i j).drop k := by
  unfold slice
  rw [List.drop_take, List.drop_drop]
  congr 1
  omega

theorem slice_writeAt (a bs : List Byte) (r w : Nat) (hr : r ≤ w) (hw : w ≤ a.length) :
    slice (writeAt a w bs) r (w + bs.length) = slice a r w ++ bs := by
  unfold slice writeAt
  have h1 : (a.take w).length = w := by simp [hw]
  rw [List.append_assoc, List.drop_append_of_le_length (by omega)]
  have h2 : (List.drop r (List.take w a)).length = w - r := by simp [h1]
  have h3 : w + bs.length - r = (List.drop r (List.take w a) ++ bs).length := by
    simp [h2]; omega
  rw [← List.append_assoc, h3, List.take_left, List.drop_take]

theorem slice_copyWithin (a : List Byte) (r w : Nat) (hw : w ≤ a.length) :
    slice (copyWithin a 0 r w) 0 (w - r) = slice a r w := by
  have hl : (slice a r w).length = w - r := length_slice_of_le a r w hw
  unfold copyWithin writeAt
  rw [slice_zero]
  simp only [List.take_zero, List.nil_append, Nat.zero_add]
  rw [← hl, List.take_left]

theorem length_copyWithin (a : List Byte) (r w : Nat) (hr : r ≤ w) (hw : w ≤ a.length) :
    (copyWithin a 0 r w).length = a.length := by
  unfold copyWithin
  apply length_writeAt
  rw [length_slice_of_le a r w hw]
  omega

theorem Reader.read_nil (rd : Reader) (n : Nat) (h : rd.data = []) : rd.read n = (none, rd) := by
  unfold Reader.read
  rw [h]

theorem Reader.read_good (rd : Reader) (n : Nat) (hg : rd.Good) (hd : rd.data ≠ []) (hn : 0 < n) :
    ∃ bs rd1, rd.read n = (some bs, rd1) ∧ bs ≠ [] ∧ bs.length ≤ n ∧
      rd.data = bs ++ rd1.data ∧ rd1.Good ∧ rd1.sizes.length ≤ rd.sizes.length := by
  rcases rd with ⟨data, sizes⟩
  simp only at hd
  unfold Reader.read
  cases data with
  | nil => exact absurd rfl hd
  | cons x xs =>
    cases sizes with
    | nil =>
      refine ⟨_, _, rfl, ?_, ?_, ?_, ?_, le_refl _⟩
      · cases n with
        | zero => omega
        | succ m => simp
      · simp
      · simp
      · intro k hk; simp at hk
    | cons k rest =>
      have hk : 0 < k := hg k (by simp)
      refine ⟨_, _, rfl, ?_, ?_, ?_, ?_, by simp⟩
      · have : 0 < min k n := by omega
        revert this
        cases min k n with
        | zero => intro h; omega
        | succ m => intro _; simp
      · simp only [List.length_take]; omega
      · simp
      · intro j hj
        exact hg j (by simp [hj])

theorem BufReader.fillLoop_nil (i : Nat) (b : BufReader) (hd : b.rd.data = []) :
    BufReader.fillLoop (i + 1) b = (.ok (), { b with eof := true }) := by
  unfold BufReader.fillLoop
  rw [Reader.read_nil _ _ hd]

theorem BufReader.fillLoop_good (i : Nat) (b : BufReader) (hg : b.rd.Good)
    (hd : b.rd.data ≠ []) (hw : b.w < b.buf.length) :
    ∃ bs rd1, BufReader.fillLoop (i + 1) b
        = (.ok (), { b with rd := rd1, buf := writeAt b.buf b.w bs, w := b.w + bs.length }) ∧
      bs ≠ [] ∧ b.w + bs.length ≤ b.buf.length ∧ b.rd.data = bs ++ rd1.data ∧ rd1.Good ∧
      rd1.sizes.length ≤ b.rd.sizes.length := by
  obtain ⟨bs, rd1, h1, hne, hlen, hdata, hg1, hs⟩ :=
    b.rd.read_good (b.buf.length - b.w) hg hd (by omega)
  unfold BufReader.fillLoop
  rw [h1]
  have hpos : bs.length > 0 := List.length_pos.mpr hne
  simp only [hpos, if_true]
  exact ⟨bs, rd1, rfl, hne, by omega, hdata, hg1, hs⟩

/-- What `_fill` does to a well-formed reader whose buffer is not full. -/
theorem BufReader.fill_spec (b : BufReader) (hb : b.WF) (hfull : b.w - b.r < b.buf.length) :
    ∃ b1 bs, b._fill = (.ok (), b1) ∧ b1.WF ∧ b1.r = 0 ∧ b1.buf.length = b.buf.length ∧
      b1.avail = b.avail ++ bs ∧ b.rd.data = bs ++ b1.rd.data ∧
      b1.rd.sizes.length ≤ b.rd.sizes.length ∧
      (b.rd.data = [] → b1.eof = true) ∧ (b.rd.data ≠ [] → bs ≠ [] ∧ b1.eof = b.eof) := by
  -- the state after the slide
  obtain ⟨b0, hb0, hwf0, hr0, hlen0, hav0, hrd0, heof0, hw0⟩ :
      ∃ b0 : BufReader,
        (if b.r > 0 then
          { b with buf := copyWithin b.buf 0 b.r b.w, w := b.w - b.r, r := 0 } else b) = b0 ∧
        b0.WF ∧ b0.r = 0 ∧ b0.buf.length = b.buf.length ∧ b0.avail = b.avail ∧
        b0.rd = b.rd ∧ b0.eof = b.eof ∧ b0.w = b.w - b.r := by
    by_cases hr : b.r > 0
    · refine ⟨_, rfl, ?_⟩
      rw [if_pos hr]
      have hl := length_copyWithin b.buf b.r b.w hb.r_le hb.w_le
      refine ⟨⟨Nat.zero_le _, ?_, ?_, hb.eof_data, hb.good, ?_⟩, rfl, hl, ?_, rfl, rfl, rfl⟩
      · simp only [hl]; have := hb.w_le; omega
      · simp only [hl]; exact hb.size_pos
      · intro _; simp only [hl]; omega
      · simp only [BufReader.avail]
        exact slice_copyWithin b.buf b.r b.w hb.w_le
    · refine ⟨_, rfl, ?_⟩
      rw [if_neg hr]
      have : b.r = 0 := by omega
      exact ⟨hb, this, rfl, rfl, rfl, rfl, by omega⟩
  unfold BufReader._fill
  simp only [hb0]
  have hlt : ¬ b0.w ≥ b0.buf.length := by omega
  rw [if_neg hlt]
  by_cases hd : b.rd.data = []
  · have hd0 : b0.rd.data = [] := by rw [hrd0]; exact hd
    unfold MAX_CONSECUTIVE_EMPTY_READS
    rw [BufReader.fillLoop_nil _ _ hd0]
    refine ⟨_, [], rfl, ⟨hwf0.r_le, hwf0.w_le, hwf0.size_pos, fun _ => hd0, hwf0.good,
      fun _ => by simp only; omega⟩, hr0,
      hlen0, ?_, ?_, ?_, fun _ => rfl, fun h => absurd hd h⟩
    · simp only [BufReader.avail, List.append_nil]
      exact hav0
    · simp [hd, hd0]
    · rw [hrd0]
  · have hd0 : b0.rd.data ≠ [] := by rw [hrd0]; exact hd
    obtain ⟨bs, rd1, h1, hne, hlen, hdata, hg1, hs⟩ :=
      BufReader.fillLoop_good 99 b0 hwf0.good hd0 (by omega)
    unfold MAX_CONSECUTIVE_EMPTY_READS
    rw [h1]
    have hl : (writeAt b0.buf b0.w bs).length = b0.buf.length := length_writeAt _ _ _ hlen
    have heofF : ∀ P : Prop, b0.eof = true → P := fun P he => absurd (hwf0.eof_data he) hd0
    refine ⟨_, bs, rfl, ⟨?_, ?_, ?_, heofF _, hg1, heofF _⟩, hr0, ?_, ?_, ?_, ?_,
      fun h => absurd h hd, fun _ => ⟨hne, heof0⟩⟩
    · simp only [hr0]; omega
    · simp only [hl]; exact hlen
    · simp only [hl]; exact hwf0.size_pos
    · simp only [hl]; exact hlen0
    · simp only [BufReader.avail]
      rw [slice_writeAt _ _ _ _ hwf0.r_le hwf0.w_le]
      exact congrArg (· ++ bs) hav0
    · rw [← hrd0]; exact hdata
    · rw [← hrd0]; exact hs

theorem writeAt_zero (p bs : List Byte) : writeAt p 0 bs = bs ++ p.drop bs.length := by
  simp [writeAt]

theorem BufReader.avail_length (b : BufReader) (hb : b.WF) : b.avail.length = b.w - b.r :=
  length_slice_of_le _ _ _ hb.w_le

theorem BufReader.avail_nil_iff (b : BufReader) (hb : b.WF) : b.avail = [] ↔ b.r = b.w := by
  rw [← List.length_eq_zero, b.avail_length hb]
  have := hb.r_le
  omega

/-- Advancing `r` by `n ≤ w - r` drops `n` bytes from the stream. -/
theorem BufReader.advance (b : BufReader) (hb : b.WF) (n : Nat) (hn : n ≤ b.w - b.r) :
    ({ b with r := b.r + n } : BufReader).WF ∧
    ({ b with r := b.r + n } : BufReader).avail = b.avail.drop n ∧
    ({ b with r := b.r + n } : BufReader).stream = b.stream.drop n := by
  have hr := hb.r_le
  have hav : ({ b with r := b.r + n } : BufReader).avail = b.avail.drop n := by
    simp only [BufReader.avail]
    exact slice_drop _ _ _ _
  refine ⟨⟨by simp only; omega, hb.w_le, hb.size_pos, hb.eof_data, hb.good,
    fun he => by have := hb.eof_room he; simp only; omega⟩, hav, ?_⟩
  simp only [BufReader.stream] at hav ⊢
  rw [hav, List.drop_append_of_le_length]
  rw [b.avail_length hb]
  exact hn

theorem BufReader.readCopy_spec (b : BufReader) (p : List Byte) (hb : b.WF) (hrw : b.r ≠ b.w)
    (hp : 0 < p.length) :
    ∃ n b1, b.readCopy p = ((some n, b.stream.take n ++ p.drop n), b1) ∧ 0 < n ∧
      n ≤ p.length ∧ n ≤ b.stream.length ∧ b1.stream = b.stream.drop n ∧ b1.WF ∧
      b1.buf.length = b.buf.length ∧ b1.rd = b.rd := by
  have hr := hb.r_le
  have hal := b.avail_length hb
  have hc1 : (copy (slice b.buf b.r b.w) p 0).1 = min (b.w - b.r) p.length := by
    rw [copy_fst]
    show min b.avail.length (p.length - 0) = _
    rw [hal]; simp
  have hc2 : (copy (slice b.buf b.r b.w) p 0).2
      = b.avail.take (min (b.w - b.r) p.length) ++ p.drop (min (b.w - b.r) p.length) := by
    have hal2 : (slice b.buf b.r b.w).length = b.w - b.r := hal
    rw [copy_snd _ _ _ (Nat.zero_le _), writeAt_zero]
    simp only [Nat.sub_zero, List.length_take, hal2, BufReader.avail]
    congr 2
    omega
  obtain ⟨hwf, _, hst⟩ := b.advance hb (min (b.w - b.r) p.length) (by omega)
  refine ⟨min (b.w - b.r) p.length, { b with r := b.r + min (b.w - b.r) p.length }, ?_,
    by omega, by omega, ?_, hst, hwf, rfl, rfl⟩
  · unfold BufReader.readCopy
    simp only [hc1, hc2]
    congr 3
    simp only [BufReader.stream]
    rw [List.take_append_of_le_length]
    rw [hal]; omega
  · simp only [BufReader.stream, List.length_append, hal]
    omega

/-- A `read(p)` on a stream that has bytes left delivers a non-empty initial piece of it. -/
theorem BufReader.read_spec (b : BufReader) (p : List Byte) (hb : b.WF) (hp : 0 < p.length)
    (hs : b.stream ≠ []) :
    ∃ n b1, b.read p = ((some n, b.stream.take n ++ p.drop n), b1) ∧ 0 < n ∧
      n ≤ p.length ∧ n ≤ b.stream.length ∧ b1.stream = b.stream.drop n ∧ b1.WF ∧
      b1.buf.length = b.buf.length ∧ b1.rd.sizes.length ≤ b.rd.sizes.length := by
  unfold BufReader.read
  rw [if_neg (by omega)]
  by_cases hrw : b.r = b.w
  · rw [if_pos hrw]
    have hav : b.avail = [] := (b.avail_nil_iff hb).mpr hrw
    have hst : b.stream = b.rd.data := by simp [BufReader.stream, hav]
    have hd : b.rd.data ≠ [] := by rw [← hst]; exact hs
    have heof : b.eof = false := by
      cases h : b.eof with
      | false => rfl
      | true => exact absurd (hb.eof_data h) hd
    by_cases hbig : p.length ≥ b.buf.length
    · rw [if_pos hbig]
      obtain ⟨bs, rd1, h1, hne, hlen, hdata, hg1, hsz⟩ := b.rd.read_good p.length hb.good hd hp
      rw [h1]
      have hst1 : ({ b with rd := rd1 } : BufReader).stream = rd1.data := by
        show b.avail ++ rd1.data = _
        rw [hav]; rfl
      refine ⟨bs.length, ({ b with rd := rd1 } : BufReader), ?_, List.length_pos.mpr hne,
        hlen, ?_, ?_, ⟨hb.r_le, hb.w_le, hb.size_pos, ?_, hg1, ?_⟩, rfl, hsz⟩
      · simp only [writeAt_zero, hst, hdata, List.take_left]
      · rw [hst, hdata]; simp
      · rw [hst1, hst, hdata, List.drop_left]
      · intro h; simp only at h; rw [heof] at h; exact absurd h (by simp)
      · intro h; simp only at h; rw [heof] at h; exact absurd h (by simp)
    · rw [if_neg hbig]
      obtain ⟨bs, rd1, h1, hne, hlen, hdata, hg1, hsz⟩ :=
        b.rd.read_good b.buf.length hb.good hd hb.size_pos
      rw [h1]
      have hpos : bs.length ≠ 0 := by
        have := List.length_pos.mpr hne
        omega
      simp only [hpos, if_false]
      have hl : (writeAt b.buf 0 bs).length = b.buf.length := length_writeAt _ _ _ (by omega)
      have hwf1 : ({ b with r := 0, w := 0 + bs.length, rd := rd1, buf := writeAt b.buf 0 bs } :
          BufReader).WF := by
        refine ⟨by simp, ?_, ?_, ?_, hg1, ?_⟩
        · simp only [hl]; omega
        · simp only [hl]; exact hb.size_pos
        · intro h; simp only at h; rw [heof] at h; exact absurd h (by simp)
        · intro h; simp only at h; rw [heof] at h; exact absurd h (by simp)
      have hst1 : ({ b with r := 0, w := 0 + bs.length, rd := rd1, buf := writeAt b.buf 0 bs } :
          BufReader).stream = b.stream := by
        show slice (writeAt b.buf 0 bs) 0 (0 + bs.length) ++ rd1.data = _
        rw [slice_writeAt _ _ _ _ (le_refl _) (Nat.zero_le _), slice_self, hst, hdata]
        rfl
      obtain ⟨n, b2, h2, hn0, hn1, hn2, hst2, hwf2, hlen2, hrd2⟩ :=
        BufReader.readCopy_spec _ p hwf1 (by simp only; omega) hp
      rw [hst1] at h2 hn2 hst2
      refine ⟨n, b2, h2, hn0, hn1, hn2, hst2, hwf2, ?_, ?_⟩
      · rw [hlen2]; exact hl
      · rw [hrd2]; exact hsz
  · rw [if_neg hrw]
    obtain ⟨n, b2, h2, hn0, hn1, hn2, hst2, hwf2, hlen2, hrd2⟩ :=
      BufReader.readCopy_spec b p hb hrw hp
    exact ⟨n, b2, h2, hn0, hn1, hn2, hst2, hwf2, hlen2, by rw [hrd2]⟩

/-- A `read(p)` at the end of the stream returns `null` and leaves `p` alone. -/
theorem BufReader.read_eof (b : BufReader) (p : List Byte) (hb : b.WF) (hp : 0 < p.length)
    (hs : b.stream = []) :
    ∃ b1, b.read p = ((none, p), b1) ∧ b1.stream = [] ∧ b1.WF ∧
      b1.buf.length = b.buf.length ∧ b1.rd = b.rd := by
  have hav : b.avail = [] := (List.append_eq_nil.mp hs).1
  have hd : b.rd.data = [] := (List.append_eq_nil.mp hs).2
  have hrw : b.r = b.w := (b.avail_nil_iff hb).mp hav
  unfold BufReader.read
  rw [if_neg (by omega), if_pos hrw]
  by_cases hbig : p.length ≥ b.buf.length
  · rw [if_pos hbig, Reader.read_nil _ _ hd]
    exact ⟨_, rfl, hs, hb, rfl, rfl⟩
  · rw [if_neg hbig, Reader.read_nil _ _ hd]
    refine ⟨({ b with r := 0, w := 0 } : BufReader), rfl, ?_,
      ⟨le_refl _, Nat.zero_le _, hb.size_pos, hb.eof_data, hb.good,
        fun _ => by simp only; exact hb.size_pos⟩, rfl, rfl⟩
    show slice b.buf 0 0 ++ b.rd.data = []
    rw [slice_self, hd]
    rfl

theorem BufReader.readFullLoop_ok (fuel : Nat) (b : BufReader) (p : List Byte) (k : Nat)
    (hb : b.WF) (hk : k ≤ p.length) (hf : p.length - k < fuel)
    (hrem : p.length - k ≤ b.stream.length) :
    ∃ b1, BufReader.readFullLoop fuel b p k
        = (.ok (some (p.take k ++ b.stream.take (p.length - k))), b1) ∧
      b1.WF ∧ b1.stream = b.stream.drop (p.length - k) ∧ b1.buf.length = b.buf.length := by
  induction fuel generalizing b p k with
  | zero => omega
  | succ fuel ih =>
    unfold BufReader.readFullLoop
    by_cases hlt : k < p.length
    · rw [if_pos hlt]
      have hs : b.stream ≠ [] := by
        intro h
        rw [h] at hrem
        simp at hrem
        omega
      obtain ⟨n, b1, h1, hn0, hn1, hn2, hst1, hwf1, hlen1, _⟩ :=
        b.read_spec (p.drop k) hb (by simp; omega) hs
      rw [h1]
      simp only
      have hn3 : n ≤ p.length - k := by simpa using hn1
      have hpl : (List.take k p ++ (List.take n b.stream ++ List.drop n (List.drop k p))).length
          = p.length := by
        simp only [List.length_append, List.length_take, List.length_drop]
        omega
      obtain ⟨b2, h2, hwf2, hst2, hlen2⟩ := ih b1 _ (k + n) hwf1 (by rw [hpl]; omega)
        (by rw [hpl]; omega) (by rw [hpl, hst1]; simp; omega)
      rw [h2]
      refine ⟨b2, ?_, hwf2, ?_, by rw [hlen2, hlen1]⟩
      · rw [hpl, hst1]
        congr 3
        have e1 : (List.take k p).length = k := by simp; omega
        have e2 : (List.take n b.stream).length = n := by simp; omega
        rw [← List.append_assoc]
        have e3 : (List.take k p ++ List.take n b.stream).length = k + n := by simp [e1, e2]
        rw [List.take_append_of_le_length (by omega), List.take_of_length_le (by omega),
          List.append_assoc]
        congr 1
        have e4 : p.length - k = n + (p.length - (k + n)) := by omega
        rw [e4, List.take_add]
      · rw [hst2, hst1, hpl, List.drop_drop]
        congr 1
        omega
    · rw [if_neg hlt]
      have e : p.length - k = 0 := by omega
      refine ⟨b, ?_, hb, by simp [e], rfl⟩
      rw [e, List.take_zero, List.append_nil, List.take_of_length_le (by omega)]

theorem BufReader.readFullLoop_short (fuel : Nat) (b : BufReader) (p : List Byte) (k : Nat)
    (hb : b.WF) (hk : k ≤ p.length) (hf : b.stream.length < fuel)
    (hrem : b.stream.length < p.length - k) :
    ∃ b1, BufReader.readFullLoop fuel b p k
        = (if k = 0 ∧ b.stream = [] then .ok none
           else .error (.partialRead (p.take k ++ b.stream)), b1) ∧
      b1.WF ∧ b1.stream = [] ∧ b1.buf.length = b.buf.length := by
  induction fuel generalizing b p k with
  | zero => omega
  | succ fuel ih =>
    unfold BufReader.readFullLoop
    rw [if_pos (by omega)]
    by_cases hs : b.stream = []
    · obtain ⟨b1, h1, hst1, hwf1, hlen1, _⟩ := b.read_eof (p.drop k) hb (by simp; omega) hs
      rw [h1]
      simp only
      refine ⟨b1, ?_, hwf1, hst1, hlen1⟩
      by_cases hk0 : k = 0
      · simp [hk0, hs]
      · simp [hk0, hs, slice_zero]
    · obtain ⟨n, b1, h1, hn0, hn1, hn2, hst1, hwf1, hlen1, _⟩ :=
        b.read_spec (p.drop k) hb (by simp; omega) hs
      rw [h1]
      simp only
      have hpl : (List.take k p ++ (List.take n b.stream ++ List.drop n (List.drop k p))).length
          = p.length := by
        simp only [List.length_append, List.length_take, List.length_drop]
        omega
      have hl1 : b1.stream.length = b.stream.length - n := by rw [hst1]; simp
      obtain ⟨b2, h2, hwf2, hst2, hlen2⟩ := ih b1 _ (k + n) hwf1 (by rw [hpl]; omega)
        (by omega) (by rw [hpl]; omega)
      rw [h2]
      refine ⟨b2, ?_, hwf2, hst2, by rw [hlen2, hlen1]⟩
      have hkn : ¬ (k + n = 0 ∧ b1.stream = []) := by omega
      have hk0 : ¬ (k = 0 ∧ b.stream = []) := fun h => hs h.2
      rw [if_neg hkn, if_neg hk0, hst1]
      congr 3
      have e1 : (List.take k p).length = k := by simp; omega
      have e2 : (List.take n b.stream).length = n := by simp; omega
      rw [← List.append_assoc]
      have e3 : (List.take k p ++ List.take n b.stream).length = k + n := by simp [e1, e2]
      rw [List.take_append_of_le_length (by omega), List.take_of_length_le (by omega),
        List.append_assoc, List.take_append_drop]

/-- C3. `readFull(p)` reads exactly `p.length` bytes: from every well-formed reader state
over a reader that returns at least one byte per read, for `p` of length `n > 0`, when at
least `n` bytes remain (buffered plus underlying) it returns `p` holding the next `n`
bytes of the stream in order and the stream is advanced by exactly `n` bytes; when no
byte remains it returns `null`. -/
theorem BufReader.readFull_exact (b : BufReader) (p : List Byte) (hb : b.WF)
    (hn : 0 < p.length) :
    (p.length ≤ b.stream.length →
      (b.readFull p).1 = .ok (some (b.stream.take p.length)) ∧
      (b.readFull p).2.stream = b.stream.drop p.length ∧ (b.readFull p).2.WF) ∧
    (b.stream = [] → (b.readFull p).1 = .ok none) := by
  constructor
  · intro hrem
    obtain ⟨b1, h1, hwf1, hst1, _⟩ := BufReader.readFullLoop_ok
      (p.length + b.rd.sizes.length + 1) b p 0 hb (Nat.zero_le _) (by omega) (by simpa using hrem)
    unfold BufReader.readFull
    rw [h1]
    exact ⟨by simp, by simpa using hst1, hwf1⟩
  · intro hs
    obtain ⟨b1, h1, _⟩ := BufReader.readFullLoop_short
      (p.length + b.rd.sizes.length + 1) b p 0 hb (Nat.zero_le _) (by rw [hs]; simp)
      (by rw [hs]; simpa using hn)
    unfold BufReader.readFull
    rw [h1]
    simp [hs]

theorem BufReader.newReader_wf (rd : Reader) (size : Int) (hg : rd.Good) : (BufReader.new rd size).WF := by
  refine ⟨le_refl _, Nat.zero_le _, ?_, fun h => by simp [BufReader.new] at h, hg,
    fun h => by simp [BufReader.new] at h⟩
  simp only [BufReader.new, List.length_replicate, MIN_BUF_SIZE]
  split <;> omega

theorem BufReader.new_stream (rd : Reader) (size : Int) : (BufReader.new rd size).stream = rd.data := by
  simp [BufReader.new, BufReader.stream, BufReader.avail, slice]

theorem BufReader.readFull_exact_witness :
    ((BufReader.new ⟨[1, 2, 3, 4, 5], [2, 1]⟩ 16).readFull [0, 0, 0]).1
      = .ok (some ((BufReader.new ⟨[1, 2, 3, 4, 5], [2, 1]⟩ 16).stream.take [0, 0, 0].length)) ∧
    ((BufReader.new ⟨[1, 2, 3, 4, 5], [2, 1]⟩ 16).readFull [0, 0, 0]).2.stream
      = (BufReader.new ⟨[1, 2, 3, 4, 5], [2, 1]⟩ 16).stream.drop [0, 0, 0].length ∧
    ((BufReader.new ⟨[1, 2, 3, 4, 5], [2, 1]⟩ 16).readFull [0, 0, 0]).2.WF :=
  (BufReader.readFull_exact (BufReader.new ⟨[1, 2, 3, 4, 5], [2, 1]⟩ 16) [0, 0, 0]
    (BufReader.newReader_wf _ _ (by intro k hk; simp at hk; rcases hk with rfl | rfl <;> decide))
    (by decide)).1 (by rw [BufReader.new_stream]; decide)

/-- C4. `readFull(p)` fails on a short stream: when `k` bytes remain with
`0 < k < p.length`, it throws `PartialReadError` whose `partial`, the slice `p[0..k)`,
holds exactly the `k` bytes that were read, and the stream is exhausted. -/
theorem BufReader.readFull_short (b : BufReader) (p : List Byte) (hb : b.WF)
    (hk : 0 < b.stream.length) (hlt : b.stream.length < p.length) :
    (b.readFull p).1 = .error (.partialRead b.stream) ∧ (b.readFull p).2.stream = [] := by
  obtain ⟨b1, h1, _, hst1, _⟩ := BufReader.readFullLoop_short
    (p.length + b.rd.sizes.length + 1) b p 0 hb (Nat.zero_le _) (by omega) (by simpa using hlt)
  unfold BufReader.readFull
  rw [h1]
  have hs : b.stream ≠ [] := List.length_pos.mp hk
  simp [hs, hst1]

theorem BufReader.readFull_short_witness :
    (BufReader.new ⟨[1, 2], [1]⟩ 16).WF ∧
    ((BufReader.new ⟨[1, 2], [1]⟩ 16).readFull [0, 0, 0]).1
      = .error (.partialRead (BufReader.new ⟨[1, 2], [1]⟩ 16).stream) ∧
    ((BufReader.new ⟨[1, 2], [1]⟩ 16).readFull [0, 0, 0]).2.stream = [] :=
  have hwf : (BufReader.new ⟨[1, 2], [1]⟩ 16).WF :=
    BufReader.newReader_wf _ _ (by intro k hk; simp at hk; subst hk; decide)
  ⟨hwf, BufReader.readFull_short _ [0, 0, 0] hwf
    (by rw [BufReader.new_stream]; decide) (by rw [BufReader.new_stream]; decide)⟩

/-- The result of `readFull` is determined by the bytes that remain. -/
theorem BufReader.readFull_of_stream (b : BufReader) (p : List Byte) (hb : b.WF) :
    (b.readFull p).1 =
      if p.length ≤ b.stream.length then .ok (some (b.stream.take p.length))
      else if b.stream = [] then .ok none
      else .error (.partialRead b.stream) := by
  by_cases hle : p.length ≤ b.stream.length
  · rw [if_pos hle]
    obtain ⟨b1, h1, _⟩ := BufReader.readFullLoop_ok
      (p.length + b.rd.sizes.length + 1) b p 0 hb (Nat.zero_le _) (by omega) (by simpa using hle)
    unfold BufReader.readFull
    rw [h1]
    simp
  · rw [if_neg hle]
    obtain ⟨b1, h1, _⟩ := BufReader.readFullLoop_short
      (p.length + b.rd.sizes.length + 1) b p 0 hb (Nat.zero_le _) (by omega) (by simpa using hle)
    unfold BufReader.readFull
    rw [h1]
    by_cases hs : b.stream = []
    · simp [hs]
    · simp [hs]

theorem BufReader.peekLoop_spec (n fuel : Nat) (b : BufReader) (hb : b.WF)
    (hn : n ≤ b.buf.length) (hf : n - b.avail.length + 2 ≤ fuel + (if b.eof then 1 else 0)) :
    ∃ b1, BufReader.peekLoop n fuel b = (.ok (), b1) ∧ b1.WF ∧ b1.stream = b.stream ∧
      b1.buf.length = b.buf.length ∧ (n ≤ b1.avail.length ∨ b1.eof = true) := by
  induction fuel generalizing b with
  | zero => split at hf <;> omega
  | succ fuel ih =>
    have hal := b.avail_length hb
    have hwl := hb.w_le
    unfold BufReader.peekLoop
    by_cases hc : b.w - b.r < n ∧ b.w - b.r < b.buf.length ∧ b.eof = false
    · rw [if_pos hc]
      obtain ⟨b1, bs, h1, hwf1, hr1, hlen1, hav1, hdata1, _, heof1, hne1⟩ :=
        b.fill_spec hb hc.2.1
      rw [h1]
      simp only
      have hst1 : b1.stream = b.stream := by
        simp only [BufReader.stream]
        rw [hav1, hdata1, List.append_assoc]
      have hfuel : n - b1.avail.length + 2 ≤ fuel + (if b1.eof then 1 else 0) := by
        rw [hc.2.2] at hf
        simp only [Bool.false_eq_true, if_false, Nat.add_zero] at hf
        by_cases hd : b.rd.data = []
        · rw [heof1 hd]
          simp only [if_true]
          rw [hav1, List.length_append]
          omega
        · have hbs := List.length_pos.mpr (hne1 hd).1
          rw [hav1, List.length_append, hal]
          rw [hal] at hf
          split <;> omega
      obtain ⟨b2, h2, hwf2, hst2, hlen2, hex2⟩ := ih b1 hwf1 (by omega) hfuel
      exact ⟨b2, h2, hwf2, by rw [hst2, hst1], by rw [hlen2, hlen1], hex2⟩
    · rw [if_neg hc]
      refine ⟨b, rfl, hb, rfl, rfl, ?_⟩
      rw [hal]
      by_cases he : b.eof = true
      · exact Or.inr he
      · left
        have he2 : b.eof = false := by simpa using he
        by_contra hlt
        apply hc
        exact ⟨by omega, by omega, he2⟩

theorem BufReader.peek_spec (b : BufReader) (n : Nat) (hb : b.WF) (hn : n ≤ b.buf.length) :
    (b.peek n).1 = (if b.stream = [] ∧ (b.peek n).2.eof = true then .ok none
                    else .ok (some (b.stream.take n))) ∧
    (b.peek n).2.stream = b.stream ∧ (b.peek n).2.WF ∧
    (n ≤ (b.peek n).2.avail.length ∨ (b.peek n).2.eof = true) := by
  obtain ⟨b1, h1, hwf1, hst1, hlen1, hex1⟩ := BufReader.peekLoop_spec n (b.buf.length + 2) b hb hn
    (by have := Nat.sub_le n b.avail.length; omega)
  have hal1 := b1.avail_length hwf1
  have hr1 := hwf1.r_le
  unfold BufReader.peek
  rw [if_neg (by omega)]
  simp only [Int.toNat_ofNat, h1]
  by_cases hc1 : b1.w - b1.r = 0 ∧ b1.eof = true
  · rw [if_pos hc1]
    have hav : b1.avail = [] := by
      apply List.length_eq_zero.mp
      rw [hal1]; exact hc1.1
    have hs : b.stream = [] := by
      rw [← hst1]
      simp [BufReader.stream, hav, hwf1.eof_data hc1.2]
    simp [hs, hc1.2, hst1, hwf1, hex1]
  · rw [if_neg hc1]
    by_cases hc2 : b1.w - b1.r < n ∧ b1.eof = true
    · rw [if_pos hc2]
      have hd := hwf1.eof_data hc2.2
      have hs : b.stream = b1.avail := by
        rw [← hst1]; simp [BufReader.stream, hd]
      have hne : b.stream ≠ [] := by
        intro h
        rw [hs] at h
        have := congrArg List.length h
        rw [hal1] at this
        simp only [List.length_nil] at this
        exact hc1 ⟨this, hc2.2⟩
      refine ⟨?_, hst1, hwf1, hex1⟩
      rw [if_neg (fun h => hne h.1)]
      rw [hs, List.take_of_length_le (by rw [hal1]; omega)]
      have : b1.r + (b1.w - b1.r) = b1.w := by omega
      rw [this]
      rfl
    · rw [if_neg hc2]
      have hge : n ≤ b1.w - b1.r := by
        rcases hex1 with h | h
        · rw [hal1] at h; exact h
        · by_contra hlt
          exact hc2 ⟨by omega, h⟩
      rw [if_neg (by omega)]
      refine ⟨?_, hst1, hwf1, hex1⟩
      have htake : slice b1.buf b1.r (b1.r + n) = b.stream.take n := by
        rw [slice_take _ _ b1.w _ (by omega), ← hst1]
        simp only [BufReader.stream]
        rw [List.take_append_of_le_length (by rw [hal1]; exact hge)]
        rfl
      rw [htake]
      by_cases hs : b.stream = [] ∧ b1.eof = true
      · exfalso
        apply hc1
        refine ⟨?_, hs.2⟩
        have : b1.avail = [] := by
          have h := hs.1
          rw [← hst1] at h
          exact (List.append_eq_nil.mp h).1
        rw [← hal1, this]; rfl
      · rw [if_neg hs]

/-- C8. `peek(n)` does not advance the reader: `peek(n)` with `n < 0` throws; for
`0 ≤ n ≤ buf.byteLength`, from every well-formed state over a reader that makes
progress, `peek(n)` returns `null` when no byte remains and the reader is at EOF, and
otherwise the next `min(n, remaining)` bytes; for `n > 0` it returns `null` exactly when
no byte remains.  The bytes still to be delivered are the same after `peek` as before
it, so every later `readFull` returns what it would have returned without the `peek`. -/
theorem BufReader.peek_does_not_advance (b : BufReader) (n : Int) (hb : b.WF) :
    (n < 0 → b.peek n = (.error .negativeCount, b)) ∧
    (0 ≤ n → n ≤ b.buf.length →
      (b.peek n).1 = (if b.stream = [] ∧ (b.peek n).2.eof = true then .ok none
                      else .ok (some (b.stream.take (min n.toNat b.stream.length)))) ∧
      (0 < n → ((b.peek n).1 = .ok none ↔ b.stream = [])) ∧
      (b.peek n).2.stream = b.stream ∧ (b.peek n).2.WF ∧
      ∀ p, ((b.peek n).2.readFull p).1 = (b.readFull p).1) := by
  constructor
  · intro hn
    simp [BufReader.peek, hn]
  · intro h0 hle
    obtain ⟨m, rfl⟩ := Int.eq_ofNat_of_zero_le h0
    have hm : m ≤ b.buf.length := by exact_mod_cast hle
    obtain ⟨h1, h2, h3, h4⟩ := b.peek_spec m hb hm
    have htk : b.stream.take (min m b.stream.length) = b.stream.take m := by
      rw [List.take_eq_take]; simp
    refine ⟨?_, ?_, h2, h3, ?_⟩
    · simp only [Int.toNat_ofNat, htk]
      exact h1
    · intro hpos
      have hmpos : 0 < m := by exact_mod_cast hpos
      constructor
      · intro hnone
        by_contra hs
        rw [h1, if_neg (fun h => hs h.1)] at hnone
        simp at hnone
      · intro hs
        rw [h1]
        have he : (b.peek ↑m).2.eof = true := by
          rcases h4 with h | h
          · exfalso
            have hav : (b.peek ↑m).2.avail = [] := by
              have := h2
              rw [hs] at this
              exact (List.append_eq_nil.mp this).1
            rw [hav] at h
            simp at h
            omega
          · exact h
        rw [if_pos ⟨hs, he⟩]
    · intro p
      rw [BufReader.readFull_of_stream _ p h3, BufReader.readFull_of_stream _ p hb, h2]

theorem BufReader.peek_does_not_advance_witness :
    (BufReader.new ⟨[1, 2, 3], [1]⟩ 16).peek (-1)
      = (.error .negativeCount, BufReader.new ⟨[1, 2, 3], [1]⟩ 16) ∧
    ((BufReader.new ⟨[1, 2, 3], [1]⟩ 16).peek 2).2.stream
      = (BufReader.new ⟨[1, 2, 3], [1]⟩ 16).stream :=
  ⟨(BufReader.peek_does_not_advance (BufReader.new ⟨[1, 2, 3], [1]⟩ 16) (-1)
      (BufReader.newReader_wf _ _ (by intro k hk; simp at hk; subst hk; decide))).1 (by decide),
   ((BufReader.peek_does_not_advance (BufReader.new ⟨[1, 2, 3], [1]⟩ 16) 2
      (BufReader.newReader_wf _ _ (by intro k hk; simp at hk; subst hk; decide))).2 (by decide)
      (by decide)).2.2.1⟩

theorem indexOf_none_iff (l : List Byte) (d : Byte) : indexOf l d = none ↔ d ∉ l := by
  induction l with
  | nil => simp [indexOf]
  | cons x xs ih =>
    unfold indexOf
    by_cases h : x = d
    · simp [h]
    · simp only [h, if_false, Option.map_eq_none', ih, List.mem_cons, not_or]
      constructor
      · intro h1
        exact ⟨fun h2 => h h2.symm, h1⟩
      · intro h1
        exact h1.2

theorem indexOf_append (a c : List Byte) (d : Byte) :
    indexOf (a ++ c) d = match indexOf a d with
      | some i => some i
      | none => (indexOf c d).map (· + a.length) := by
  induction a with
  | nil =>
    simp only [List.nil_append, indexOf, List.length_nil, Nat.add_zero]
    cases indexOf c d <;> rfl
  | cons x xs ih =>
    by_cases h : x = d
    · simp [indexOf, h]
    · have hc : indexOf (x :: (xs ++ c)) d = (indexOf (xs ++ c) d).map (· + 1) := by
        simp [indexOf, h]
      have hx : indexOf (x :: xs) d = (indexOf xs d).map (· + 1) := by
        simp [indexOf, h]
      rw [List.cons_append, hc, hx, ih]
      cases indexOf xs d with
      | some i => rfl
      | none =>
        cases indexOf c d with
        | some j => simp [Nat.add_assoc]
        | none => rfl

theorem indexOf_lt (l : List Byte) (d : Byte) (i : Nat) (h : indexOf l d = some i) :
    i < l.length := by
  induction l generalizing i with
  | nil => simp [indexOf] at h
  | cons x xs ih =>
    unfold indexOf at h
    by_cases hx : x = d
    · simp only [hx, if_true, Option.some.injEq] at h
      subst h; simp
    · simp only [hx, if_false, Option.map_eq_some'] at h
      obtain ⟨j, hj, rfl⟩ := h
      have := ih j hj
      simp; omega

theorem indexOf_take_succ (l : List Byte) (d : Byte) (i : Nat) (h : indexOf l d = some i) :
    l.take (i + 1) = l.take i ++ [d] ∧ d ∉ l.take i := by
  induction l generalizing i with
  | nil => simp [indexOf] at h
  | cons x xs ih =>
    unfold indexOf at h
    by_cases hx : x = d
    · simp only [hx, if_true, Option.some.injEq] at h
      subst h; simp [hx]
    · simp only [hx, if_false, Option.map_eq_some'] at h
      obtain ⟨j, hj, rfl⟩ := h
      obtain ⟨h1, h2⟩ := ih j hj
      refine ⟨by simp [h1], ?_⟩
      simp only [List.take_succ_cons, List.mem_cons, not_or]
      exact ⟨fun h3 => hx h3.symm, h2⟩

/-- Searching from `s` on, when the first `s` bytes do not hold `d`. -/
theorem indexOf_drop (a : List Byte) (d : Byte) (s : Nat) (hs : s ≤ a.length)
    (hpre : indexOf (a.take s) d = none) :
    indexOf a d = (indexOf (a.drop s) d).map (· + s) := by
  have h := indexOf_append (a.take s) (a.drop s) d
  rw [List.take_append_drop, hpre] at h
  simp only [List.length_take] at h
  rw [h, Nat.min_eq_left hs]

theorem BufReader.readSliceLoop_spec (d : Byte) (fuel s : Nat) (b : BufReader) (hb : b.WF)
    (hs : s ≤ b.avail.length) (hpre : indexOf (b.avail.take s) d = none)
    (hf : b.buf.length - b.avail.length + 2 ≤ fuel + (if b.eof then 1 else 0)) :
    ∃ b1, BufReader.readSliceLoop d fuel s b = ((sliceExpect b.buf.length d b.stream).1, b1) ∧
      b1.stream = (sliceExpect b.buf.length d b.stream).2 ∧ b1.WF ∧
      b1.buf.length = b.buf.length ∧
      (∀ part, (sliceExpect b.buf.length d b.stream).1 = .error (.bufferFull part) →
        b1.r = b1.buf.length ∧ b1.w = b1.buf.length ∧ b1.buf = part ∧ b1.eof = false) := by
  induction fuel generalizing b s with
  | zero => split at hf <;> omega
  | succ fuel ih =>
    have hal := b.avail_length hb
    have hwl := hb.w_le
    have hrl := hb.r_le
    have hidx := indexOf_drop b.avail d s hs hpre
    have htake : b.stream.take b.buf.length
        = b.avail ++ b.rd.data.take (b.buf.length - b.avail.length) := by
      simp only [BufReader.stream]
      rw [List.take_append_eq_append_take, List.take_of_length_le (by omega)]
    unfold BufReader.readSliceLoop
    have hsl : slice b.buf (b.r + s) b.w = b.avail.drop s := slice_drop _ _ _ _
    rw [hsl]
    cases hi : indexOf (b.avail.drop s) d with
    | some i =>
      simp only
      rw [hi] at hidx
      simp only [Option.map_some'] at hidx
      have hlt := indexOf_lt _ _ _ hidx
      have hexp : sliceExpect b.buf.length d b.stream
          = (.ok (some (b.stream.take (i + s + 1))), b.stream.drop (i + s + 1)) := by
        unfold sliceExpect
        rw [htake, indexOf_append, hidx]
      rw [hexp]
      obtain ⟨hwf1, _, hst1⟩ := b.advance hb (i + s + 1) (by omega)
      refine ⟨_, ?_, hst1, hwf1, rfl, ?_⟩
      · simp only
        congr 3
        rw [slice_take _ _ b.w _ (by omega)]
        simp only [BufReader.stream]
        rw [List.take_append_of_le_length (by omega)]
        rfl
      · intro part h
        simp at h
    | none =>
      simp only
      rw [hi] at hidx
      simp only [Option.map_none'] at hidx
      by_cases he : b.eof = true
      · rw [if_pos he]
        have hd := hb.eof_data he
        have hroom := hb.eof_room he
        have hst : b.stream = b.avail := by simp [BufReader.stream, hd]
        have hexp : sliceExpect b.buf.length d b.stream
            = (if b.avail = [] then .ok none else .ok (some b.avail), []) := by
          unfold sliceExpect
          rw [htake, indexOf_append, hidx, hd]
          simp only [List.take_nil, indexOf, Option.map_none', hst]
          rw [if_pos (by omega)]
        rw [hexp]
        by_cases hrw : b.r = b.w
        · rw [if_pos hrw]
          have hav := (b.avail_nil_iff hb).mpr hrw
          refine ⟨b, ?_, ?_, hb, rfl, ?_⟩
          · simp [hav]
          · rw [hst, hav]
          · intro part h
            simp [hav] at h
        · rw [if_neg hrw]
          have hav : b.avail ≠ [] := fun h => hrw ((b.avail_nil_iff hb).mp h)
          obtain ⟨hwf1, _, hst1⟩ := b.advance hb (b.w - b.r) (le_refl _)
          have hrr : b.r + (b.w - b.r) = b.w := by omega
          rw [hrr] at hwf1 hst1
          refine ⟨_, ?_, ?_, hwf1, rfl, ?_⟩
          · simp only [hav, if_false]
            rfl
          · rw [hst1, List.drop_of_length_le]
            rw [hst, hal]
          · intro part h
            simp [hav] at h
      · rw [if_neg he]
        have he2 : b.eof = false := by simpa using he
        by_cases hfull : b.buffered ≥ b.buf.length
        · rw [if_pos hfull]
          have hbf : b.buffered = b.w - b.r := rfl
          have hr0 : b.r = 0 := by omega
          have hw0 : b.w = b.buf.length := by omega
          have hav : b.avail = b.buf := by
            simp only [BufReader.avail, hr0, hw0, slice_zero, List.take_length]
          have hexp : sliceExpect b.buf.length d b.stream
              = (.error (.bufferFull b.buf), b.rd.data) := by
            unfold sliceExpect
            have h1 : b.stream.take b.buf.length = b.buf := by
              rw [htake, hav]; simp
            have hidx2 : indexOf b.buf d = none := by rw [← hav]; exact hidx
            rw [h1, hidx2]
            simp only
            have h2 : ¬ b.stream.length < b.avail.length := by
              simp [BufReader.stream]
            rw [hav] at h2
            rw [if_neg h2]
            simp only [BufReader.stream]
            rw [hav, List.drop_left]
          rw [hexp]
          obtain ⟨hwf1, _, hst1⟩ := b.advance hb (b.w - b.r) (le_refl _)
          have hrr : b.r + (b.w - b.r) = b.w := by omega
          rw [hrr] at hwf1 hst1
          refine ⟨_, rfl, ?_, hwf1, rfl, ?_⟩
          · rw [hst1]
            simp only [BufReader.stream]
            rw [List.drop_append_of_le_length (by omega), List.drop_of_length_le (by omega)]
            rfl
          · intro part h
            simp only [Except.error.injEq, Err.bufferFull.injEq] at h
            exact ⟨hw0, hw0, h, he2⟩
        · rw [if_neg hfull]
          have hbf : b.buffered = b.w - b.r := rfl
          obtain ⟨b1, bs, h1, hwf1, hr1, hlen1, hav1, hdata1, _, heof1, hne1⟩ :=
            b.fill_spec hb (by omega)
          rw [h1]
          simp only
          have hst1 : b1.stream = b.stream := by
            simp only [BufReader.stream]
            rw [hav1, hdata1, List.append_assoc]
          have hfuel : b1.buf.length - b1.avail.length + 2 ≤ fuel + (if b1.eof then 1 else 0) := by
            rw [he2] at hf
            simp only [Bool.false_eq_true, if_false, Nat.add_zero] at hf
            rw [hlen1]
            by_cases hd : b.rd.data = []
            · rw [heof1 hd]
              simp only [if_true]
              rw [hav1, List.length_append]
              omega
            · have hbs := List.length_pos.mpr (hne1 hd).1
              rw [hav1, List.length_append, hal]
              rw [hal] at hf
              split <;> omega
          have hs1 : b.w - b.r ≤ b1.avail.length := by
            rw [hav1, List.length_append]; omega
          have hpre1 : indexOf (b1.avail.take (b.w - b.r)) d = none := by
            rw [hav1, ← hal, List.take_left]
            exact hidx
          obtain ⟨b2, h2, hst2, hwf2, hlen2, hbf2⟩ := ih (b.w - b.r) b1 hwf1 hs1 hpre1 hfuel
          rw [hlen1, hst1] at h2 hst2 hbf2
          exact ⟨b2, h2, hst2, hwf2, by rw [hlen2, hlen1], hbf2⟩

theorem BufReader.readSlice_spec (d : Byte) (b : BufReader) (hb : b.WF) :
    ∃ b1, b.readSlice d = ((sliceExpect b.buf.length d b.stream).1, b1) ∧
      b1.stream = (sliceExpect b.buf.length d b.stream).2 ∧ b1.WF ∧
      b1.buf.length = b.buf.length ∧
      (∀ part, (sliceExpect b.buf.length d b.stream).1 = .error (.bufferFull part) →
        b1.r = b1.buf.length ∧ b1.w = b1.buf.length ∧ b1.buf = part ∧ b1.eof = false) := by
  unfold BufReader.readSlice
  apply BufReader.readSliceLoop_spec d (b.buf.length + 2) 0 b hb (Nat.zero_le _)
  · simp [indexOf]
  · omega

theorem indexOf_take (l : List Byte) (d : Byte) (j n : Nat) (h : indexOf l d = some j)
    (hj : j < n) : indexOf (l.take n) d = some j := by
  have ha := indexOf_append (l.take n) (l.drop n) d
  rw [List.take_append_drop, h] at ha
  cases ht : indexOf (l.take n) d with
  | some i =>
    rw [ht] at ha
    simpa using ha.symm
  | none =>
    rw [ht] at ha
    simp only at ha
    cases hd : indexOf (l.drop n) d with
    | none => rw [hd] at ha; simp at ha
    | some k =>
      rw [hd] at ha
      simp only [Option.map_some', Option.some.injEq, List.length_take] at ha
      have hk := indexOf_lt _ _ _ hd
      simp only [List.length_drop] at hk
      omega

/-- C7. `readSlice(delim)` reads up to the first delimiter: from every well-formed state
over a reader that makes progress, (1) when `delim` first occurs at index `j` of the
remaining stream with `j` less than the buffer size, the result is the `j + 1` bytes up
to and including it, in which `delim` is only the last byte, and exactly those bytes are
consumed; (2) when the stream ends before any `delim` and before the buffer fills, the
remaining bytes are returned and consumed, or `null` when none remain; (3) when the next
`buf.byteLength` bytes hold no `delim`, it throws `BufferFullError` whose `partial` is the
entire buffer, which holds those bytes, and they are consumed. -/
theorem BufReader.readSlice_first_delim (b : BufReader) (delim : Byte) (hb : b.WF) :
    (∀ j, indexOf b.stream delim = some j → j < b.buf.length →
      (b.readSlice delim).1 = .ok (some (b.stream.take (j + 1))) ∧
      b.stream.take (j + 1) = b.stream.take j ++ [delim] ∧ delim ∉ b.stream.take j ∧
      (b.readSlice delim).2.stream = b.stream.drop (j + 1)) ∧
    (indexOf b.stream delim = none → b.stream.length < b.buf.length →
      (b.readSlice delim).1 = (if b.stream = [] then .ok none else .ok (some b.stream)) ∧
      (b.readSlice delim).2.stream = []) ∧
    (indexOf (b.stream.take b.buf.length) delim = none → b.buf.length ≤ b.stream.length →
      (b.readSlice delim).1 = .error (.bufferFull (b.stream.take b.buf.length)) ∧
      (b.readSlice delim).2.buf = b.stream.take b.buf.length ∧
      (b.readSlice delim).2.stream = b.stream.drop b.buf.length) := by
  obtain ⟨b1, h1, hst1, hwf1, hlen1, hbf1⟩ := BufReader.readSlice_spec delim b hb
  refine ⟨?_, ?_, ?_⟩
  · intro j hj hlt
    have hexp : sliceExpect b.buf.length delim b.stream
        = (.ok (some (b.stream.take (j + 1))), b.stream.drop (j + 1)) := by
      unfold sliceExpect
      rw [indexOf_take _ _ _ _ hj hlt]
    rw [hexp] at h1 hst1
    obtain ⟨h2, h3⟩ := indexOf_take_succ _ _ _ hj
    rw [h1]
    exact ⟨rfl, h2, h3, hst1⟩
  · intro hnone hlt
    have hexp : sliceExpect b.buf.length delim b.stream
        = (if b.stream = [] then .ok none else .ok (some b.stream), []) := by
      unfold sliceExpect
      rw [List.take_of_length_le (by omega), hnone]
      simp only
      rw [if_pos hlt]
    rw [hexp] at h1 hst1
    rw [h1]
    exact ⟨rfl, hst1⟩
  · intro hnone hge
    have hexp : sliceExpect b.buf.length delim b.stream
        = (.error (.bufferFull (b.stream.take b.buf.length)), b.stream.drop b.buf.length) := by
      unfold sliceExpect
      rw [hnone]
      simp only
      rw [if_neg (by omega)]
    have hb2 := hbf1 (b.stream.take b.buf.length) (by rw [hexp])
    rw [hexp] at h1 hst1
    rw [h1]
    exact ⟨rfl, hb2.2.2.1, hst1⟩

theorem BufReader.readSlice_first_delim_witness :
    ((BufReader.new ⟨[1, 2, 10, 3], [1]⟩ 16).readSlice 10).1
      = .ok (some ((BufReader.new ⟨[1, 2, 10, 3], [1]⟩ 16).stream.take (2 + 1))) ∧
    (BufReader.new ⟨[1, 2, 10, 3], [1]⟩ 16).stream.take (2 + 1)
      = (BufReader.new ⟨[1, 2, 10, 3], [1]⟩ 16).stream.take 2 ++ [10] ∧
    10 ∉ (BufReader.new ⟨[1, 2, 10, 3], [1]⟩ 16).stream.take 2 ∧
    ((BufReader.new ⟨[1, 2, 10, 3], [1]⟩ 16).readSlice 10).2.stream
      = (BufReader.new ⟨[1, 2, 10, 3], [1]⟩ 16).stream.drop (2 + 1) :=
  (BufReader.readSlice_first_delim (BufReader.new ⟨[1, 2, 10, 3], [1]⟩ 16) 10
    (BufReader.newReader_wf _ _ (by intro k hk; simp at hk; subst hk; decide))).1 2
    (by rw [BufReader.new_stream]; decide) (by decide)

theorem indexOf_of_take (l : List Byte) (d : Byte) (j n : Nat)
    (h : indexOf (l.take n) d = some j) : indexOf l d = some j := by
  have ha := indexOf_append (l.take n) (l.drop n) d
  rw [List.take_append_drop, h] at ha
  exact ha

theorem slice_last_append (st : List Byte) (n : Nat) (hn : 0 < n) :
    slice (st.take n) (n - 1) n ++ st.drop n = st.drop (n - 1) := by
  unfold slice
  have e1 : n - (n - 1) = 1 := by omega
  rw [e1, List.drop_take, e1, List.take_take]
  have e2 : st.drop n = (st.drop (n - 1)).drop 1 := by
    rw [List.drop_drop]
    congr 1
    omega
  rw [e2]
  simp only [min_self, List.take_append_drop]

/-- The line that `readLine` makes of a slice `pre ++ [LF]` returned by `readSlice`. -/
theorem readLine_strip (pre : List Byte) :
    (if (pre ++ [LF]).length = 0 then (pre ++ [LF])
     else if (pre ++ [LF])[(pre ++ [LF]).length - 1]? = some LF then
       slice (pre ++ [LF]) 0 ((pre ++ [LF]).length -
         (if (pre ++ [LF]).length > 1 ∧ (pre ++ [LF])[(pre ++ [LF]).length - 2]? = some CR
          then 2 else 1))
     else (pre ++ [LF])) = stripCR pre := by
  have hl : (pre ++ [LF]).length = pre.length + 1 := by simp
  rw [if_neg (by omega)]
  have h1 : (pre ++ [LF])[(pre ++ [LF]).length - 1]? = some LF := by
    rw [hl, List.getElem?_append_right (by omega)]
    simp
  rw [if_pos h1, slice_zero]
  unfold stripCR
  rw [List.getLast?_eq_getElem?, List.dropLast_eq_take]
  by_cases hp : pre.length = 0
  · have : pre = [] := List.length_eq_zero.mp hp
    subst this
    simp
  · have h2 : (pre ++ [LF])[(pre ++ [LF]).length - 2]? = pre[pre.length - 1]? := by
      rw [hl, List.getElem?_append_left (by omega)]
      congr 1
    rw [h2]
    by_cases hc : pre[pre.length - 1]? = some CR
    · rw [if_pos ⟨by omega, hc⟩, if_pos hc, hl]
      have : pre.length + 1 - 2 = pre.length - 1 := by omega
      rw [this, List.take_append_of_le_length (by omega)]
    · rw [if_neg (fun h => hc h.2), if_neg hc, hl]
      have : pre.length + 1 - 1 = pre.length := by omega
      rw [this, List.take_left]

/-- The result of `readLine()` in terms of the bytes that remain. -/
theorem BufReader.readLine_spec (b : BufReader) (hb : b.WF) :
    ∃ b1, b.readLine = ((lineExpect b.buf.length b.stream).1, b1) ∧
      b1.stream = (lineExpect b.buf.length b.stream).2 ∧ b1.WF ∧
      b1.buf.length = b.buf.length := by
  obtain ⟨b1, h1, hst1, hwf1, hlen1, hbf1⟩ := BufReader.readSlice_spec LF b hb
  unfold BufReader.readLine
  rw [h1]
  cases hi : indexOf (b.stream.take b.buf.length) LF with
  | some j =>
    have hse : sliceExpect b.buf.length LF b.stream
        = (.ok (some (b.stream.take (j + 1))), b.stream.drop (j + 1)) := by
      unfold sliceExpect; rw [hi]
    have hle : lineExpect b.buf.length b.stream
        = (.ok (some ⟨stripCR (b.stream.take j), false⟩), b.stream.drop (j + 1)) := by
      unfold lineExpect; rw [hi]
    rw [hse] at hst1
    rw [hse, hle]
    simp only at hst1 ⊢
    have hj := indexOf_of_take _ _ _ _ hi
    obtain ⟨h2, h3⟩ := indexOf_take_succ _ _ _ hj
    refine ⟨b1, ?_, hst1, hwf1, hlen1⟩
    rw [h2]
    have hs := readLine_strip (b.stream.take j)
    have hz : ¬ (b.stream.take j ++ [LF]).length = 0 := by simp
    rw [if_neg hz] at hs ⊢
    by_cases hlf : (b.stream.take j ++ [LF])[(b.stream.take j ++ [LF]).length - 1]? = some LF
    · rw [if_pos hlf] at hs ⊢
      rw [hs]
    · rw [if_neg hlf] at hs ⊢
      rw [hs]
  | none =>
    by_cases hlt : b.stream.length < b.buf.length
    · have hse : sliceExpect b.buf.length LF b.stream
          = (if b.stream = [] then .ok none else .ok (some b.stream), []) := by
        unfold sliceExpect; rw [hi]; simp only; rw [if_pos hlt]
      have hle : lineExpect b.buf.length b.stream
          = (if b.stream = [] then .ok none else .ok (some ⟨b.stream, false⟩), []) := by
        unfold lineExpect; rw [hi]; simp only; rw [if_pos hlt]
      rw [hse] at hst1
      rw [hse, hle]
      simp only at hst1 ⊢
      by_cases hs : b.stream = []
      · simp only [if_pos hs]
        exact ⟨b1, rfl, hst1, hwf1, hlen1⟩
      · simp only [if_neg hs]
        refine ⟨b1, ?_, hst1, hwf1, hlen1⟩
        have hlen : b.stream.length ≠ 0 := fun h => hs (List.length_eq_zero.mp h)
        rw [if_neg hlen]
        have hnl : ¬ (b.stream[b.stream.length - 1]? = some LF) := by
          intro h
          have hmem := List.getElem?_mem h
          rw [List.take_of_length_le (by omega)] at hi
          exact (indexOf_none_iff _ _).mp hi hmem
        rw [if_neg hnl]
    · have hse : sliceExpect b.buf.length LF b.stream
          = (.error (.bufferFull (b.stream.take b.buf.length)), b.stream.drop b.buf.length) := by
        unfold sliceExpect; rw [hi]; simp only; rw [if_neg hlt]
      have hle : lineExpect b.buf.length b.stream
          = (if (b.stream.take b.buf.length).getLast? = some CR then
              (.ok (some ⟨b.stream.take (b.buf.length - 1), true⟩),
                b.stream.drop (b.buf.length - 1))
             else (.ok (some ⟨b.stream.take b.buf.length, true⟩),
                b.stream.drop b.buf.length)) := by
        unfold lineExpect; rw [hi]; simp only; rw [if_neg hlt]
      rw [hse] at hst1 hbf1
      rw [hse, hle]
      simp only at hst1 hbf1 ⊢
      obtain ⟨hr, hw, hbuf, heof⟩ := hbf1 _ rfl
      have hsz := hb.size_pos
      have hpl : (b.stream.take b.buf.length).length = b.buf.length := by
        simp; omega
      by_cases hcr : (b.stream.take b.buf.length).getLast? = some CR
      · rw [if_pos hcr]
        have hcr2 := hcr
        rw [List.getLast?_eq_getElem?] at hcr2
        rw [if_pos ⟨heof, by omega, hcr2⟩, if_pos (by omega)]
        have e1 : slice (b.stream.take b.buf.length) 0 ((b.stream.take b.buf.length).length - 1)
            = b.stream.take (b.buf.length - 1) := by
          rw [slice_zero, hpl, List.take_take]
          congr 1
          omega
        refine ⟨({ b1 with r := b1.r - 1 } : BufReader), ?_, ?_,
          ⟨?_, ?_, hwf1.size_pos, ?_, hwf1.good, ?_⟩, hlen1⟩
        · rw [e1, heof]
          rfl
        · show slice b1.buf (b1.r - 1) b1.w ++ b1.rd.data = _
          have hd : b1.rd.data = b.stream.drop b.buf.length := by
            rw [← hst1]
            simp only [BufReader.stream, BufReader.avail, hr, hw, slice_self, List.nil_append]
          rw [hd, hbuf, hr, hw, hlen1]
          exact slice_last_append _ _ hsz
        · simp only; omega
        · simp only; exact hwf1.w_le
        · intro h; simp only at h; rw [heof] at h; exact absurd h (by simp)
        · intro h; simp only at h; rw [heof] at h; exact absurd h (by simp)
      · rw [if_neg hcr]
        have hcr2 : ¬ (b1.eof = false ∧ (b.stream.take b.buf.length).length > 0 ∧
            (b.stream.take b.buf.length)[(b.stream.take b.buf.length).length - 1]? = some CR) := by
          rw [← List.getLast?_eq_getElem?]
          exact fun h => hcr h.2.2
        rw [if_neg hcr2, heof]
        exact ⟨b1, rfl, hst1, hwf1, hlen1⟩

/-! ## Chunked bodies -/

theorem hexVal_hexChar (d : Nat) (h : d < 16) : hexVal (hexChar d) = some d := by
  unfold hexVal hexChar
  by_cases h10 : d < 10
  · rw [if_pos h10, if_pos (by omega)]
    congr 1
    omega
  · rw [if_neg h10, if_neg (by omega), if_pos (by omega)]
    congr 1
    omega

/-- A hexadecimal digit character is a digit or a lower-case letter `a`..`f`. -/
theorem hexChar_range (d : Nat) (h : d < 16) :
    (48 ≤ hexChar d ∧ hexChar d ≤ 57) ∨ (97 ≤ hexChar d ∧ hexChar d ≤ 102) := by
  unfold hexChar
  by_cases h10 : d < 10
  · rw [if_pos h10]; left; omega
  · rw [if_neg h10]; right; omega

theorem hexDigitsRev_lt (fuel n : Nat) : ∀ d ∈ hexDigitsRev fuel n, d < 16 := by
  induction fuel generalizing n with
  | zero => intro d hd; simp [hexDigitsRev] at hd
  | succ fuel ih =>
    intro d hd
    unfold hexDigitsRev at hd
    split at hd
    · simp at hd
    · rcases List.mem_cons.mp hd with h | h
      · omega
      · exact ih _ d h

theorem hexDigitsRev_value (fuel n : Nat) (h : n ≤ fuel) :
    (hexDigitsRev fuel n).foldr (fun d acc => d + 16 * acc) 0 = n := by
  induction fuel generalizing n with
  | zero =>
    have : n = 0 := by omega
    subst this
    rfl
  | succ fuel ih =>
    unfold hexDigitsRev
    by_cases h0 : n = 0
    · rw [if_pos h0]; simp [h0]
    · rw [if_neg h0]
      simp only [List.foldr_cons]
      rw [ih (n / 16) (by omega)]
      omega

theorem hexDigitsRev_length (fuel n k : Nat) (h : n < 16 ^ k) :
    (hexDigitsRev fuel n).length ≤ k := by
  induction fuel generalizing n k with
  | zero => simp [hexDigitsRev]
  | succ fuel ih =>
    unfold hexDigitsRev
    by_cases h0 : n = 0
    · rw [if_pos h0]; simp
    · rw [if_neg h0]
      cases k with
      | zero => simp at h; omega
      | succ k =>
        simp only [List.length_cons]
        have : n / 16 < 16 ^ k := by
          rw [Nat.div_lt_iff_lt_mul (by norm_num)]
          rw [pow_succ] at h
          exact h
        have := ih (n / 16) k this
        omega

theorem hexDigitsRev_ne_nil (fuel n : Nat) (hn : 0 < n) : hexDigitsRev (fuel + 1) n ≠ [] := by
  unfold hexDigitsRev
  rw [if_neg (by omega)]
  simp

/-- The bytes of `n.toString(16)` are hexadecimal digit characters. -/
theorem toString16_chars (n : Nat) : ∀ c ∈ toString16 n, ∃ d, d < 16 ∧ c = hexChar d := by
  intro c hc
  unfold toString16 at hc
  split at hc
  · simp only [List.mem_singleton] at hc
    exact ⟨0, by omega, by rw [hc]; rfl⟩
  · simp only [List.mem_map, List.mem_reverse] at hc
    obtain ⟨d, hd, rfl⟩ := hc
    exact ⟨d, hexDigitsRev_lt _ _ d hd, rfl⟩

theorem toString16_ne_nil (n : Nat) : toString16 n ≠ [] := by
  unfold toString16
  split
  · simp
  · rename_i h
    cases n with
    | zero => exact absurd rfl h
    | succ m =>
      intro hnil
      simp only [List.map_eq_nil_iff, List.reverse_eq_nil_iff] at hnil
      exact hexDigitsRev_ne_nil m (m + 1) (by omega) hnil

theorem toString16_length (n : Nat) (h : n < 2 ^ 53) : (toString16 n).length ≤ 14 := by
  unfold toString16
  split
  · simp
  · simp only [List.length_map, List.length_reverse]
    apply hexDigitsRev_length
    calc n < 2 ^ 53 := h
      _ ≤ 16 ^ 14 := by norm_num

theorem parseDigits16_hex (ds : List Nat) (acc : Option Nat) (h : ∀ d ∈ ds, d < 16)
    (hne : ds ≠ [] ∨ acc ≠ none) :
    parseDigits16 (ds.map hexChar) acc
      = some (ds.foldl (fun a d => a * 16 + d) (acc.getD 0)) := by
  induction ds generalizing acc with
  | nil =>
    rcases hne with h1 | h1
    · exact absurd rfl h1
    · cases acc with
      | none => exact absurd rfl h1
      | some a => rfl
  | cons d ds ih =>
    simp only [List.map_cons, parseDigits16, List.foldl_cons]
    rw [hexVal_hexChar d (h d (by simp))]
    simp only
    rw [ih _ (fun x hx => h x (by simp [hx])) (Or.inr (by simp))]
    rfl

theorem foldl_reverse_digits (ds : List Nat) :
    ds.reverse.foldl (fun a d => a * 16 + d) 0 = ds.foldr (fun d acc => d + 16 * acc) 0 := by
  rw [List.foldl_reverse]
  congr 1
  funext d acc
  omega

theorem parseDigits16_toString16 (n : Nat) : parseDigits16 (toString16 n) none = some n := by
  unfold toString16
  by_cases h0 : n = 0
  · rw [if_pos h0, h0]
    rfl
  · rw [if_neg h0]
    cases n with
    | zero => exact absurd rfl h0
    | succ m =>
      rw [parseDigits16_hex _ none
        (fun d hd => hexDigitsRev_lt _ _ d (List.mem_reverse.mp hd))
        (Or.inl (by
          intro h
          exact hexDigitsRev_ne_nil m (m + 1) (by omega) (List.reverse_eq_nil_iff.mp h)))]
      simp only [Option.getD_none]
      rw [foldl_reverse_digits, hexDigitsRev_value _ _ (le_refl _)]

/-- A `parseInt` of a non-empty string of hexadecimal digit characters reads all of it. -/
theorem parseInt16_hex (s : List Nat) (hs : s ≠ [])
    (hc : ∀ c ∈ s, ∃ d, d < 16 ∧ c = hexChar d) :
    parseInt16 s = (parseDigits16 s none).map (fun v => (v : Int)) := by
  cases s with
  | nil => exact absurd rfl hs
  | cons c t =>
    obtain ⟨d, hd, hcd⟩ := hc c (by simp)
    have hr := hexChar_range d hd
    rw [← hcd] at hr
    have hw : isWhite c = false := by
      unfold isWhite
      simp only [Bool.or_eq_false_iff, decide_eq_false_iff_not, Bool.and_eq_false_iff]
      constructor
      · omega
      · by_cases h9 : 9 ≤ c
        · right; omega
        · left; omega
    unfold parseInt16
    have hdw : (c :: t).dropWhile isWhite = c :: t := by
      simp [List.dropWhile, hw]
    simp only [hdw, List.head?_cons, Option.some.injEq]
    have h45 : ¬ c = 45 := by omega
    have h43 : ¬ c = 43 := by omega
    simp only [h45, h43, or_self, if_false, decide_False]
    have hm : (match c :: t with
        | 48 :: 120 :: t1 => t1
        | 48 :: 88 :: t1 => t1
        | _ => c :: t) = c :: t := by
      split
      · rename_i t1 heq
        simp only [List.cons.injEq] at heq
        obtain ⟨d2, hd2, hc2⟩ := hc 120 (by rw [heq.2]; simp)
        have := hexChar_range d2 hd2
        rw [← hc2] at this
        omega
      · rename_i t1 heq
        simp only [List.cons.injEq] at heq
        obtain ⟨d2, hd2, hc2⟩ := hc 88 (by rw [heq.2]; simp)
        have := hexChar_range d2 hd2
        rw [← hc2] at this
        omega
      · rfl
    rw [hm]
    cases parseDigits16 (c :: t) none with
    | none => rfl
    | some v => simp

theorem parseInt16_toString16 (n : Nat) : parseInt16 (toString16 n) = some (n : Int) := by
  rw [parseInt16_hex _ (toString16_ne_nil n) (toString16_chars n), parseDigits16_toString16]
  rfl

theorem splitSemicolon_toString16 (n : Nat) : splitSemicolon (toString16 n) = toString16 n := by
  unfold splitSemicolon
  rw [List.takeWhile_eq_self_iff]
  intro c hc
  obtain ⟨d, hd, hcd⟩ := toString16_chars n c hc
  have := hexChar_range d hd
  rw [← hcd] at this
  simp only [ne_eq, decide_not, Bool.not_eq_true', decide_eq_false_iff_not]
  omega

theorem writeChunkedBody_good (w : BufWriter) (chunks : List (List Byte)) (hw : w.WF) :
    ∃ w1, writeChunkedBody w chunks = (.ok (), w1) ∧ w1.WF ∧
      w1.writer.out ++ w1.pending = w.writer.out ++ w.pending ++ wire chunks := by
  induction chunks generalizing w with
  | nil =>
    obtain ⟨w1, h1, hwf1, _, hout1⟩ := w.write_good [48, 13, 10, 13, 10] hw
    refine ⟨w1, ?_, hwf1, ?_⟩
    · simp only [writeChunkedBody, h1]
    · rw [hout1]; rfl
  | cons chunk rest ih =>
    unfold writeChunkedBody wire
    by_cases hc : chunk.length ≤ 0
    · rw [if_pos hc, if_pos hc]
      exact ih w hw
    · rw [if_neg hc, if_neg hc]
      obtain ⟨w1, h1, hwf1, _, hout1⟩ := w.write_good (toString16 chunk.length ++ [13, 10]) hw
      obtain ⟨w2, h2, hwf2, _, hout2⟩ := w1.write_good chunk hwf1
      obtain ⟨w3, h3, hwf3, _, hout3⟩ := w2.write_good [13, 10] hwf2
      obtain ⟨w4, h4, hwf4, hu4, _, hout4, _⟩ := w3.flush_good hwf3
      obtain ⟨w5, h5, hwf5, hout5⟩ := ih w4 hwf4
      rw [h1]
      simp only [h2, h3, h4]
      refine ⟨w5, h5, hwf5, ?_⟩
      have hp4 : w4.pending = [] := by simp [BufWriter.pending, hu4]
      rw [hout5, hp4, List.append_nil, hout4, hout3, hout2, hout1]
      simp only [List.append_assoc]

theorem indexOf_crlf (l rest : List Byte) (hlf : LF ∉ l) :
    indexOf (l ++ [CR, LF] ++ rest) LF = some (l.length + 1) := by
  rw [List.append_assoc, indexOf_append, (indexOf_none_iff l LF).mpr hlf]
  simp only
  have : indexOf ([CR, LF] ++ rest) LF = some 1 := by
    simp [indexOf, CR, LF]
  rw [this]
  simp only [Option.map_some', Option.some.injEq]
  omega

theorem stripCR_append_CR (l : List Byte) : stripCR (l ++ [CR]) = l := by
  unfold stripCR
  rw [List.getLast?_concat, if_pos rfl, List.dropLast_concat]

theorem lineExpect_crlf (size : Nat) (l rest : List Byte) (hlf : LF ∉ l)
    (hfit : l.length + 2 ≤ size) :
    lineExpect size (l ++ [CR, LF] ++ rest) = (.ok (some ⟨l, false⟩), rest) := by
  have hi := indexOf_take _ _ _ size (indexOf_crlf l rest hlf) (by omega)
  unfold lineExpect
  rw [hi]
  simp only
  have h1 : List.take (l.length + 1) (l ++ [CR, LF] ++ rest) = l ++ [CR] := by
    rw [List.append_assoc, List.take_append]
    rfl
  have h2 : List.drop (l.length + 1 + 1) (l ++ [CR, LF] ++ rest) = rest := by
    have : (l ++ [CR, LF]).length = l.length + 1 + 1 := by simp
    rw [← this, List.drop_left]
  rw [h1, h2, stripCR_append_CR]

/-- The result of `readLine()` on a stream that starts with a line ended by `\r\n` that
fits in the buffer. -/
theorem BufReader.readLine_crlf (b : BufReader) (hb : b.WF) (l rest : List Byte)
    (hs : b.stream = l ++ [CR, LF] ++ rest) (hlf : LF ∉ l) (hfit : l.length + 2 ≤ b.buf.length) :
    ∃ b1, b.readLine = (.ok (some ⟨l, false⟩), b1) ∧ b1.stream = rest ∧ b1.WF ∧
      b1.buf.length = b.buf.length := by
  obtain ⟨b1, h1, hst1, hwf1, hlen1⟩ := b.readLine_spec hb
  rw [hs, lineExpect_crlf _ l rest hlf hfit] at h1 hst1
  exact ⟨b1, h1, hst1, hwf1, hlen1⟩

/-- The result of `tp.readLine()` on a stream that starts with a line ended by `\r\n`
that fits in the buffer. -/
theorem tpReadLine_crlf (b : BufReader) (hb : b.WF) (l rest : List Byte)
    (hs : b.stream = l ++ [CR, LF] ++ rest) (hlf : LF ∉ l) (hfit : l.length + 2 ≤ b.buf.length) :
    ∃ b1, tpReadLine b = (.ok (some (if skipSpace l = 0 then [] else l)), b1) ∧
      b1.stream = rest ∧ b1.WF ∧ b1.buf.length = b.buf.length := by
  obtain ⟨b1, h1, hst1, hwf1, hlen1⟩ := b.readLine_crlf hb l rest hs hlf hfit
  refine ⟨b1, ?_, hst1, hwf1, hlen1⟩
  unfold tpReadLine tpReadLineSliceLoop
  rw [h1]
  simp only [and_self, if_true]
  split <;> rfl

theorem BufReader.readFull_ok_ex (b : BufReader) (p : List Byte) (hb : b.WF)
    (hrem : p.length ≤ b.stream.length) :
    ∃ b1, b.readFull p = (.ok (some (b.stream.take p.length)), b1) ∧ b1.WF ∧
      b1.stream = b.stream.drop p.length ∧ b1.buf.length = b.buf.length := by
  obtain ⟨b1, h1, hwf1, hst1, hlen1⟩ := BufReader.readFullLoop_ok
    (p.length + b.rd.sizes.length + 1) b p 0 hb (Nat.zero_le _) (by omega) (by simpa using hrem)
  refine ⟨b1, ?_, hwf1, by simpa using hst1, hlen1⟩
  unfold BufReader.readFull
  rw [h1]
  simp

theorem readTrailers_none (mime : BufReader → Except Err (Option Headers) × BufReader)
    (h : Headers) (r : BufReader) (hh : Headers.get h "trailer" = none) :
    readTrailers mime h r = (.ok h, r) := by
  unfold readTrailers
  rw [hh]
  rfl

theorem toString16_no_LF (n : Nat) : LF ∉ toString16 n := by
  intro h
  obtain ⟨d, hd, hc⟩ := toString16_chars n LF h
  have := hexChar_range d hd
  rw [← hc] at this
  simp only [LF] at this
  omega

theorem skipSpace_toString16 (n : Nat) : skipSpace (toString16 n) ≠ 0 := by
  unfold skipSpace
  have hall : (toString16 n).filter (fun c => c ≠ 32 ∧ c ≠ 9) = toString16 n := by
    rw [List.filter_eq_self]
    intro c hc
    obtain ⟨d, hd, hcd⟩ := toString16_chars n c hc
    have := hexChar_range d hd
    rw [← hcd] at this
    simp only [ne_eq, decide_eq_true_eq]
    omega
  rw [hall]
  intro h
  exact toString16_ne_nil n (List.length_eq_zero.mp h)

/-- The queue case of `read`: bytes of the chunk being delivered are copied out. -/
theorem ChunkedBodyReader.read_queue
    (mime : BufReader → Except Err (Option Headers) × BufReader) (c : ChunkedBodyReader)
    (pc : List Byte) (cs : List (List Byte)) (buf : List Byte) (hinv : CInv c pc cs)
    (hbuf : 0 < buf.length) (ch : Chunk) (hch : c.chunks = [ch])
    (hoff : ch.offset < ch.data.length) (hpc : pc = ch.data.drop ch.offset)
    (hst : c.r.stream = [CR, LF] ++ wire cs) :
    ∃ n buf1 c1 pc1, c.read mime buf = (.ok (some n, buf1), c1) ∧ 0 < n ∧ CInv c1 pc1 cs ∧
      buf1.take n ++ pc1 = pc ∧ (buf1.take n).length = n := by
  have hk : 0 < min (ch.data.length - ch.offset) buf.length := by omega
  have hsl : slice ch.data ch.offset (ch.offset + min (ch.data.length - ch.offset) buf.length)
      = pc.take (min (ch.data.length - ch.offset) buf.length) := by
    rw [hpc]
    unfold slice
    congr 1
    omega
  have hpl : pc.length = ch.data.length - ch.offset := by rw [hpc]; simp
  have htl : (pc.take (min (ch.data.length - ch.offset) buf.length)).length
      = min (ch.data.length - ch.offset) buf.length := by
    rw [List.length_take, hpl]; omega
  have htk : (writeAt buf 0 (pc.take (min (ch.data.length - ch.offset) buf.length))).take
      (min (ch.data.length - ch.offset) buf.length)
      = pc.take (min (ch.data.length - ch.offset) buf.length) := by
    rw [writeAt_zero]
    exact List.take_left' htl
  unfold ChunkedBodyReader.read
  rw [if_neg (by rw [hinv.not_finished]; simp), hch]
  simp only [hsl]
  by_cases hend : ch.offset + min (ch.data.length - ch.offset) buf.length = ch.data.length
  · rw [if_pos hend]
    obtain ⟨r1, h1, hst1, hwf1, hlen1⟩ := tpReadLine_crlf c.r hinv.wf [] (wire cs)
      (by rw [hst]; rfl) (by simp) (by have := hinv.size; simp; omega)
    unfold ChunkedBodyReader.consumeLine
    simp only [h1]
    refine ⟨_, _, _, [], rfl, hk, ?_, ?_, by rw [htk, htl]⟩
    · exact ⟨hinv.not_finished, hwf1, by rw [hlen1]; exact hinv.size, hinv.no_trailer,
        hinv.nonempty, hinv.small, Or.inl ⟨rfl, rfl, hst1⟩⟩
    · rw [htk, List.append_nil, List.take_of_length_le]
      rw [hpl]; omega
  · rw [if_neg hend]
    refine ⟨_, _, _, pc.drop (min (ch.data.length - ch.offset) buf.length), rfl, hk, ?_, ?_,
      by rw [htk, htl]⟩
    · refine ⟨hinv.not_finished, hinv.wf, hinv.size, hinv.no_trailer, hinv.nonempty, hinv.small,
        Or.inr ⟨_, rfl, ?_, ?_, hst⟩⟩
      · simp only; omega
      · simp only
        rw [hpc, List.drop_drop]
    · rw [htk, List.take_append_drop]

/-- The end of the body: `0\r\n\r\n` is read and `read` returns `null`. -/
theorem ChunkedBodyReader.read_end
    (mime : BufReader → Except Err (Option Headers) × BufReader) (c : ChunkedBodyReader)
    (buf : List Byte) (hinv : CInv c [] []) (hch : c.chunks = [])
    (hst : c.r.stream = wire []) :
    ∃ c1, c.read mime buf = (.ok (none, buf), c1) := by
  have hsz := hinv.size
  obtain ⟨r1, h1, hst1, hwf1, hlen1⟩ := tpReadLine_crlf c.r hinv.wf [48] [CR, LF]
    (by rw [hst]; rfl) (by simp [LF]) (by simp; omega)
  obtain ⟨r2, h2, hst2, hwf2, hlen2⟩ := r1.readLine_crlf hwf1 [] []
    (by rw [hst1]; rfl) (by simp) (by simp; omega)
  have hsk : skipSpace [48] ≠ 0 := by decide
  rw [if_neg hsk] at h1
  have hp : parseInt16 (splitSemicolon [48]) = some 0 := by decide
  unfold ChunkedBodyReader.read
  rw [if_neg (by rw [hinv.not_finished]; simp), hch]
  simp only [h1, hp, h2, readTrailers_none mime c.h r2 hinv.no_trailer]
  exact ⟨_, rfl⟩

/-- A chunk header is read and the first piece of the chunk is delivered. -/
theorem ChunkedBodyReader.read_chunk
    (mime : BufReader → Except Err (Option Headers) × BufReader) (c : ChunkedBodyReader)
    (buf x : List Byte) (cs : List (List Byte)) (hinv : CInv c [] (x :: cs))
    (hbuf : 0 < buf.length) (hch : c.chunks = []) (hst : c.r.stream = wire (x :: cs)) :
    ∃ n buf1 c1 pc1, c.read mime buf = (.ok (some n, buf1), c1) ∧ 0 < n ∧ CInv c1 pc1 cs ∧
      buf1.take n ++ pc1 = x ∧ (buf1.take n).length = n := by
  have hsz := hinv.size
  have hx0 : 0 < x.length := hinv.nonempty x (by simp)
  have hx1 : x.length < 2 ^ 53 := hinv.small x (by simp)
  have hne : ∀ y ∈ cs, 0 < y.length := fun y hy => hinv.nonempty y (by simp [hy])
  have hsm : ∀ y ∈ cs, y.length < 2 ^ 53 := fun y hy => hinv.small y (by simp [hy])
  have hw : wire (x :: cs)
      = toString16 x.length ++ [CR, LF] ++ (x ++ [CR, LF] ++ wire cs) := by
    show (if x.length ≤ 0 then wire cs
      else toString16 x.length ++ [13, 10] ++ x ++ [13, 10] ++ wire cs) = _
    rw [if_neg (by omega)]
    simp only [List.append_assoc, CR, LF]
  obtain ⟨r1, h1, hst1, hwf1, hlen1⟩ := tpReadLine_crlf c.r hinv.wf (toString16 x.length)
    (x ++ [CR, LF] ++ wire cs) (by rw [hst, hw]) (toString16_no_LF _)
    (by have := toString16_length x.length hx1; omega)
  rw [if_neg (skipSpace_toString16 _)] at h1
  have hp : parseInt16 (splitSemicolon (toString16 x.length)) = some (x.length : Int) := by
    rw [splitSemicolon_toString16, parseInt16_toString16]
  have hlt : ¬ ((x.length : Int) < 0) := by omega
  have hgt : (x.length : Int) > 0 := by omega
  unfold ChunkedBodyReader.read
  rw [if_neg (by rw [hinv.not_finished]; simp), hch]
  simp only [h1, hp, if_neg hlt, if_pos hgt, Int.toNat_ofNat]
  by_cases hbig : x.length > buf.length
  · rw [if_pos hbig]
    have hlen_st1 : r1.stream.length = x.length + 2 + (wire cs).length := by
      rw [hst1]; simp; omega
    obtain ⟨r2, h2, hwf2, hst2, hlen2⟩ := r1.readFull_ok_ex buf hwf1 (by omega)
    have hst2b : r2.stream = x.drop buf.length ++ [CR, LF] ++ wire cs := by
      rw [hst2, hst1, List.append_assoc, List.drop_append_of_le_length (by omega),
        List.append_assoc]
    have htk1 : r1.stream.take buf.length = x.take buf.length := by
      rw [hst1, List.append_assoc, List.take_append_of_le_length (by omega)]
    obtain ⟨r3, h3, hwf3, hst3, hlen3⟩ := r2.readFull_ok_ex
      (List.replicate (x.length - buf.length) 0) hwf2 (by rw [hst2b]; simp)
    have htk2 : r2.stream.take (List.replicate (x.length - buf.length) 0).length
        = x.drop buf.length := by
      rw [hst2b, List.append_assoc]
      apply List.take_left'
      simp
    have hst3b : r3.stream = [CR, LF] ++ wire cs := by
      rw [hst3, hst2b, List.append_assoc]
      apply List.drop_left'
      simp
    simp only [h2, h3, htk1, htk2, List.nil_append]
    have htl : (x.take buf.length).length = buf.length := by simp; omega
    refine ⟨_, _, _, x.drop buf.length, rfl, hbuf, ?_, ?_,
      by rw [List.length_take, htl]; simp⟩
    · refine ⟨hinv.not_finished, hwf3, by rw [hlen3, hlen2, hlen1]; exact hsz, hinv.no_trailer,
        hne, hsm, Or.inr ⟨_, rfl, ?_, rfl, hst3b⟩⟩
      show 0 < (x.drop buf.length).length
      rw [List.length_drop]
      omega
    · rw [List.take_take, min_self, List.take_append_drop]
  · rw [if_neg hbig]
    have hsl : (slice buf 0 x.length).length = x.length := by
      rw [slice_zero, List.length_take]; omega
    obtain ⟨r2, h2, hwf2, hst2, hlen2⟩ := r1.readFull_ok_ex (slice buf 0 x.length) hwf1
      (by rw [hsl, hst1]; simp)
    rw [hsl] at h2 hst2
    have htk1 : r1.stream.take x.length = x := by
      rw [hst1, List.append_assoc]
      exact List.take_left' rfl
    have hst2b : r2.stream = [CR, LF] ++ wire cs := by
      rw [hst2, hst1, List.append_assoc]
      exact List.drop_left' rfl
    obtain ⟨r3, h3, hst3, hwf3, hlen3⟩ := tpReadLine_crlf r2 hwf2 [] (wire cs)
      (by rw [hst2b]; rfl) (by simp) (by simp; omega)
    rw [htk1] at h2
    unfold ChunkedBodyReader.consumeLine
    simp only [h2, h3]
    refine ⟨_, _, _, [], rfl, hx0, ?_, ?_, ?_⟩
    · exact ⟨hinv.not_finished, hwf3, by rw [hlen3, hlen2, hlen1]; exact hsz, hinv.no_trailer,
        hne, hsm, Or.inl ⟨rfl, rfl, hst3⟩⟩
    · rw [writeAt_zero, List.append_nil]
      exact List.take_left' rfl
    · rw [writeAt_zero, List.take_left' rfl]

/-- One `read` of a `chunkedBodyReader` that is decoding `wire chunks`: it returns `null`
when nothing is left to deliver, and otherwise delivers a non-empty initial piece of
what is left. -/
theorem ChunkedBodyReader.read_step
    (mime : BufReader → Except Err (Option Headers) × BufReader) (c : ChunkedBodyReader)
    (pc : List Byte) (cs : List (List Byte)) (buf : List Byte) (hinv : CInv c pc cs)
    (hbuf : 0 < buf.length) :
    (pc ++ cs.flatten = [] ∧ ∃ c1, c.read mime buf = (.ok (none, buf), c1)) ∨
    (∃ n buf1 c1 pc1 cs1, c.read mime buf = (.ok (some n, buf1), c1) ∧ 0 < n ∧
      CInv c1 pc1 cs1 ∧ buf1.take n ++ (pc1 ++ cs1.flatten) = pc ++ cs.flatten ∧
      (buf1.take n).length = n) := by
  rcases hinv.queue with ⟨hch, hpc, hst⟩ | ⟨ch, hch, hoff, hpc, hst⟩
  · subst hpc
    cases cs with
    | nil =>
      left
      exact ⟨rfl, ChunkedBodyReader.read_end mime c buf hinv hch hst⟩
    | cons x cs =>
      right
      obtain ⟨n, buf1, c1, pc1, h1, hn, hinv1, hx, hl⟩ :=
        ChunkedBodyReader.read_chunk mime c buf x cs hinv hbuf hch hst
      refine ⟨n, buf1, c1, pc1, cs, h1, hn, hinv1, ?_, hl⟩
      rw [← List.append_assoc, hx]
      simp
  · right
    obtain ⟨n, buf1, c1, pc1, h1, hn, hinv1, hx, hl⟩ :=
      ChunkedBodyReader.read_queue mime c pc cs buf hinv hbuf ch hch hoff hpc hst
    refine ⟨n, buf1, c1, pc1, cs, h1, hn, hinv1, ?_, hl⟩
    rw [← List.append_assoc, hx]

/-- Reading until `null` delivers exactly what is left. -/
theorem ChunkedBodyReader.drain_spec
    (mime : BufReader → Except Err (Option Headers) × BufReader) (bufs : Nat → List Byte)
    (hbufs : ∀ i, 0 < (bufs i).length) (fuel i : Nat) (c : ChunkedBodyReader)
    (pc : List Byte) (cs : List (List Byte)) (hinv : CInv c pc cs)
    (hf : (pc ++ cs.flatten).length < fuel) :
    ChunkedBodyReader.drain mime bufs fuel i c = .ok (pc ++ cs.flatten) := by
  induction fuel generalizing i c pc cs with
  | zero => omega
  | succ fuel ih =>
    unfold ChunkedBodyReader.drain
    rcases ChunkedBodyReader.read_step mime c pc cs (bufs i) hinv (hbufs i) with
      ⟨hnil, c1, h1⟩ | ⟨n, buf1, c1, pc1, cs1, h1, hn, hinv1, hx, hl⟩
    · rw [h1, hnil]
    · rw [h1]
      simp only
      have hlen : (pc ++ cs.flatten).length = n + (pc1 ++ cs1.flatten).length := by
        rw [← hx, List.length_append, hl]
      rw [ih (i + 1) c1 pc1 cs1 hinv1 (by omega)]
      simp only [hx]

theorem wire_filter (chunks : List (List Byte)) :
    wire (chunks.filter (fun x => decide (0 < x.length))) = wire chunks := by
  induction chunks with
  | nil => rfl
  | cons x cs ih =>
    by_cases hx : 0 < x.length
    · rw [List.filter_cons_of_pos (by simpa using hx)]
      show (if x.length ≤ 0 then _ else _) = (if x.length ≤ 0 then _ else _)
      rw [if_neg (by omega), if_neg (by omega), ih]
    · rw [List.filter_cons_of_neg (by simpa using hx)]
      show _ = (if x.length ≤ 0 then _ else _)
      rw [if_pos (by omega), ih]

theorem flatten_filter (chunks : List (List Byte)) :
    (chunks.filter (fun x => decide (0 < x.length))).flatten = chunks.flatten := by
  induction chunks with
  | nil => rfl
  | cons x cs ih =>
    by_cases hx : 0 < x.length
    · rw [List.filter_cons_of_pos (by simpa using hx)]
      simp only [List.flatten_cons, ih]
    · rw [List.filter_cons_of_neg (by simpa using hx)]
      have : x = [] := List.length_eq_zero.mp (by omega)
      simp only [List.flatten_cons, ih, this, List.nil_append]

/-- The byte stream produced by `writeChunkedBody` over a writer that makes progress is
the chunked encoding of the chunks, after what the writer held before. -/
theorem chunkedOutput_eq (writer : Writer) (size : Int) (chunks : List (List Byte))
    (hw : writer.Good) :
    (writeChunkedBody (BufWriter.new writer size) chunks).1 = .ok () ∧
    ((writeChunkedBody (BufWriter.new writer size) chunks).2.flush).1 = .ok () ∧
    chunkedOutput writer size chunks = writer.out ++ wire chunks := by
  obtain ⟨w1, h1, hwf1, hout1⟩ := writeChunkedBody_good (BufWriter.new writer size) chunks
    (BufWriter.newWriter_wf writer size hw)
  obtain ⟨w2, h2, _, _, _, hout2, _⟩ := w1.flush_good hwf1
  unfold chunkedOutput
  rw [h1]
  simp only [h2, true_and]
  rw [hout2, hout1]
  simp [BufWriter.new, BufWriter.pending]

theorem BufReader.new_size (rd : Reader) (size : Int) : 16 ≤ (BufReader.new rd size).buf.length := by
  simp only [BufReader.new, List.length_replicate, MIN_BUF_SIZE]
  split <;> omega

/-- C1. Chunked decode undoes chunked encode: for every list of chunks (each shorter than
`2^53` bytes, as a `Uint8Array` is), take the byte stream that `writeChunkedBody` produces
for them through a `BufWriter` of any size over a writer that accepts at least one byte
per call; deliver it through a reader that returns at least one byte per read and a
`BufReader` of any size to `chunkedBodyReader` with headers that have no `trailer` field;
then reading with buffers of any positive sizes until `read` returns `null` succeeds and
delivers exactly the concatenation of the chunks, in order. -/
theorem chunked_roundtrip (chunks : List (List Byte)) (wsize rsize : Int) (wplan : List WAct)
    (rsizes : List Nat) (h : Headers)
    (mime : BufReader → Except Err (Option Headers) × BufReader) (bufs : Nat → List Byte)
    (fuel : Nat) (hw : (⟨[], wplan⟩ : Writer).Good) (hr : ∀ k ∈ rsizes, 0 < k)
    (hh : Headers.get h "trailer" = none) (hsmall : ∀ x ∈ chunks, x.length < 2 ^ 53)
    (hbufs : ∀ i, 0 < (bufs i).length) (hf : chunks.flatten.length < fuel) :
    (writeChunkedBody (BufWriter.new ⟨[], wplan⟩ wsize) chunks).1 = .ok () ∧
    ((writeChunkedBody (BufWriter.new ⟨[], wplan⟩ wsize) chunks).2.flush).1 = .ok () ∧
    ChunkedBodyReader.drain mime bufs fuel 0
      (chunkedBodyReader h (BufReader.new ⟨chunkedOutput ⟨[], wplan⟩ wsize chunks, rsizes⟩ rsize))
      = .ok chunks.flatten := by
  obtain ⟨h1, h2, h3⟩ := chunkedOutput_eq ⟨[], wplan⟩ wsize chunks hw
  refine ⟨h1, h2, ?_⟩
  rw [h3]
  simp only [List.nil_append]
  have hinv : CInv (chunkedBodyReader h (BufReader.new ⟨wire chunks, rsizes⟩ rsize)) []
      (chunks.filter (fun x => decide (0 < x.length))) := by
    refine ⟨rfl, BufReader.newReader_wf _ _ hr, BufReader.new_size _ _, hh, ?_, ?_,
      Or.inl ⟨rfl, rfl, ?_⟩⟩
    · intro x hx
      simpa using (List.mem_filter.mp hx).2
    · intro x hx
      exact hsmall x (List.mem_filter.mp hx).1
    · show (BufReader.new ⟨wire chunks, rsizes⟩ rsize).stream = _
      rw [BufReader.new_stream, wire_filter]
  have := ChunkedBodyReader.drain_spec mime bufs hbufs fuel 0 _ _ _ hinv
    (by rw [List.nil_append, flatten_filter]; exact hf)
  rw [this, List.nil_append, flatten_filter]

theorem chunked_roundtrip_witness :
    (writeChunkedBody (BufWriter.new ⟨[], [.accept 1]⟩ 4) [[1, 2, 3], [], [4, 5]]).1 = .ok () ∧
    ((writeChunkedBody (BufWriter.new ⟨[], [.accept 1]⟩ 4) [[1, 2, 3], [], [4, 5]]).2.flush).1
      = .ok () ∧
    ChunkedBodyReader.drain (fun b => (.ok none, b)) (fun _ => [0, 0]) 6 0
      (chunkedBodyReader []
        (BufReader.new ⟨chunkedOutput ⟨[], [.accept 1]⟩ 4 [[1, 2, 3], [], [4, 5]], [2]⟩ 16))
      = .ok [[1, 2, 3], [], [4, 5]].flatten :=
  chunked_roundtrip [[1, 2, 3], [], [4, 5]] 4 16 [.accept 1] [2] [] (fun b => (.ok none, b))
    (fun _ => [0, 0]) 6 (by intro a ha; simp at ha; subst ha; simp)
    (by intro k hk; simp at hk; subst hk; decide) rfl
    (by intro x hx; simp at hx; rcases hx with rfl | rfl | rfl <;> simp)
    (fun _ => by simp) (by decide)

/-- C5 (defect). A line that fits in the buffer is not always returned whole with
`more = false`: with a buffer of 16 bytes and an input that is one line of 16 bytes
without a line end, the first `readLine()` returns the 16 bytes with `more = true` and
the second returns `null`; when the 16th byte is `\r`, the line comes back in two
results, its first 15 bytes with `more = true` and then the `\r`. -/
theorem BufReader.readLine_final_line_fills_buffer :
    (BufReader.new ⟨List.replicate 16 97, []⟩ 16).readLine.1
      = .ok (some ⟨List.replicate 16 97, true⟩) ∧
    (BufReader.new ⟨List.replicate 16 97, []⟩ 16).readLine.2.readLine.1 = .ok none ∧
    (BufReader.new ⟨List.replicate 15 97 ++ [CR], []⟩ 16).readLine.1
      = .ok (some ⟨List.replicate 15 97, true⟩) ∧
    (BufReader.new ⟨List.replicate 15 97 ++ [CR], []⟩ 16).readLine.2.readLine.1
      = .ok (some ⟨[CR], false⟩) :=
  ⟨rfl, rfl, rfl, rfl⟩

/-- C6 (defect). `more` is not always false on the last fragment of a line: with a
buffer of 16 bytes and an input that is one line of 32 bytes without a line end, the
first two `readLine()` calls return the two halves, both with `more = true`, and the
third returns `null`; no fragment with `more = false` is ever returned. -/
theorem BufReader.readLine_last_fragment_more :
    (BufReader.new ⟨List.replicate 32 97, []⟩ 16).readLine.1
      = .ok (some ⟨List.replicate 16 97, true⟩) ∧
    (BufReader.new ⟨List.replicate 32 97, []⟩ 16).readLine.2.readLine.1
      = .ok (some ⟨List.replicate 16 97, true⟩) ∧
    (BufReader.new ⟨List.replicate 32 97, []⟩ 16).readLine.2.readLine.2.readLine.1
      = .ok none :=
  ⟨rfl, rfl, rfl⟩

/-! ## The HTTP version -/

theorem decDigitsRev_lt (fuel n : Nat) : ∀ d ∈ decDigitsRev fuel n, d < 10 := by
  induction fuel generalizing n with
  | zero => intro d hd; simp [decDigitsRev] at hd
  | succ fuel ih =>
    intro d hd
    unfold decDigitsRev at hd
    split at hd
    · simp at hd
    · rcases List.mem_cons.mp hd with h | h
      · omega
      · exact ih _ d h

theorem decDigitsRev_value (fuel n : Nat) (h : n ≤ fuel) :
    (decDigitsRev fuel n).foldr (fun d acc => d + 10 * acc) 0 = n := by
  induction fuel generalizing n with
  | zero =>
    have : n = 0 := by omega
    subst this
    rfl
  | succ fuel ih =>
    unfold decDigitsRev
    by_cases h0 : n = 0
    · rw [if_pos h0]; simp [h0]
    · rw [if_neg h0]
      simp only [List.foldr_cons]
      rw [ih (n / 10) (by omega)]
      omega

/-- Every character of a decimal numeral is a digit. -/
theorem decimal_digits (n : Nat) : ∀ c ∈ decimal n, 48 ≤ c ∧ c ≤ 57 := by
  intro c hc
  unfold decimal at hc
  split at hc
  · simp only [List.mem_singleton] at hc
    omega
  · simp only [List.mem_map, List.mem_reverse] at hc
    obtain ⟨d, hd, rfl⟩ := hc
    have := decDigitsRev_lt _ _ d hd
    omega

theorem decimal_ne_nil (n : Nat) : decimal n ≠ [] := by
  unfold decimal
  split
  · simp
  · rename_i h
    cases n with
    | zero => exact absurd rfl h
    | succ m =>
      intro hnil
      simp only [List.map_eq_nil_iff, List.reverse_eq_nil_iff] at hnil
      unfold decDigitsRev at hnil
      rw [if_neg (by omega)] at hnil
      simp at hnil

theorem digitsValue_map (ds : List Nat) (acc : Nat) :
    (ds.map (fun d => 48 + d)).foldl (fun acc c => acc * 10 + (c - 48)) acc
      = ds.foldl (fun a d => a * 10 + d) acc := by
  induction ds generalizing acc with
  | nil => rfl
  | cons d ds ih =>
    simp only [List.map_cons, List.foldl_cons]
    rw [ih]
    congr 1
    omega

/-- Reading a decimal numeral gives the number back. -/
theorem digitsValue_decimal (n : Nat) : digitsValue (decimal n) = n := by
  unfold decimal digitsValue
  by_cases h0 : n = 0
  · rw [if_pos h0, h0]
    rfl
  · rw [if_neg h0, digitsValue_map, List.foldl_reverse]
    have h := decDigitsRev_value n n (le_refl _)
    have e : (fun (x y : Nat) => y * 10 + x) = (fun d acc => d + 10 * acc) := by
      funext d acc
      omega
    rw [e]
    exact h

/-- The runtime's `Number` reads a decimal numeral below `2^53` as its number. -/
theorem jsNumber_decimal (other : List Nat → JSNumber) (n : Nat) (h : n < 2 ^ 53) :
    jsNumber other (decimal n) = .int (n : Int) := by
  unfold jsNumber
  rw [if_neg (decimal_ne_nil n), digitsValue_decimal]
  rw [if_pos]
  refine ⟨?_, h⟩
  rw [List.all_eq_true]
  intro c hc
  have := decimal_digits n c hc
  simp only [isDecDigit, Bool.and_eq_true, decide_eq_true_eq]
  exact this

/-- The `default:` arm reads `HTTP/a.b` as the pair `(a, b)`. -/
theorem parseHTTPVersionDefault_decimal (other : List Nat → JSNumber) (a b : Nat)
    (ha : a ≤ 1000000) (hb : b ≤ 1000000) :
    parseHTTPVersionDefault other (codeUnits "HTTP/" ++ decimal a ++ [46] ++ decimal b)
      = some ((a : Int), (b : Int)) := by
  have hcu : codeUnits "HTTP/" = [72, 84, 84, 80, 47] := rfl
  have hdot : (46 : Nat) ∉ decimal a := by
    intro h
    have := decimal_digits a 46 h
    omega
  have hslash : (47 : Nat) ∉ decimal a := by
    intro h
    have := decimal_digits a 47 h
    omega
  have hda : indexOf (decimal a) 46 = none := (indexOf_none_iff _ _).mpr hdot
  have hv : codeUnits "HTTP/" ++ decimal a ++ [46] ++ decimal b
      = [72, 84, 84, 80, 47] ++ (decimal a ++ ([46] ++ decimal b)) := by
    rw [hcu]
    simp only [List.append_assoc]
  have hidot : indexOf ([72, 84, 84, 80, 47] ++ (decimal a ++ ([46] ++ decimal b))) 46
      = some (5 + (decimal a).length) := by
    rw [indexOf_append]
    have h1 : indexOf [72, 84, 84, 80, 47] 46 = none := by decide
    rw [h1]
    simp only
    rw [indexOf_append, hda]
    simp only
    have h2 : indexOf ([46] ++ decimal b) 46 = some 0 := by simp [indexOf]
    rw [h2]
    simp only [Option.map_some', List.length_cons, List.length_nil, Option.some.injEq]
    omega
  have hislash : indexOf ([72, 84, 84, 80, 47] ++ (decimal a ++ ([46] ++ decimal b))) 47
      = some 4 := by
    rw [indexOf_append]
    have h1 : indexOf [72, 84, 84, 80, 47] 47 = some 4 := by decide
    rw [h1]
  unfold parseHTTPVersionDefault
  rw [hv]
  simp only
  rw [if_neg (by rw [hcu]; simp), hidot]
  simp only
  rw [hislash]
  have hmaj : substring ([72, 84, 84, 80, 47] ++ (decimal a ++ ([46] ++ decimal b)))
      (Option.elim (some 4) 0 (fun i => i + 1)) (5 + (decimal a).length) = decimal a := by
    simp only [Option.elim, substring, slice]
    rw [Nat.min_eq_left (by omega), Nat.max_eq_right (by omega)]
    simp
  have hmin : List.drop (5 + (decimal a).length + 1)
      ([72, 84, 84, 80, 47] ++ (decimal a ++ ([46] ++ decimal b))) = decimal b := by
    rw [show 5 + (decimal a).length + 1 = 5 + ((decimal a).length + 1) by omega]
    rw [show ([72, 84, 84, 80, 47] ++ (decimal a ++ ([46] ++ decimal b)) : List Nat)
      = [72, 84, 84, 80, 47] ++ ((decimal a ++ [46]) ++ decimal b) by simp]
    rw [← List.drop_drop]
    simp only [List.drop_append_eq_append_drop]
    simp
  rw [hmaj, hmin, jsNumber_decimal other a (by omega), jsNumber_decimal other b (by omega)]
  simp only
  rw [if_neg (by omega), if_neg (by omega)]

/-- Whatever `parseHTTPVersion` returns, both components are integers between 0 and
1000000. -/
theorem parseHTTPVersion_range (other : List Nat → JSNumber) (vers : List Nat) (major minor : Int)
    (h : parseHTTPVersion other vers = .ok (major, minor)) :
    0 ≤ major ∧ major ≤ 1000000 ∧ 0 ≤ minor ∧ minor ≤ 1000000 := by
  unfold parseHTTPVersion at h
  split at h
  · cases h; omega
  · split at h
    · cases h; omega
    · split at h
      · rename_i v hv
        cases h
        unfold parseHTTPVersionDefault at hv
        simp only at hv
        split at hv
        · cases hv
        · split at hv
          · cases hv
          · split at hv
            · split at hv
              · cases hv
              · split at hv
                · split at hv
                  · cases hv
                  · cases hv
                    omega
                · cases hv
            · cases hv
      · cases h

/-- Claim C11: for all naturals `a`, `b` up to 1000000, `parseHTTPVersion` applied to
the string `HTTP/` followed by the decimal numeral of `a`, a dot and the decimal numeral
of `b` returns the pair `[a, b]`; `HTTP/1.0` gives `[1, 0]` and `HTTP/1.1` gives `[1, 1]`.
This holds whatever the runtime's `Number` does on strings that are not digit strings. -/
theorem parseHTTPVersion_decimal (other : List Nat → JSNumber) (a b : Nat)
    (ha : a ≤ 1000000) (hb : b ≤ 1000000) :
    parseHTTPVersion other (codeUnits "HTTP/" ++ decimal a ++ [46] ++ decimal b)
        = .ok ((a : Int), (b : Int))
      ∧ parseHTTPVersion other (codeUnits "HTTP/1.0") = .ok (1, 0)
      ∧ parseHTTPVersion other (codeUnits "HTTP/1.1") = .ok (1, 1) := by
  refine ⟨?_, rfl, rfl⟩
  have hd := parseHTTPVersionDefault_decimal other a b ha hb
  unfold parseHTTPVersion
  by_cases h1 : codeUnits "HTTP/" ++ decimal a ++ [46] ++ decimal b = codeUnits "HTTP/1.1"
  · rw [if_pos h1]
    rw [h1] at hd
    have e : parseHTTPVersionDefault other (codeUnits "HTTP/1.1") = some (1, 1) := rfl
    rw [e] at hd
    rw [Option.some.inj hd]
  · rw [if_neg h1]
    by_cases h0 : codeUnits "HTTP/" ++ decimal a ++ [46] ++ decimal b = codeUnits "HTTP/1.0"
    · rw [if_pos h0]
      rw [h0] at hd
      have e : parseHTTPVersionDefault other (codeUnits "HTTP/1.0") = some (1, 0) := rfl
      rw [e] at hd
      rw [Option.some.inj hd]
    · rw [if_neg h0, hd]

theorem parseHTTPVersion_decimal_witness :
    parseHTTPVersion (fun _ => JSNumber.nan) (codeUnits "HTTP/2.0") = .ok (2, 0)
      ∧ parseHTTPVersion (fun _ => JSNumber.nan) (codeUnits "HTTP/1.0") = .ok (1, 0)
      ∧ parseHTTPVersion (fun _ => JSNumber.nan) (codeUnits "HTTP/1.1") = .ok (1, 1) :=
  parseHTTPVersion_decimal (fun _ => JSNumber.nan) 2 0 (by decide) (by decide)

/-- Claim C12: `parseHTTPVersion` is to throw for every string that is not `HTTP/`,
digits, a dot, digits.  On `HTTP/.`, where both digit strings are empty, the source returns
`[0, 0]` instead (`Number("")` is `0`), and likewise on `HTTP/.5` and `HTTP/7.`, whatever
`Number` does on other strings. -/
theorem parseHTTPVersion_empty_numbers (other : List Nat → JSNumber) :
    parseHTTPVersion other (codeUnits "HTTP/.") = .ok (0, 0)
      ∧ parseHTTPVersion other (codeUnits "HTTP/.5") = .ok (0, 5)
      ∧ parseHTTPVersion other (codeUnits "HTTP/7.") = .ok (7, 0) :=
  ⟨rfl, rfl, rfl⟩

/-! ## Trailers -/

theorem mem_eraseDups_loop (as bs : List String) (x : String) :
    x ∈ List.eraseDups.loop as bs ↔ x ∈ as ∨ x ∈ bs := by
  induction as generalizing bs with
  | nil => simp [List.eraseDups.loop]
  | cons a as ih =>
    unfold List.eraseDups.loop
    cases h : List.elem a bs with
    | true =>
      simp only
      rw [ih]
      have ha : a ∈ bs := by simpa using h
      constructor
      · rintro (h1 | h1)
        · exact Or.inl (List.mem_cons_of_mem _ h1)
        · exact Or.inr h1
      · rintro (h1 | h1)
        · rcases List.mem_cons.mp h1 with h2 | h2
          · exact Or.inr (h2 ▸ ha)
          · exact Or.inl h2
        · exact Or.inr h1
    | false =>
      simp only
      rw [ih]
      simp only [List.mem_cons]
      tauto

/-- The names kept by `eraseDups` are the names of the list. -/
theorem mem_eraseDups (l : List String) (x : String) : x ∈ l.eraseDups ↔ x ∈ l := by
  unfold List.eraseDups
  rw [mem_eraseDups_loop]
  simp

theorem splitAux_ne_nil (sep : Char) (cs cur : List Char) : splitAux sep cs cur ≠ [] := by
  induction cs generalizing cur with
  | nil => simp [splitAux]
  | cons c cs ih =>
    unfold splitAux
    split
    · simp
    · exact ih _

/-- A `split` has at least one piece. -/
theorem split_length_pos (s : String) (sep : Char) : 0 < (split s sep).length := by
  unfold split
  rw [List.length_map]
  exact List.length_pos.mpr (splitAux_ne_nil _ _ _)

theorem mem_keys (h : Headers) (k : String) : k ∈ Headers.keys h ↔ ∃ kv ∈ h, kv.1 = k := by
  unfold Headers.keys
  rw [mem_eraseDups]
  simp

theorem foldl_headers_append (es : List (String × String)) (headers : Headers) :
    es.foldl (fun hs kv => Headers.append hs kv.1 kv.2) headers
      = headers ++ es.map (fun kv => (toLowerCase kv.1, kv.2)) := by
  induction es generalizing headers with
  | nil => simp
  | cons e es ih =>
    simp only [List.foldl_cons, List.map_cons]
    rw [ih]
    simp [Headers.append]

theorem keys_declared (T : List String) (k : String) :
    k ∈ Headers.keys (T.map (fun key => (key, ""))) ↔ k ∈ T := by
  rw [mem_keys]
  constructor
  · rintro ⟨kv, hkv, rfl⟩
    obtain ⟨x, hx, rfl⟩ := List.mem_map.mp hkv
    exact hx
  · intro hk
    exact ⟨(k, ""), List.mem_map.mpr ⟨k, hk, rfl⟩, rfl⟩

theorem filter_length_pos_iff (l : List String) (p : String → Bool) :
    (l.filter p).length > 0 ↔ l.any p = true := by
  rw [List.any_eq_true]
  constructor
  · intro h
    obtain ⟨k, hk⟩ := List.exists_mem_of_length_pos h
    rw [List.mem_filter] at hk
    exact ⟨k, hk.1, hk.2⟩
  · rintro ⟨k, hk, hk2⟩
    exact List.length_pos.mpr (List.ne_nil_of_mem (List.mem_filter.mpr ⟨hk, hk2⟩))

/-- The outcome of `parseTrailer` on a field: its names, trimmed and in lower case, unless
one of them is prohibited (`InvalidData`) or is not a header name (`TypeError`). -/
theorem parseTrailer_some (field : String) :
    parseTrailer (some field)
      = if (declaredTrailers field).any isProhibidedForTrailer
        then .error (.invalidData "Prohibited trailer names")
        else if (declaredTrailers field).all isHeaderName
        then .ok (some ((declaredTrailers field).map (fun key => (key, ""))))
        else .error .typeError := by
  unfold parseTrailer declaredTrailers
  simp only
  have hlen : ((split field ',').map (fun v => toLowerCase (trim v))).length ≠ 0 := by
    rw [List.length_map]
    have := split_length_pos field ','
    omega
  rw [if_neg hlen]
  have hall : (((split field ',').map (fun v => toLowerCase (trim v))).map
      (fun key => (key, ""))).all (fun kv => isHeaderName kv.1)
      = ((split field ',').map (fun v => toLowerCase (trim v))).all isHeaderName := by
    generalize (split field ',').map (fun v => toLowerCase (trim v)) = T
    induction T with
    | nil => rfl
    | cons k T ih => simp only [List.map_cons, List.all_cons, ih]
  by_cases hp : ((split field ',').map (fun v => toLowerCase (trim v))).any isProhibidedForTrailer
      = true
  · rw [if_pos hp, if_pos]
    rw [List.any_eq_true] at hp
    obtain ⟨k, hk, hk2⟩ := hp
    have : k ∈ List.filter isProhibidedForTrailer
        ((split field ',').map (fun v => toLowerCase (trim v))) :=
      List.mem_filter.mpr ⟨hk, hk2⟩
    exact List.length_pos.mpr (List.ne_nil_of_mem this)
  · rw [if_neg hp, if_neg]
    · unfold newHeaders
      rw [hall]
      by_cases hv : ((split field ',').map (fun v => toLowerCase (trim v))).all isHeaderName
          = true
      · rw [if_pos hv, if_pos hv]
      · rw [if_neg hv, if_neg hv]
    · intro hpos
      apply hp
      obtain ⟨k, hk⟩ := List.exists_mem_of_length_pos hpos
      rw [List.mem_filter] at hk
      exact List.any_eq_true.mpr ⟨k, hk.1, hk.2⟩

/-- A call of `readTrailers` on headers with a `trailer` field, check by check. -/
theorem readTrailers_some (mime : BufReader → Except Err (Option Headers) × BufReader)
    (headers : Headers) (r : BufReader) (field : String)
    (hf : Headers.get headers "trailer" = some field) :
    readTrailers mime headers r
      = if (declaredTrailers field).any isProhibidedForTrailer
        then (.error (.invalidData "Prohibited trailer names"), r)
        else if (declaredTrailers field).all isHeaderName
        then
          match mime r with
          | (.error e, r1) => (.error e, r1)
          | (.ok none, r1) => (.error (.invalidData "Missing trailer header."), r1)
          | (.ok (some result), r1) =>
            if (Headers.keys result).any (fun k => !(declaredTrailers field).contains k)
            then (.error (.invalidData "Undeclared trailers"), r1)
            else if (declaredTrailers field).any (fun k => !Headers.has result k)
            then (.error (.invalidData "Missing trailers"), r1)
            else (.ok (Headers.delete
              (headers ++ (Headers.entries result).map (fun kv => (toLowerCase kv.1, kv.2)))
              "trailer"), r1)
        else (.error .typeError, r) := by
  unfold readTrailers
  rw [hf, parseTrailer_some]
  by_cases hp : (declaredTrailers field).any isProhibidedForTrailer = true
  · rw [if_pos hp, if_pos hp]
  · rw [if_neg hp, if_neg hp]
    by_cases hv : (declaredTrailers field).all isHeaderName = true
    · rw [if_pos hv, if_pos hv]
      simp only
      rcases hm : mime r with ⟨res, r1⟩
      cases res with
      | error e => rfl
      | ok v =>
        cases v with
        | none => rfl
        | some result =>
          simp only
          have hU : ((Headers.keys result).filter (fun k =>
                !(Headers.keys ((declaredTrailers field).map
                  (fun key => (key, "")))).contains k)).length > 0
              ↔ (Headers.keys result).any (fun k =>
                !(declaredTrailers field).contains k) = true := by
            rw [filter_length_pos_iff]
            simp only [List.any_eq_true, Bool.not_eq_true', List.contains_eq_any_beq,
              List.any_eq_false, beq_iff_eq, Bool.not_eq_eq_eq_not, Bool.not_true]
            constructor
            · rintro ⟨k, hk, hk2⟩
              refine ⟨k, hk, fun x hx hxk => ?_⟩
              exact hk2 x ((keys_declared _ x).mpr hx) hxk
            · rintro ⟨k, hk, hk2⟩
              refine ⟨k, hk, fun x hx hxk => ?_⟩
              exact hk2 x ((keys_declared _ x).mp hx) hxk
          have hM : ((Headers.keys ((declaredTrailers field).map
                  (fun key => (key, "")))).filter (fun k => !Headers.has result k)).length > 0
              ↔ (declaredTrailers field).any (fun k => !Headers.has result k) = true := by
            rw [filter_length_pos_iff]
            simp only [List.any_eq_true]
            constructor
            · rintro ⟨k, hk, hk2⟩
              exact ⟨k, (keys_declared _ k).mp hk, hk2⟩
            · rintro ⟨k, hk, hk2⟩
              exact ⟨k, (keys_declared _ k).mpr hk, hk2⟩
          by_cases hu : (Headers.keys result).any (fun k =>
                !(declaredTrailers field).contains k) = true
          · rw [if_pos (hU.mpr hu), if_pos hu]
          · rw [if_neg (fun h => hu (hU.mp h)), if_neg hu]
            by_cases hmiss : (declaredTrailers field).any (fun k => !Headers.has result k) = true
            · rw [if_pos (hM.mpr hmiss), if_pos hmiss]
            · rw [if_neg (fun h => hmiss (hM.mp h)), if_neg hmiss, foldl_headers_append]
    · rw [if_neg hv, if_neg hv]

/-- Claim C13 as stated fails when a declared name is prohibited: the headers declare the
trailer name `content-length`, the trailer block holds exactly that name, and
`readTrailers` throws `InvalidData` ("Prohibited trailer names") instead of appending.
It also fails when a declared name is not a header name: for the field `x-a,` the names
are `x-a` and the empty name, and `readTrailers` throws a `TypeError` whatever the block
holds. -/
theorem readTrailers_prohibited_declared :
    (Headers.get [("trailer", "content-length")] "trailer" = some "content-length"
      ∧ declaredTrailers "content-length" = ["content-length"]
      ∧ Headers.keys [("content-length", "5")] = ["content-length"]
      ∧ (readTrailers (fun r => (.ok (some [("content-length", "5")]), r))
          [("trailer", "content-length")] (BufReader.new ⟨[], []⟩ 16)).1
        = .error (.invalidData "Prohibited trailer names"))
      ∧ (Headers.get [("trailer", "x-a,")] "trailer" = some "x-a,"
        ∧ declaredTrailers "x-a," = ["x-a", ""]
        ∧ Headers.keys [("x-a", "1"), ("", "2")] = ["x-a", ""]
        ∧ (readTrailers (fun r => (.ok (some [("x-a", "1"), ("", "2")]), r))
            [("trailer", "x-a,")] (BufReader.new ⟨[], []⟩ 16)).1
          = .error .typeError) :=
  ⟨⟨rfl, rfl, rfl, rfl⟩, ⟨rfl, rfl, rfl, rfl⟩⟩

/-- Claim C13, amended: if the `trailer` field of `headers` declares the names `T`, each
of them a header name (a non-empty string of token characters) and none of them
`transfer-encoding`, `content-length` or `trailer`, and the trailer block read
from the reader holds exactly the names in `T` (every received name is declared, every
declared name is received), then `readTrailers` succeeds, every trailer value has been
appended to `headers` under its name, the fields of `headers` other than `trailer` are
kept and the `trailer` field is deleted; headers without a `trailer` field are returned
unchanged and nothing is read. -/
theorem readTrailers_appends (mime : BufReader → Except Err (Option Headers) × BufReader)
    (headers : Headers) (r : BufReader) (field : String) (result : Headers) (r1 : BufReader)
    (hf : Headers.get headers "trailer" = some field)
    (hv : ∀ k ∈ declaredTrailers field, isHeaderName k = true)
    (hp : ∀ k ∈ declaredTrailers field, isProhibidedForTrailer k = false)
    (hm : mime r = (.ok (some result), r1))
    (h1 : ∀ k ∈ Headers.keys result, k ∈ declaredTrailers field)
    (h2 : ∀ k ∈ declaredTrailers field, Headers.has result k = true) :
    (∃ final, readTrailers mime headers r = (.ok final, r1)
        ∧ (∀ kv ∈ Headers.entries result, (toLowerCase kv.1, kv.2) ∈ final)
        ∧ (∀ kv ∈ headers, kv.1 ≠ "trailer" → kv ∈ final)
        ∧ Headers.has final "trailer" = false
        ∧ Headers.get final "trailer" = none)
      ∧ ∀ (headers0 : Headers) (r0 : BufReader), Headers.get headers0 "trailer" = none →
          readTrailers mime headers0 r0 = (.ok headers0, r0) := by
  refine ⟨?_, fun headers0 r0 h0 => readTrailers_none mime headers0 r0 h0⟩
  have hlow : toLowerCase "trailer" = "trailer" := by decide
  refine ⟨Headers.delete
    (headers ++ (Headers.entries result).map (fun kv => (toLowerCase kv.1, kv.2))) "trailer",
    ?_, ?_, ?_, ?_, ?_⟩
  · have hnp : ¬ ((declaredTrailers field).any isProhibidedForTrailer = true) := by
      simp only [List.any_eq_true, not_exists, not_and, Bool.not_eq_true]
      exact hp
    have hval : (declaredTrailers field).all isHeaderName = true :=
      List.all_eq_true.mpr hv
    rw [readTrailers_some mime headers r field hf, if_neg hnp, if_pos hval, hm]
    simp only
    rw [if_neg, if_neg]
    · simp only [List.any_eq_true, Bool.not_eq_true', not_exists, not_and,
        Bool.not_eq_false]
      exact h2
    · simp only [List.any_eq_true, Bool.not_eq_true', not_exists, not_and,
        Bool.not_eq_false]
      intro k hk
      exact List.elem_eq_true_of_mem (h1 k hk)
  · intro kv hkv
    unfold Headers.delete
    rw [List.mem_filter]
    refine ⟨List.mem_append_right _ (List.mem_map.mpr ⟨kv, hkv, rfl⟩), ?_⟩
    have hk : kv.1 ∈ Headers.keys result := by
      unfold Headers.entries at hkv
      obtain ⟨k, hk, rfl⟩ := List.mem_map.mp hkv
      exact hk
    have := hp kv.1 (h1 kv.1 hk)
    unfold isProhibidedForTrailer at this
    rw [hlow]
    simp only [decide_eq_true_eq, ne_eq]
    intro heq
    rw [heq] at this
    simp at this
  · intro kv hkv hne
    unfold Headers.delete
    rw [List.mem_filter]
    refine ⟨List.mem_append_left _ hkv, ?_⟩
    rw [hlow]
    simpa using hne
  · unfold Headers.has Headers.delete
    simp
  · unfold Headers.get Headers.delete
    rw [List.filter_filter]
    have : List.filter (fun a => decide (a.1 = toLowerCase "trailer")
        && decide (a.1 ≠ toLowerCase "trailer"))
        (headers ++ List.map (fun kv => (toLowerCase kv.1, kv.2)) (Headers.entries result))
        = [] := by
      rw [List.filter_eq_nil_iff]
      intro a _
      simp
    rw [this]
    rfl

theorem readTrailers_appends_witness :
    (∃ final, readTrailers (fun b => (.ok (some [("x-a", "1"), ("x-b", "2")]), b))
          [("trailer", "x-a,\u00a0X-B"), ("host", "h")] (BufReader.new ⟨[], []⟩ 16)
          = (.ok final, BufReader.new ⟨[], []⟩ 16)
        ∧ (∀ kv ∈ Headers.entries [("x-a", "1"), ("x-b", "2")],
            (toLowerCase kv.1, kv.2) ∈ final)
        ∧ (∀ kv ∈ ([("trailer", "x-a,\u00a0X-B"), ("host", "h")] : Headers),
            kv.1 ≠ "trailer" → kv ∈ final)
        ∧ Headers.has final "trailer" = false
        ∧ Headers.get final "trailer" = none)
      ∧ ∀ (headers0 : Headers) (r0 : BufReader), Headers.get headers0 "trailer" = none →
          readTrailers (fun b => (.ok (some [("x-a", "1"), ("x-b", "2")]), b)) headers0 r0
            = (.ok headers0, r0) :=
  readTrailers_appends (fun b => (.ok (some [("x-a", "1"), ("x-b", "2")]), b))
    [("trailer", "x-a,\u00a0X-B"), ("host", "h")] (BufReader.new ⟨[], []⟩ 16) "x-a,\u00a0X-B"
    [("x-a", "1"), ("x-b", "2")] (BufReader.new ⟨[], []⟩ 16) rfl (by decide) (by decide) rfl
    (by decide) (by decide)

/-- Claim C14 as stated fails when a declared name is not a header name: for the field
`x-a,` (the names `x-a` and the empty name) and for an empty field, with no trailer block
to read, `readTrailers` throws a `TypeError` and not `InvalidData`
("Missing trailer header."), and it does so before anything is read. -/
theorem readTrailers_invalid_name :
    Headers.get [("trailer", "x-a,")] "trailer" = some "x-a,"
      ∧ readTrailers (fun b => (.ok none, b)) [("trailer", "x-a,")]
          (BufReader.new ⟨[], []⟩ 16) = (.error .typeError, BufReader.new ⟨[], []⟩ 16)
      ∧ Headers.get [("trailer", "")] "trailer" = some ""
      ∧ readTrailers (fun b => (.ok none, b)) [("trailer", "")]
          (BufReader.new ⟨[], []⟩ 16) = (.error .typeError, BufReader.new ⟨[], []⟩ 16)
      ∧ readTrailers (fun b => (.error .unexpectedEof, { b with eof := true }))
          [("trailer", "x-a,")] (BufReader.new ⟨[], []⟩ 16)
        = (.error .typeError, BufReader.new ⟨[], []⟩ 16) :=
  ⟨rfl, rfl, rfl, rfl, rfl⟩

/-- Claim C14, amended: when `headers` has a `trailer` field whose declared names are all
header names (non-empty strings of token characters), `readTrailers` throws `InvalidData`
if no trailer block can be read ("Missing trailer header."), if the block holds a name
that was not declared ("Undeclared trailers") and if a declared name is absent from the
block ("Missing trailers"); the checks run in this order, after the check of the declared
names themselves ("Prohibited trailer names"), and the first that fails gives the message.
It succeeds only when every received name is declared and every declared name is
received. -/
theorem readTrailers_invalid (mime : BufReader → Except Err (Option Headers) × BufReader)
    (headers : Headers) (r : BufReader) (field : String)
    (hf : Headers.get headers "trailer" = some field)
    (hv : ∀ k ∈ declaredTrailers field, isHeaderName k = true) :
    (∀ r1, mime r = (.ok none, r1) →
        (readTrailers mime headers r).1 = .error (.invalidData
          (if (declaredTrailers field).any isProhibidedForTrailer
            then "Prohibited trailer names" else "Missing trailer header.")))
      ∧ (∀ result r1, mime r = (.ok (some result), r1) →
          (∃ k ∈ Headers.keys result, k ∉ declaredTrailers field) →
          (readTrailers mime headers r).1 = .error (.invalidData
            (if (declaredTrailers field).any isProhibidedForTrailer
              then "Prohibited trailer names" else "Undeclared trailers")))
      ∧ (∀ result r1, mime r = (.ok (some result), r1) →
          (∃ k ∈ declaredTrailers field, Headers.has result k = false) →
          (readTrailers mime headers r).1 = .error (.invalidData
            (if (declaredTrailers field).any isProhibidedForTrailer
              then "Prohibited trailer names"
              else if (Headers.keys result).any (fun k => !(declaredTrailers field).contains k)
              then "Undeclared trailers" else "Missing trailers")))
      ∧ (∀ final, (readTrailers mime headers r).1 = .ok final →
          ∃ result r1, mime r = (.ok (some result), r1)
            ∧ (∀ k ∈ Headers.keys result, k ∈ declaredTrailers field)
            ∧ (∀ k ∈ declaredTrailers field, Headers.has result k = true)) := by
  have hval : (declaredTrailers field).all isHeaderName = true :=
    List.all_eq_true.mpr hv
  rw [readTrailers_some mime headers r field hf]
  refine ⟨?_, ?_, ?_, ?_⟩
  · intro r1 hm
    by_cases hp : (declaredTrailers field).any isProhibidedForTrailer = true
    · rw [if_pos hp, if_pos hp]
    · rw [if_neg hp, if_neg hp, if_pos hval, hm]
  · intro result r1 hm hu
    by_cases hp : (declaredTrailers field).any isProhibidedForTrailer = true
    · rw [if_pos hp, if_pos hp]
    · rw [if_neg hp, if_neg hp, if_pos hval, hm]
      simp only
      rw [if_pos]
      obtain ⟨k, hk, hk2⟩ := hu
      rw [List.any_eq_true]
      refine ⟨k, hk, ?_⟩
      simpa using hk2
  · intro result r1 hm hmiss
    by_cases hp : (declaredTrailers field).any isProhibidedForTrailer = true
    · rw [if_pos hp, if_pos hp]
    · rw [if_neg hp, if_neg hp, if_pos hval, hm]
      simp only
      by_cases hu : (Headers.keys result).any
          (fun k => !(declaredTrailers field).contains k) = true
      · rw [if_pos hu, if_pos hu]
      · rw [if_neg hu, if_neg hu, if_pos]
        obtain ⟨k, hk, hk2⟩ := hmiss
        rw [List.any_eq_true]
        exact ⟨k, hk, by simpa using hk2⟩
  · intro final hfin
    by_cases hp : (declaredTrailers field).any isProhibidedForTrailer = true
    · rw [if_pos hp] at hfin
      cases hfin
    · rw [if_neg hp, if_pos hval] at hfin
      rcases hm : mime r with ⟨res, r1⟩
      rw [hm] at hfin
      cases res with
      | error e => cases hfin
      | ok v =>
        cases v with
        | none => cases hfin
        | some result =>
          simp only at hfin
          refine ⟨result, r1, rfl, ?_, ?_⟩
          · by_cases hu : (Headers.keys result).any
                (fun k => !(declaredTrailers field).contains k) = true
            · rw [if_pos hu] at hfin
              cases hfin
            · intro k hk
              by_contra hnot
              apply hu
              rw [List.any_eq_true]
              exact ⟨k, hk, by simpa using hnot⟩
          · by_cases hu : (Headers.keys result).any
                (fun k => !(declaredTrailers field).contains k) = true
            · rw [if_pos hu] at hfin
              cases hfin
            · rw [if_neg hu] at hfin
              by_cases hmiss : (declaredTrailers field).any
                  (fun k => !Headers.has result k) = true
              · rw [if_pos hmiss] at hfin
                cases hfin
              · intro k hk
                by_contra hnot
                apply hmiss
                rw [List.any_eq_true]
                exact ⟨k, hk, by simpa using hnot⟩

theorem readTrailers_invalid_witness :
    (readTrailers (fun b => (.ok none, b)) [("trailer", "x-a")]
        (BufReader.new ⟨[], []⟩ 16)).1 = .error (.invalidData "Missing trailer header.")
      ∧ (readTrailers (fun b => (.ok (some [("x-b", "1")]), b)) [("trailer", "x-a")]
        (BufReader.new ⟨[], []⟩ 16)).1 = .error (.invalidData "Undeclared trailers")
      ∧ (readTrailers (fun b => (.ok (some [("x-a", "1")]), b)) [("trailer", "x-a, x-c")]
        (BufReader.new ⟨[], []⟩ 16)).1 = .error (.invalidData "Missing trailers") :=
  ⟨(readTrailers_invalid (fun b => (.ok none, b)) [("trailer", "x-a")]
      (BufReader.new ⟨[], []⟩ 16) "x-a" rfl (by decide)).1 _ rfl,
   (readTrailers_invalid (fun b => (.ok (some [("x-b", "1")]), b)) [("trailer", "x-a")]
      (BufReader.new ⟨[], []⟩ 16) "x-a" rfl (by decide)).2.1 _ _ rfl ⟨"x-b", by decide, by decide⟩,
   (readTrailers_invalid (fun b => (.ok (some [("x-a", "1")]), b)) [("trailer", "x-a, x-c")]
      (BufReader.new ⟨[], []⟩ 16) "x-a, x-c" rfl (by decide)).2.2.1 _ _ rfl ⟨"x-c", by decide, by decide⟩⟩

/-! ## The request line and `Content-Length` -/

theorem filter_set (h : Headers) (name value : String) :
    ((Headers.set h name value).filter (fun kv => kv.1 = toLowerCase name)).map (fun kv => kv.2)
      = [value] := by
  induction h with
  | nil => simp [Headers.set]
  | cons kv rest ih =>
    unfold Headers.set
    by_cases hk : kv.1 = toLowerCase name
    · rw [if_pos hk, List.filter_cons_of_pos (by simpa using hk), List.filter_filter]
      have : List.filter (fun a => decide (a.1 = toLowerCase name)
          && decide (a.1 ≠ toLowerCase name)) rest = [] := by
        rw [List.filter_eq_nil_iff]
        intro a _
        simp
      rw [this]
      rfl
    · rw [if_neg hk, List.filter_cons_of_neg (by simpa using hk)]
      exact ih

/-- After `headers.set(name, value)` the field reads `value`. -/
theorem get_set (h : Headers) (name value : String) :
    Headers.get (Headers.set h name value) name = some value := by
  unfold Headers.get
  rw [filter_set]
  rfl

/-- Setting a field leaves the presence of fields of every other name as it was. -/
theorem has_set_other (h : Headers) (name value t : String) (ht : toLowerCase t ≠ toLowerCase name) :
    Headers.has (Headers.set h name value) t = Headers.has h t := by
  unfold Headers.has
  induction h with
  | nil =>
    simp only [Headers.set, List.any_cons, List.any_nil, Bool.or_false, decide_eq_false_iff_not]
    exact fun h => ht h.symm
  | cons kv rest ih =>
    unfold Headers.set
    by_cases hk : kv.1 = toLowerCase name
    · rw [if_pos hk]
      simp only [List.any_cons]
      congr 1
      rw [Bool.eq_iff_iff]
      simp only [List.any_eq_true, List.mem_filter, decide_eq_true_eq]
      constructor
      · rintro ⟨x, ⟨hx, _⟩, hx2⟩
        exact ⟨x, hx, hx2⟩
      · rintro ⟨x, hx, hx2⟩
        refine ⟨x, ⟨hx, ?_⟩, hx2⟩
        simp only [ne_eq, decide_not, Bool.not_eq_true', decide_eq_false_iff_not]
        intro h
        exact ht (hx2.symm.trans h)
    · rw [if_neg hk]
      simp only [List.any_cons]
      rw [ih]

theorem eraseDups_loop_same (as : List String) (v : String) (h : ∀ x ∈ as, x = v) :
    List.eraseDups.loop as [v] = [v] := by
  induction as with
  | nil => rfl
  | cons a as ih =>
    unfold List.eraseDups.loop
    have ha : a = v := h a (by simp)
    subst ha
    have : List.elem a [a] = true := by simp
    rw [this]
    exact ih (fun x hx => h x (by simp [hx]))

/-- A non-empty list of equal strings has one distinct element. -/
theorem eraseDups_same (l : List String) (v : String) (hl : l ≠ []) (h : ∀ x ∈ l, x = v) :
    l.eraseDups = [v] := by
  cases l with
  | nil => exact absurd rfl hl
  | cons a as =>
    unfold List.eraseDups List.eraseDups.loop
    have ha : a = v := h a (by simp)
    subst ha
    have : List.elem a [] = false := by simp
    rw [this]
    exact eraseDups_loop_same as a (fun x hx => h x (by simp [hx]))

/-- A list with two different members has more than one distinct element. -/
theorem eraseDups_distinct (l : List String) (x y : String) (hx : x ∈ l) (hy : y ∈ l)
    (hxy : x ≠ y) : 1 < l.eraseDups.length := by
  have hx1 := (mem_eraseDups l x).mpr hx
  have hy1 := (mem_eraseDups l y).mpr hy
  generalize l.eraseDups = d at hx1 hy1
  match d, hx1, hy1 with
  | [], hx1, _ => simp at hx1
  | [a], hx1, hy1 =>
    simp only [List.mem_singleton] at hx1 hy1
    exact absurd (hx1.trans hy1.symm) hxy
  | _ :: _ :: _, _, _ => simp

theorem truthy_some (v : String) (hv : v ≠ "") : truthy (some v) = true := by
  simp [truthy, hv]

/-- The last step of `readRequest`: once the request line and the headers are read and
the version is parsed, `fixLength` decides the outcome. -/
theorem readRequest_fixLength (mime : BufReader → Except Err (Option Headers) × BufReader)
    (other : List Nat → JSNumber) (bufr b1 b2 : BufReader) (firstLine proto : List Nat)
    (headers : Headers) (major minor : Int) (req : ServerRequest)
    (hl : tpReadLine bufr = (.ok (some firstLine), b1))
    (hh : mime b1 = (.ok (some headers), b2))
    (hp : (splitUnits firstLine 32 3)[2]? = some proto)
    (hv : parseHTTPVersion other proto = .ok (major, minor))
    (hreq : req = { method := (splitUnits firstLine 32 3)[0]?,
                    url := (splitUnits firstLine 32 3)[1]?, proto := some proto,
                    protoMajor := major, protoMinor := minor, headers := headers }) :
    readRequest mime other bufr
      = match fixLength req with
        | (.error e, _) => (.error e, b2)
        | (.ok _, req1) => (.ok (some req1), b2) := by
  subst hreq
  unfold readRequest
  rw [hl]
  simp only
  rw [hh]
  simp only
  rw [hp]
  simp only [hv]

/-- A `Content-Length` of one element: `fixLength` leaves the request as it is. -/
theorem fixLength_single (req : ServerRequest) (cl : String)
    (hcl : Headers.get req.headers "Content-Length" = some cl)
    (h1 : (split cl ',').length = 1) : (fixLength req).2 = req := by
  unfold fixLength
  simp only
  rw [hcl]
  by_cases hne : cl = ""
  · subst hne
    rfl
  · rw [truthy_some cl hne, if_pos rfl]
    simp only [Option.getD_some]
    rw [if_neg (by omega)]
    simp only
    split
    · rfl
    · split
      · rfl
      · rfl

/-- A `Content-Length` list of different values: `fixLength` throws. -/
theorem fixLength_distinct (req : ServerRequest) (cl : String)
    (hcl : Headers.get req.headers "Content-Length" = some cl)
    (h1 : 1 < (split cl ',').length)
    (hd : ∃ x ∈ split cl ',', ∃ y ∈ split cl ',', trim x ≠ trim y) :
    fixLength req
      = (.error (.error "cannot contain multiple Content-Length headers"), req) := by
  have hne : cl ≠ "" := by
    intro h
    subst h
    exact absurd h1 (by decide)
  obtain ⟨x, hx, y, hy, hxy⟩ := hd
  have hlen := eraseDups_distinct ((split cl ',').map trim) (trim x) (trim y)
    (List.mem_map.mpr ⟨x, hx, rfl⟩) (List.mem_map.mpr ⟨y, hy, rfl⟩) hxy
  unfold fixLength
  simp only
  rw [hcl, truthy_some cl hne, if_pos rfl]
  simp only [Option.getD_some]
  rw [if_pos h1, if_pos hlen]

/-- A `Content-Length` list of equal values `v`: `fixLength` goes on with the header set
to `v`. -/
theorem fixLength_same (req : ServerRequest) (cl v : String)
    (hcl : Headers.get req.headers "Content-Length" = some cl)
    (h1 : 1 < (split cl ',').length)
    (hs : ∀ x ∈ split cl ',', trim x = v) :
    fixLength req
      = (if req.method = some (codeUnits "HEAD") ∧ v ≠ "" ∧ v ≠ "0" then
          (.error (.error "http: method cannot contain a Content-Length"),
            { req with headers := Headers.set req.headers "Content-Length" v })
        else if v ≠ "" ∧ Headers.has req.headers "transfer-encoding" = true then
          (.error (.error "http: Transfer-Encoding and Content-Length cannot be send together"),
            { req with headers := Headers.set req.headers "Content-Length" v })
        else (.ok (), { req with headers := Headers.set req.headers "Content-Length" v })) := by
  have hne : cl ≠ "" := by
    intro h
    subst h
    exact absurd h1 (by decide)
  have hd : ((split cl ',').map trim).eraseDups = [v] := by
    apply eraseDups_same
    · intro h
      rw [List.map_eq_nil_iff] at h
      rw [h] at h1
      exact absurd h1 (by decide)
    · intro x hx
      obtain ⟨y, hy, rfl⟩ := List.mem_map.mp hx
      exact hs y hy
  unfold fixLength
  simp only
  rw [hcl, truthy_some cl hne, if_pos rfl]
  simp only [Option.getD_some]
  rw [if_pos h1, hd, if_neg (by simp)]
  simp only [List.headD_cons]
  rw [get_set, has_set_other _ _ _ _ (by decide)]
  have ht : truthy (some v) = true ↔ v ≠ "" := by simp [truthy]
  have h0 : some v ≠ some "0" ↔ v ≠ "0" := by simp
  simp only [ht, h0]
/-- A `Content-Length` of one non-empty element: the two checks of `fixLength` on it. -/
theorem fixLength_single_eq (req : ServerRequest) (cl : String)
    (hcl : Headers.get req.headers "Content-Length" = some cl) (hne : cl ≠ "")
    (h1 : (split cl ',').length = 1) :
    fixLength req
      = (if req.method = some (codeUnits "HEAD") ∧ cl ≠ "0" then
          (.error (.error "http: method cannot contain a Content-Length"), req)
        else if Headers.has req.headers "transfer-encoding" = true then
          (.error (.error "http: Transfer-Encoding and Content-Length cannot be send together"),
            req)
        else (.ok (), req)) := by
  unfold fixLength
  simp only
  rw [hcl, truthy_some cl hne, if_pos rfl]
  simp only [Option.getD_some]
  rw [if_neg (by omega)]
  simp only
  rw [hcl]
  have ht : truthy (some cl) = true ↔ True := by simp [truthy, hne]
  have h0 : some cl ≠ some "0" ↔ cl ≠ "0" := by simp
  simp only [ht, h0, true_and]

/-- When `readRequest` returns a request, it is the one `fixLength` left. -/
theorem readRequest_ok (mime : BufReader → Except Err (Option Headers) × BufReader)
    (other : List Nat → JSNumber) (bufr b1 b2 : BufReader) (firstLine proto : List Nat)
    (headers : Headers) (major minor : Int) (req : ServerRequest)
    (hl : tpReadLine bufr = (.ok (some firstLine), b1))
    (hh : mime b1 = (.ok (some headers), b2))
    (hp : (splitUnits firstLine 32 3)[2]? = some proto)
    (hv : parseHTTPVersion other proto = .ok (major, minor))
    (hreq : req = { method := (splitUnits firstLine 32 3)[0]?,
                    url := (splitUnits firstLine 32 3)[1]?, proto := some proto,
                    protoMajor := major, protoMinor := minor, headers := headers })
    (req1 : ServerRequest) (hr : (readRequest mime other bufr).1 = .ok (some req1)) :
    (fixLength req).2 = req1 := by
  rw [readRequest_fixLength mime other bufr b1 b2 firstLine proto headers major minor req
    hl hh hp hv hreq] at hr
  rcases hfx : fixLength req with ⟨res, rq⟩
  rw [hfx] at hr
  cases res with
  | error e => cases hr
  | ok u =>
    simp only [Except.ok.injEq, Option.some.injEq] at hr
    exact hr

/-- When `fixLength` throws, `readRequest` throws the same error. -/
theorem readRequest_error (mime : BufReader → Except Err (Option Headers) × BufReader)
    (other : List Nat → JSNumber) (bufr b1 b2 : BufReader) (firstLine proto : List Nat)
    (headers : Headers) (major minor : Int) (req : ServerRequest)
    (hl : tpReadLine bufr = (.ok (some firstLine), b1))
    (hh : mime b1 = (.ok (some headers), b2))
    (hp : (splitUnits firstLine 32 3)[2]? = some proto)
    (hv : parseHTTPVersion other proto = .ok (major, minor))
    (hreq : req = { method := (splitUnits firstLine 32 3)[0]?,
                    url := (splitUnits firstLine 32 3)[1]?, proto := some proto,
                    protoMajor := major, protoMinor := minor, headers := headers })
    (e : Err) (hr : (fixLength req).1 = .error e) :
    (readRequest mime other bufr).1 = .error e := by
  rw [readRequest_fixLength mime other bufr b1 b2 firstLine proto headers major minor req
    hl hh hp hv hreq]
  rcases hfx : fixLength req with ⟨res, rq⟩
  rw [hfx] at hr
  cases res with
  | error e1 =>
    simp only [Except.error.injEq] at hr
    rw [hr]
  | ok u => cases hr

/-- Once the request line and the headers are read, `readRequest` throws whenever
`fixLength` throws on every request with these headers, whatever the request line is. -/
theorem readRequest_fails (mime : BufReader → Except Err (Option Headers) × BufReader)
    (other : List Nat → JSNumber) (bufr b1 b2 : BufReader) (firstLine : List Nat)
    (headers : Headers)
    (hl : tpReadLine bufr = (.ok (some firstLine), b1))
    (hh : mime b1 = (.ok (some headers), b2))
    (hfix : ∀ req : ServerRequest, req.headers = headers → ∃ e, (fixLength req).1 = .error e) :
    ∃ e, (readRequest mime other bufr).1 = .error e := by
  cases hp : (splitUnits firstLine 32 3)[2]? with
  | none =>
    unfold readRequest
    rw [hl]
    simp only
    rw [hh]
    simp only
    rw [hp]
    exact ⟨_, rfl⟩
  | some proto =>
    cases hv : parseHTTPVersion other proto with
    | error e =>
      unfold readRequest
      rw [hl]
      simp only
      rw [hh]
      simp only
      rw [hp]
      simp only
      rw [hv]
      exact ⟨_, rfl⟩
    | ok v =>
      obtain ⟨major, minor⟩ := v
      obtain ⟨e, he⟩ := hfix ⟨(splitUnits firstLine 32 3)[0]?, (splitUnits firstLine 32 3)[1]?,
        some proto, major, minor, headers⟩ rfl
      exact ⟨e, readRequest_error mime other bufr b1 b2 firstLine proto headers major minor _
        hl hh hp hv rfl e he⟩

/-- What `fixLength` does on headers with a `Transfer-Encoding` field and a
`Content-Length` that reconciles to the non-empty value `c`. -/
theorem fixLength_transferEncoding (req : ServerRequest) (cl c : String)
    (hcl : Headers.get req.headers "Content-Length" = some cl)
    (hrec : ((split cl ',').length = 1 ∧ c = cl)
      ∨ (1 < (split cl ',').length ∧ ∀ x ∈ split cl ',', trim x = c))
    (hc : c ≠ "")
    (hte : Headers.has req.headers "transfer-encoding" = true) :
    (fixLength req).1 = .error (.error
      (if req.method = some (codeUnits "HEAD") ∧ c ≠ "0"
        then "http: method cannot contain a Content-Length"
        else "http: Transfer-Encoding and Content-Length cannot be send together")) := by
  rcases hrec with ⟨h1, rfl⟩ | ⟨h1, hs⟩
  · rw [fixLength_single_eq req c hcl hc h1]
    by_cases hh : req.method = some (codeUnits "HEAD") ∧ c ≠ "0"
    · rw [if_pos hh, if_pos hh]
    · rw [if_neg hh, if_neg hh, if_pos hte]
  · rw [fixLength_same req cl c hcl h1 hs]
    by_cases hh : req.method = some (codeUnits "HEAD") ∧ c ≠ "0"
    · rw [if_pos ⟨hh.1, hc, hh.2⟩, if_pos hh]
    · rw [if_neg (fun h => hh ⟨h.1, h.2.2⟩), if_neg hh, if_pos ⟨hc, hte⟩]
/-- Claim C15 as stated fails on a `Content-Length` whose elements are all empty: for the
request `GET / HTTP/1.1` with `Content-Length: ,` and `Transfer-Encoding: chunked`, the
header is non-empty, `fixLength` reconciles it to the empty string and `readRequest`
returns the request.  On a `HEAD` request with `Content-Length: 5` and
`Transfer-Encoding: chunked` it fails with the message of the check before. -/
theorem readRequest_contentLength_commas :
    (Headers.get [("content-length", ","), ("transfer-encoding", "chunked")] "Content-Length"
        = some ","
      ∧ Headers.has [("content-length", ","), ("transfer-encoding", "chunked")]
          "Transfer-Encoding" = true
      ∧ (readRequest
          (fun b => (.ok (some [("content-length", ","), ("transfer-encoding", "chunked")]), b))
          (fun _ => JSNumber.nan) (BufReader.new ⟨codeUnits "GET / HTTP/1.1\r\n", []⟩ 16)).1
        = .ok (some { method := some (codeUnits "GET"), url := some (codeUnits "/"),
                      proto := some (codeUnits "HTTP/1.1"), protoMajor := 1, protoMinor := 1,
                      headers := [("content-length", ""), ("transfer-encoding", "chunked")] }))
      ∧ (readRequest
          (fun b => (.ok (some [("content-length", "5"), ("transfer-encoding", "chunked")]), b))
          (fun _ => JSNumber.nan) (BufReader.new ⟨codeUnits "HEAD / HTTP/1.1\r\n", []⟩ 17)).1
        = .error (.error "http: method cannot contain a Content-Length") :=
  ⟨⟨rfl, rfl, rfl⟩, rfl⟩

/-- Claim C15, amended: once the request line and the headers are read, if the
`Content-Length` reconciles to a non-empty value `c` (it is a single value `c`, or a
list whose elements all trim to `c`) and the headers also hold a `Transfer-Encoding`
field, then `readRequest` fails and returns no request object; when the version of the
request line parses, the error is "http: Transfer-Encoding and Content-Length cannot be
send together", or "http: method cannot contain a Content-Length" for a `HEAD` request
with `c` other than `0`. -/
theorem readRequest_transferEncoding
    (mime : BufReader → Except Err (Option Headers) × BufReader)
    (other : List Nat → JSNumber) (bufr b1 b2 : BufReader) (firstLine : List Nat)
    (headers : Headers) (cl c : String)
    (hl : tpReadLine bufr = (.ok (some firstLine), b1))
    (hh : mime b1 = (.ok (some headers), b2))
    (hcl : Headers.get headers "Content-Length" = some cl)
    (hrec : ((split cl ',').length = 1 ∧ c = cl)
      ∨ (1 < (split cl ',').length ∧ ∀ x ∈ split cl ',', trim x = c))
    (hc : c ≠ "")
    (hte : Headers.has headers "Transfer-Encoding" = true) :
    (∃ e, (readRequest mime other bufr).1 = .error e)
      ∧ ∀ proto major minor, (splitUnits firstLine 32 3)[2]? = some proto →
          parseHTTPVersion other proto = .ok (major, minor) →
          (readRequest mime other bufr).1 = .error (.error
            (if (splitUnits firstLine 32 3)[0]? = some (codeUnits "HEAD") ∧ c ≠ "0"
              then "http: method cannot contain a Content-Length"
              else "http: Transfer-Encoding and Content-Length cannot be send together")) := by
  have hte1 : Headers.has headers "transfer-encoding" = true := hte
  constructor
  · apply readRequest_fails mime other bufr b1 b2 firstLine headers hl hh
    intro req hreq
    exact ⟨_, fixLength_transferEncoding req cl c (by rw [hreq]; exact hcl) hrec hc
      (by rw [hreq]; exact hte1)⟩
  · intro proto major minor hp hv
    exact readRequest_error mime other bufr b1 b2 firstLine proto headers major minor _
      hl hh hp hv rfl _ (fixLength_transferEncoding _ cl c hcl hrec hc hte1)

theorem readRequest_transferEncoding_witness :
    (∃ e, (readRequest
        (fun b => (.ok (some [("content-length", "\u00a00,\u00a00"),
          ("transfer-encoding", "chunked")]), b))
        (fun _ => JSNumber.nan) (BufReader.new ⟨codeUnits "HEAD / HTTP/1.1\r\n", []⟩ 17)).1
        = .error e)
      ∧ ∀ proto major minor,
          (splitUnits (codeUnits "HEAD / HTTP/1.1") 32 3)[2]? = some proto →
          parseHTTPVersion (fun _ => JSNumber.nan) proto = .ok (major, minor) →
          (readRequest
            (fun b => (.ok (some [("content-length", "\u00a00,\u00a00"),
              ("transfer-encoding", "chunked")]), b))
            (fun _ => JSNumber.nan) (BufReader.new ⟨codeUnits "HEAD / HTTP/1.1\r\n", []⟩ 17)).1
            = .error (.error
              (if (splitUnits (codeUnits "HEAD / HTTP/1.1") 32 3)[0]? = some (codeUnits "HEAD")
                  ∧ "0" ≠ "0"
                then "http: method cannot contain a Content-Length"
                else "http: Transfer-Encoding and Content-Length cannot be send together")) :=
  readRequest_transferEncoding
    (fun b => (.ok (some [("content-length", "\u00a00,\u00a00"),
      ("transfer-encoding", "chunked")]), b))
    (fun _ => JSNumber.nan) (BufReader.new ⟨codeUnits "HEAD / HTTP/1.1\r\n", []⟩ 17) _ _
    (codeUnits "HEAD / HTTP/1.1")
    [("content-length", "\u00a00,\u00a00"), ("transfer-encoding", "chunked")]
    "\u00a00,\u00a00" "0" rfl rfl rfl (Or.inr ⟨by decide, by decide⟩) (by decide) rfl

/-- Claim C16: when the `Content-Length` of a request is a comma-separated list of two or
more elements, then, if all elements are identical after trimming, the header is replaced
by that single value, and if two elements differ, `readRequest` fails with "cannot contain
multiple Content-Length headers"; a single value is left unchanged. -/
theorem fixLength_reconciles
    (mime : BufReader → Except Err (Option Headers) × BufReader)
    (other : List Nat → JSNumber) (bufr b1 b2 : BufReader) (firstLine proto : List Nat)
    (headers : Headers) (major minor : Int) (req : ServerRequest) (cl : String)
    (hl : tpReadLine bufr = (.ok (some firstLine), b1))
    (hh : mime b1 = (.ok (some headers), b2))
    (hp : (splitUnits firstLine 32 3)[2]? = some proto)
    (hv : parseHTTPVersion other proto = .ok (major, minor))
    (hreq : req = { method := (splitUnits firstLine 32 3)[0]?,
                    url := (splitUnits firstLine 32 3)[1]?, proto := some proto,
                    protoMajor := major, protoMinor := minor, headers := headers })
    (hcl : Headers.get headers "Content-Length" = some cl) :
    (1 < (split cl ',').length → ∀ v, (∀ x ∈ split cl ',', trim x = v) →
        (fixLength req).2.headers = Headers.set headers "Content-Length" v
          ∧ Headers.get (fixLength req).2.headers "Content-Length" = some v
          ∧ ∀ req1, (readRequest mime other bufr).1 = .ok (some req1) →
              req1.headers = Headers.set headers "Content-Length" v)
      ∧ (1 < (split cl ',').length →
          (∃ x ∈ split cl ',', ∃ y ∈ split cl ',', trim x ≠ trim y) →
          (readRequest mime other bufr).1
              = .error (.error "cannot contain multiple Content-Length headers")
            ∧ (fixLength req).2 = req)
      ∧ ((split cl ',').length = 1 →
          (fixLength req).2 = req
            ∧ ∀ req1, (readRequest mime other bufr).1 = .ok (some req1) →
                req1.headers = headers) := by
  have hhd : req.headers = headers := by rw [hreq]
  have hcl1 : Headers.get req.headers "Content-Length" = some cl := by rw [hhd]; exact hcl
  refine ⟨?_, ?_, ?_⟩
  · intro h1 v hs
    have hfx : (fixLength req).2.headers = Headers.set headers "Content-Length" v := by
      rw [fixLength_same req cl v hcl1 h1 hs, hhd]
      split
      · rfl
      · split
        · rfl
        · rfl
    refine ⟨hfx, ?_, ?_⟩
    · rw [hfx]
      exact get_set _ _ _
    · intro req1 hr
      rw [← readRequest_ok mime other bufr b1 b2 firstLine proto headers major minor req
        hl hh hp hv hreq req1 hr]
      exact hfx
  · intro h1 hd
    have hfx := fixLength_distinct req cl hcl1 h1 hd
    refine ⟨?_, by rw [hfx]⟩
    exact readRequest_error mime other bufr b1 b2 firstLine proto headers major minor req
      hl hh hp hv hreq _ (by rw [hfx])
  · intro h1
    have hfx := fixLength_single req cl hcl1 h1
    refine ⟨hfx, ?_⟩
    intro req1 hr
    rw [← readRequest_ok mime other bufr b1 b2 firstLine proto headers major minor req
      hl hh hp hv hreq req1 hr, hfx]
    exact hhd

theorem fixLength_reconciles_witness :
    ((fixLength ⟨some (codeUnits "GET"), some (codeUnits "/"),
          some (codeUnits "HTTP/1.1"), 1, 1, [("content-length", "5,\u00a05 ,5")]⟩).2.headers
        = Headers.set [("content-length", "5,\u00a05 ,5")] "Content-Length" "5"
      ∧ Headers.get (fixLength ⟨some (codeUnits "GET"), some (codeUnits "/"),
          some (codeUnits "HTTP/1.1"), 1, 1, [("content-length", "5,\u00a05 ,5")]⟩).2.headers "Content-Length"
        = some "5"
      ∧ ∀ req1, (readRequest (fun b => (.ok (some [("content-length", "5,\u00a05 ,5")]), b))
            (fun _ => JSNumber.nan)
            (BufReader.new ⟨codeUnits "GET / HTTP/1.1\r\n", []⟩ 16)).1 = .ok (some req1) →
          req1.headers = Headers.set [("content-length", "5,\u00a05 ,5")] "Content-Length" "5") :=
  (fixLength_reconciles (fun b => (.ok (some [("content-length", "5,\u00a05 ,5")]), b))
    (fun _ => JSNumber.nan) (BufReader.new ⟨codeUnits "GET / HTTP/1.1\r\n", []⟩ 16) _ _
    (codeUnits "GET / HTTP/1.1") (codeUnits "HTTP/1.1")
    [("content-length", "5,\u00a05 ,5")] 1 1 _ "5,\u00a05 ,5" rfl rfl rfl rfl rfl rfl).1
    (by decide) "5" (by decide)

/-! ## The Replit database client -/

theorem DB_URL_some (url : String) (h : url ≠ "") : ReplitDB.DB_URL ⟨some url⟩ = .ok url := by
  unfold ReplitDB.DB_URL
  rw [truthy_some url h, if_pos rfl]
  rfl

theorem DB_URL_unset (db : ReplitDB) (h : db._DB_URL = none ∨ db._DB_URL = some "") :
    db.DB_URL = .error (.error "REPLIT_DB_URL is not available as an enviroment variable") := by
  unfold ReplitDB.DB_URL
  rcases h with h | h <;> rw [h] <;> rfl

/-- Claim C17: with `REPLIT_DB_URL` set to a non-empty `url`, `set(key, value)` sends
exactly one `POST` to `url` with the form body `key=value` and returns `true` exactly when
the status is 200; `get(key)` sends exactly one `GET` to `url/key` and returns the text of
the response when the status is 200, `undefined` otherwise; `delete(key)` sends exactly one
`DELETE` to `url/key` and returns `true` exactly when the status is 204.  With the
variable unset or empty every operation throws and no request is sent. -/
theorem replitDB_requests (net : Net) (key value : String) :
    (∀ url, url ≠ "" →
        ((ReplitDB.set ⟨some url⟩ net key value).2.log
            = net.log ++ [⟨url, "POST", some [(key, value)]⟩]
          ∧ ∀ resp, net.answer net.log ⟨url, "POST", some [(key, value)]⟩ = .ok resp →
              (ReplitDB.set ⟨some url⟩ net key value).1 = .ok (decide (resp.status = 200)))
        ∧ ((ReplitDB.get ⟨some url⟩ net key).2.log
            = net.log ++ [⟨url ++ "/" ++ key, "GET", none⟩]
          ∧ ∀ resp, net.answer net.log ⟨url ++ "/" ++ key, "GET", none⟩ = .ok resp →
              (ReplitDB.get ⟨some url⟩ net key).1
                = .ok (if resp.status = 200 then some resp.text else none))
        ∧ ((ReplitDB.delete ⟨some url⟩ net key).2.log
            = net.log ++ [⟨url ++ "/" ++ key, "DELETE", none⟩]
          ∧ ∀ resp, net.answer net.log ⟨url ++ "/" ++ key, "DELETE", none⟩ = .ok resp →
              (ReplitDB.delete ⟨some url⟩ net key).1 = .ok (decide (resp.status = 204))))
      ∧ ∀ db : ReplitDB, (db._DB_URL = none ∨ db._DB_URL = some "") →
          db.set net key value
              = (.error (.error "REPLIT_DB_URL is not available as an enviroment variable"), net)
            ∧ db.get net key
              = (.error (.error "REPLIT_DB_URL is not available as an enviroment variable"), net)
            ∧ db.delete net key
              = (.error (.error "REPLIT_DB_URL is not available as an enviroment variable"),
                  net) := by
  constructor
  · intro url hurl
    have hu := DB_URL_some url hurl
    refine ⟨⟨?_, ?_⟩, ⟨?_, ?_⟩, ⟨?_, ?_⟩⟩
    · unfold ReplitDB.set fetch
      rw [hu]
      simp only
      cases net.answer net.log ⟨url, "POST", some [(key, value)]⟩ <;> rfl
    · intro resp hr
      unfold ReplitDB.set fetch
      rw [hu]
      simp only
      rw [hr]
      simp only
      by_cases h : resp.status = 200 <;> simp [h]
    · unfold ReplitDB.get fetch
      rw [hu]
      simp only
      cases h : net.answer net.log ⟨url ++ "/" ++ key, "GET", none⟩ with
      | error e => rfl
      | ok resp =>
        simp only
        split <;> rfl
    · intro resp hr
      unfold ReplitDB.get fetch
      rw [hu]
      simp only
      rw [hr]
      simp only
      by_cases h : resp.status = 200
      · rw [if_pos h, if_pos h]
      · rw [if_neg h, if_neg h]
    · unfold ReplitDB.delete fetch
      rw [hu]
      simp only
      cases net.answer net.log ⟨url ++ "/" ++ key, "DELETE", none⟩ <;> rfl
    · intro resp hr
      unfold ReplitDB.delete fetch
      rw [hu]
      simp only
      rw [hr]
      simp only
      by_cases h : resp.status = 204 <;> simp [h]
  · intro db hdb
    have hu := DB_URL_unset db hdb
    refine ⟨?_, ?_, ?_⟩
    · unfold ReplitDB.set
      rw [hu]
    · unfold ReplitDB.get
      rw [hu]
    · unfold ReplitDB.delete
      rw [hu]

theorem replitDB_requests_witness :
    ((ReplitDB.set ⟨some "http://db"⟩ ⟨[], fun _ _ => .ok ⟨200, "v"⟩⟩ "k" "v").2.log
        = [] ++ [⟨"http://db", "POST", some [("k", "v")]⟩]
      ∧ ∀ resp, (.ok ⟨200, "v"⟩ : Except Err FetchResponse) = .ok resp →
          (ReplitDB.set ⟨some "http://db"⟩ ⟨[], fun _ _ => .ok ⟨200, "v"⟩⟩ "k" "v").1
            = .ok (decide (resp.status = 200)))
      ∧ (ReplitDB.get ⟨some "http://db"⟩ ⟨[], fun _ _ => .ok ⟨200, "v"⟩⟩ "k").1
        = .ok (some "v")
      ∧ (ReplitDB.get ⟨some "http://db"⟩ ⟨[], fun _ _ => .ok ⟨404, ""⟩⟩ "k").1 = .ok none
      ∧ (ReplitDB.delete ⟨some "http://db"⟩ ⟨[], fun _ _ => .ok ⟨204, ""⟩⟩ "k")
        = (.ok true, ⟨[⟨"http://db/k", "DELETE", none⟩], fun _ _ => .ok ⟨204, ""⟩⟩)
      ∧ (ReplitDB.set ⟨none⟩ ⟨[], fun _ _ => .ok ⟨200, ""⟩⟩ "k" "v").2.log = []
      ∧ (ReplitDB.set ⟨some ""⟩ ⟨[], fun _ _ => .ok ⟨200, ""⟩⟩ "k" "v").1
        = .error (.error "REPLIT_DB_URL is not available as an enviroment variable") :=
  ⟨((replitDB_requests ⟨[], fun _ _ => .ok ⟨200, "v"⟩⟩ "k" "v").1 "http://db" (by decide)).1,
    rfl, rfl, rfl, rfl, rfl⟩

/-! ## The format of a chunked body -/

/-- The bytes the source writes for a list of chunks are the format in words. -/
theorem wire_eq_chunkedFormat (chunks : List (List Byte)) : wire chunks = chunkedFormat chunks := by
  induction chunks with
  | nil => rfl
  | cons x cs ih =>
    by_cases hx : 0 < x.length
    · show (if x.length ≤ 0 then _ else _) = _
      rw [if_neg (by omega), ih]
      unfold chunkedFormat
      rw [List.filter_cons_of_pos (by simpa using hx)]
      simp only [List.map_cons, List.flatten_cons, chunkFormat, CR, LF, List.append_assoc]
    · show (if x.length ≤ 0 then _ else _) = _
      rw [if_pos (by omega), ih]
      unfold chunkedFormat
      rw [List.filter_cons_of_neg (by simpa using hx)]

/-- Claim C18: on a buffered writer in good order over a writer that makes progress,
`writeChunkedBody` succeeds and what it writes, after the bytes written before, is: for
each chunk of length `n > 0`, in order, the numeral of `n` in lower-case hexadecimal, CR LF,
the `n` bytes, CR LF; nothing for an empty chunk; and at the end `0` CR LF CR LF, once.
The numeral reads back as `n` and has only the digits `0` to `9` and `a` to `f`. -/
theorem writeChunkedBody_format (w : BufWriter) (chunks : List (List Byte)) (hw : w.WF) :
    (∃ w1, writeChunkedBody w chunks = (.ok (), w1)
        ∧ w1.writer.out ++ w1.pending = w.writer.out ++ w.pending ++ chunkedFormat chunks)
      ∧ (∀ size : Int, chunkedOutput w.writer size chunks = w.writer.out ++ chunkedFormat chunks)
      ∧ chunkedFormat [] = [48, 13, 10, 13, 10]
      ∧ (∀ c cs, c = [] → chunkedFormat (c :: cs) = chunkedFormat cs)
      ∧ (∀ c cs, 0 < c.length → chunkedFormat (c :: cs)
          = toString16 c.length ++ [13, 10] ++ c ++ [13, 10] ++ chunkedFormat cs)
      ∧ ∀ n : Nat, parseInt16 (toString16 n) = some (n : Int)
          ∧ ∀ d ∈ toString16 n, (48 ≤ d ∧ d ≤ 57) ∨ (97 ≤ d ∧ d ≤ 102) := by
  refine ⟨?_, ?_, rfl, ?_, ?_, ?_⟩
  · obtain ⟨w1, h1, _, hout⟩ := writeChunkedBody_good w chunks hw
    exact ⟨w1, h1, by rw [hout, wire_eq_chunkedFormat]⟩
  · intro size
    rw [(chunkedOutput_eq w.writer size chunks hw.good).2.2, wire_eq_chunkedFormat]
  · intro c cs hc
    subst hc
    rfl
  · intro c cs hc
    rw [← wire_eq_chunkedFormat, ← wire_eq_chunkedFormat]
    show (if c.length ≤ 0 then _ else _) = _
    rw [if_neg (by omega)]
  · intro n
    refine ⟨parseInt16_toString16 n, ?_⟩
    intro d hd
    obtain ⟨x, hx, rfl⟩ := toString16_chars n d hd
    exact hexChar_range x hx

theorem writeChunkedBody_format_witness :
    (∃ w1, writeChunkedBody (BufWriter.new ⟨[7], [.accept 1]⟩ 4)
          [[1, 2, 3], [], List.replicate 26 9] = (.ok (), w1)
        ∧ w1.writer.out ++ w1.pending
          = (BufWriter.new ⟨[7], [.accept 1]⟩ 4).writer.out
            ++ (BufWriter.new ⟨[7], [.accept 1]⟩ 4).pending
            ++ chunkedFormat [[1, 2, 3], [], List.replicate 26 9])
      ∧ chunkedFormat [[1, 2, 3], [], List.replicate 26 9]
        = [51, 13, 10, 1, 2, 3, 13, 10, 49, 97, 13, 10] ++ List.replicate 26 9
          ++ [13, 10, 48, 13, 10, 13, 10] :=
  ⟨(writeChunkedBody_format (BufWriter.new ⟨[7], [.accept 1]⟩ 4)
      [[1, 2, 3], [], List.replicate 26 9]
      (BufWriter.newWriter_wf _ _ (by intro a ha; simp at ha; subst ha; simp))).1, by decide⟩

end Deno
